import Mathlib

/-!
# Chronos: sequential scheduling engine and metrics collector

A shallow embedding of `src/scheduler_engine.cpp`, `include/scheduler_engine.h`,
`src/metrics_collector.cpp` and of the worker thread of `src/worker_pool.cpp`.

Modelling conventions.

* Simulated time is `float` in the C++ code.  The engine is given twice: over the
  exact rational numbers (`run`), and over an arithmetic that is a parameter
  (`Arithmetic.run`), instantiated with the rounding of binary32 (`binary32`).
  The two are the same lines of code and agree for exact arithmetic
  (`exactArithmetic_run`).  The general theorems are proved on the exact engine;
  the claims they settle are stated through values the program itself computes
  (its own sums, differences and comparisons).  Where rounding decides, the
  engine in binary32 is evaluated.  Infinities and NaN are outside the model.
* `std::size_t` counters are natural numbers.  The one place where the code
  subtracts on `std::size_t` (`dispatch_count - 1`) is modelled with the
  wrap-around of a 64 bit unsigned subtraction.  Increments are not reduced
  modulo `2 ^ 64`: a counter cannot reach that value in a run.
* The policy object is passed by reference and may carry state; the embedding
  threads a policy state of type `σ` through the calls.
* A pointer into `ready_queue` is the index of the element it points to.
-/

namespace chronos

/-! ## Data model -/

/-- Tolerance `EPSILON = 1e-5f` of `scheduler_engine.cpp`. -/
def EPSILON : ℚ := 1 / 100000

/-- Life cycle states of a job. -/
inductive JobState where
  | NEW
  | READY
  | RUNNING
  | FINISHED
deriving DecidableEq, Repr

/-- Modelled from the spec: `job.h` is not part of the source tree.  The fields
are the ones the spec lists for a job and the engine reads or writes through
the getters and setters of `Job`. -/
structure Job where
  id : Int
  arrival_time : ℚ
  burst_time : ℚ
  remaining_time : ℚ
  priority : Int
  state : JobState
  start_time : ℚ
  finish_time : ℚ
  waiting_time : ℚ
  turnaround_time : ℚ
deriving DecidableEq, Repr

/-- Modelled from the spec: the constructor of `Job` (`job.h` is not part of the
source tree).  `remaining_time` starts at `burst_time`, the state is `NEW` and
`start_time` holds the negative "unset" sentinel the engine tests with
`getStartTime() < 0.0f`. -/
def Job.create (id : Int) (arrival_time burst_time : ℚ) (priority : Int) : Job :=
  { id := id, arrival_time := arrival_time, burst_time := burst_time,
    remaining_time := burst_time, priority := priority, state := JobState.NEW,
    start_time := -1, finish_time := 0, waiting_time := 0, turnaround_time := 0 }

/-- Modelled from the spec: `Job::calculateMetrics` (`job.h` is not part of the
source tree): `turnaround = finish_time - arrival_time` and
`waiting = turnaround - burst_time`. -/
def Job.calculateMetrics (j : Job) : Job :=
  { j with
    turnaround_time := j.finish_time - j.arrival_time,
    waiting_time := (j.finish_time - j.arrival_time) - j.burst_time }

/-- A job as the loader hands it over: nothing has run yet. -/
def Job.Fresh (j : Job) : Prop :=
  j.remaining_time = j.burst_time ∧ j.start_time < 0 ∧ j.state = JobState.NEW

instance (j : Job) : Decidable j.Fresh := by
  unfold Job.Fresh; infer_instance

/-- Modelled from the spec: `scheduling_policy.h` is not part of the source
tree.  The interface `ISchedulingPolicy` with the state of the policy object made
explicit:

* `getNextJob` receives the ready queue and answers with `none` (a null pointer)
  or the index of the element the returned pointer designates; it does not
  change the queue;
* `getTimeSlice` is the quantum, `0` meaning run to completion;
* `onJobCompletion` is the hook called after every dispatch with the job and the
  clock; besides updating the policy it may age the priority of the job, the one
  field of a job the spec lets a policy change, so it answers with the new
  policy state and the priority the job has afterwards. -/
structure ISchedulingPolicy (σ : Type) where
  getNextJob : σ → List Job → Option Nat × σ
  getTimeSlice : σ → ℚ
  onJobCompletion : σ → Job → ℚ → σ × Int

/-- The pointer returned by `getNextJob` is null or points into the queue it was
given. -/
def ISchedulingPolicy.Selects {σ : Type} (P : ISchedulingPolicy σ) : Prop :=
  ∀ (s : σ) (rq : List Job) (i : Nat), (P.getNextJob s rq).1 = some i → i < rq.length

/-- Width of `std::size_t`. -/
def SIZE_BITS : Nat := 64

/-- Subtraction on `std::size_t`: the result wraps around modulo `2 ^ 64`. -/
def sizeSub (a b : Nat) : Nat := (a + 2 ^ SIZE_BITS - b % 2 ^ SIZE_BITS) % 2 ^ SIZE_BITS

/-- The aggregate `ScheduleResult` of `scheduler_engine.h`. -/
structure ScheduleResult where
  completed_jobs : List Job := []
  total_waiting_time : ℚ := 0
  total_turnaround_time : ℚ := 0
  cpu_active_time : ℚ := 0
  idle_time : ℚ := 0
  makespan : ℚ := 0
  dispatch_count : Nat := 0
deriving DecidableEq, Repr

/-- The getter `ScheduleResult::averageWaitingTime`. -/
def ScheduleResult.averageWaitingTime (r : ScheduleResult) : ℚ :=
  if r.completed_jobs.isEmpty then 0
  else r.total_waiting_time / (r.completed_jobs.length : ℚ)

/-- The getter `ScheduleResult::averageTurnaroundTime`. -/
def ScheduleResult.averageTurnaroundTime (r : ScheduleResult) : ℚ :=
  if r.completed_jobs.isEmpty then 0
  else r.total_turnaround_time / (r.completed_jobs.length : ℚ)

/-- The getter `ScheduleResult::cpuUtilization`: no clamping. -/
def ScheduleResult.cpuUtilization (r : ScheduleResult) : ℚ :=
  if r.makespan ≤ 0 then 0 else r.cpu_active_time / r.makespan

/-- The getter `ScheduleResult::contextSwitches`. -/
def ScheduleResult.contextSwitches (r : ScheduleResult) : Nat :=
  if r.dispatch_count > 0 then sizeSub r.dispatch_count 1 else 0

/-! ## The engine -/

/-- The comparator `arrivalLess` of `scheduler_engine.cpp`. -/
def arrivalLess (lhs rhs : Job) : Bool :=
  if lhs.arrival_time ≠ rhs.arrival_time then
    decide (lhs.arrival_time < rhs.arrival_time)
  else
    decide (lhs.id < rhs.id)

/-- The order `std::sort` establishes: `a` may stand before `b` when `b` is not
less than `a`. -/
def arrivalLE (a b : Job) : Prop := arrivalLess b a = false

instance : DecidableRel arrivalLE := fun a b => by
  unfold arrivalLE; infer_instance

/-- The call `std::sort(jobs.begin(), jobs.end(), arrivalLess)`.  Jobs that are
equivalent under the comparator keep their input order here; `std::sort` leaves
their order unspecified. -/
def sortJobs (jobs : List Job) : List Job := jobs.insertionSort arrivalLE

/-- One entry of the dispatch log: which job was dispatched and the clock at
which its slice started (`current_time` just before `current_time += execution`).
The log is an observation of the run; the C++ code does not store it. -/
structure DispatchEvent where
  id : Int
  clock : ℚ
deriving DecidableEq, Repr

/-- The local variables of `SchedulerEngine::run` at the head of the main loop,
together with the state of the policy object and the dispatch log. -/
structure EngineState (σ : Type) where
  simulation_start : ℚ
  pending : List Job
  ready_queue : List Job
  current_time : ℚ
  result : ScheduleResult
  policy : σ
  log : List DispatchEvent

/-- The admission loop (`while (!pending.empty() && pending.front().getArrivalTime()
<= current_time + EPSILON)`): returns the remaining pending list and the grown
ready queue. -/
def admitJobs (current_time : ℚ) : List Job → List Job → List Job × List Job
  | [], ready_queue => ([], ready_queue)
  | job :: rest, ready_queue =>
    if job.arrival_time ≤ current_time + EPSILON then
      admitJobs current_time rest (ready_queue ++ [{ job with state := JobState.READY }])
    else
      (job :: rest, ready_queue)

/-- The state after the admission loop of one iteration. -/
def admitted {σ : Type} (s : EngineState σ) : EngineState σ :=
  { s with
    pending := (admitJobs s.current_time s.pending s.ready_queue).1,
    ready_queue := (admitJobs s.current_time s.pending s.ready_queue).2 }

/-- The branch `if (ready_queue.empty())`: jump the clock to the next arrival and
book the gap as idle time. -/
def idleStep {σ : Type} (s : EngineState σ) : EngineState σ :=
  match s.pending with
  | [] => s
  | next :: _ =>
    if next.arrival_time > s.current_time then
      { s with
        result := { s.result with
          idle_time := s.result.idle_time + (next.arrival_time - s.current_time) },
        current_time := next.arrival_time }
    else s

/-- The length of the slice: `min(remaining, time_slice)` for a positive quantum,
the whole remaining time otherwise and whenever the slice would be below
`EPSILON`. -/
def sliceOf (time_slice remaining : ℚ) : ℚ :=
  let execution := if time_slice > 0 then min remaining time_slice else remaining
  if execution < EPSILON then remaining else execution

/-- The remaining time after the slice, clamped to zero below `EPSILON`. -/
def leftover (remaining execution : ℚ) : ℚ :=
  let new_remaining := remaining - execution
  if new_remaining < EPSILON then 0 else new_remaining

/-- Lines 71 to 74: the first dispatch of a job stamps `start_time` with
`dispatch_time = max(current_time, arrival_time)`. -/
def startedJob (current_time : ℚ) (job : Job) : Job :=
  if job.start_time < 0 then
    { job with start_time := max current_time job.arrival_time }
  else job

/-- Lines 75 to 78: the clock after the idle gap in front of a dispatch, which is
taken only when it exceeds `EPSILON`. -/
def dispatchClock (current_time : ℚ) (job : Job) : ℚ :=
  if max current_time job.arrival_time - current_time > EPSILON then
    max current_time job.arrival_time
  else current_time

/-- Lines 103 to 106: the job at the moment it completes. -/
def finishedJob (job : Job) (now : ℚ) : Job :=
  Job.calculateMetrics
    { job with remaining_time := 0, finish_time := now, state := JobState.FINISHED }

/-- The dispatch of the job at index `idx` of the ready queue (lines 71 to 123 of
`scheduler_engine.cpp`); `job` is `ready_queue[idx]`. -/
def dispatch {σ : Type} (P : ISchedulingPolicy σ) (s : EngineState σ) (idx : Nat)
    (job : Job) : EngineState σ :=
  let dispatch_time := max s.current_time job.arrival_time
  let job1 := startedJob s.current_time job
  let idle_time :=
    if dispatch_time - s.current_time > EPSILON then
      s.result.idle_time + (dispatch_time - s.current_time)
    else s.result.idle_time
  let clock := dispatchClock s.current_time job
  let time_slice := P.getTimeSlice s.policy
  let remaining := job1.remaining_time
  let execution := sliceOf time_slice remaining
  let now := clock + execution
  let new_remaining := leftover remaining execution
  let event : DispatchEvent := { id := job.id, clock := clock }
  if new_remaining ≤ EPSILON then
    let finished := finishedJob { job1 with remaining_time := new_remaining } now
    let hook := P.onJobCompletion s.policy finished now
    { s with
      ready_queue := s.ready_queue.eraseIdx idx,
      current_time := now,
      policy := hook.1,
      log := s.log ++ [event],
      result := { s.result with
        completed_jobs := s.result.completed_jobs ++ [{ finished with priority := hook.2 }],
        total_waiting_time := s.result.total_waiting_time + finished.waiting_time,
        total_turnaround_time := s.result.total_turnaround_time + finished.turnaround_time,
        cpu_active_time := s.result.cpu_active_time + execution,
        idle_time := idle_time,
        makespan := now - s.simulation_start,
        dispatch_count := s.result.dispatch_count + 1 } }
  else
    let preempted : Job :=
      { job1 with remaining_time := new_remaining, state := JobState.READY }
    let hook := P.onJobCompletion s.policy preempted now
    { s with
      ready_queue := s.ready_queue.set idx { preempted with priority := hook.2 },
      current_time := now,
      policy := hook.1,
      log := s.log ++ [event],
      result := { s.result with
        cpu_active_time := s.result.cpu_active_time + execution,
        idle_time := idle_time,
        makespan := now - s.simulation_start,
        dispatch_count := s.result.dispatch_count + 1 } }

/-- The selection (`policy.getNextJob`, with the fall back to the head of the
queue on a null pointer) followed by the dispatch.  `none` stands for the
undefined behaviour of a pointer outside the queue. -/
def selectAndDispatch {σ : Type} (P : ISchedulingPolicy σ) (s : EngineState σ) :
    Option (EngineState σ) :=
  let choice := P.getNextJob s.policy s.ready_queue
  let idx := choice.1.getD 0
  match s.ready_queue[idx]? with
  | none => none
  | some job => some (dispatch P { s with policy := choice.2 } idx job)

/-- One iteration of the main loop `while (!pending.empty() || !ready_queue.empty())`. -/
def step {σ : Type} (P : ISchedulingPolicy σ) (s : EngineState σ) : Option (EngineState σ) :=
  let s1 := admitted s
  if s1.ready_queue.isEmpty then some (idleStep s1) else selectAndDispatch P s1

/-- The loop condition negated: nothing pending and nothing ready. -/
def EngineState.finished {σ : Type} (s : EngineState σ) : Bool :=
  s.pending.isEmpty && s.ready_queue.isEmpty

/-- The main loop, bounded by `fuel` iterations.  `none`: the fuel ran out or the
policy returned a pointer outside the ready queue. -/
def runLoop {σ : Type} (P : ISchedulingPolicy σ) : Nat → EngineState σ → Option (EngineState σ)
  | 0, s => if s.finished then some s else none
  | fuel + 1, s => if s.finished then some s else (step P s).bind (runLoop P fuel)

/-- The state at the first test of the loop condition, for a non-empty job list. -/
def initialState {σ : Type} (pol : σ) (jobs : List Job) : EngineState σ :=
  let sorted := sortJobs jobs
  let simulation_start := (sorted.head?.map Job.arrival_time).getD 0
  { simulation_start := simulation_start, pending := sorted, ready_queue := [],
    current_time := simulation_start, result := {}, policy := pol, log := [] }

/-- The final clamp `if (result.makespan < EPSILON) result.makespan = 0`. -/
def clampMakespan (r : ScheduleResult) : ScheduleResult :=
  if r.makespan < EPSILON then { r with makespan := 0 } else r

/-- The run up to the end of the main loop: the final state of the engine (result
before the clamp of the makespan, policy state, dispatch log). -/
def runState {σ : Type} (fuel : Nat) (P : ISchedulingPolicy σ) (pol : σ) (jobs : List Job) :
    Option (EngineState σ) :=
  runLoop P fuel (initialState pol jobs)

/-- The method `SchedulerEngine::run` (printing left out). -/
def run {σ : Type} (fuel : Nat) (P : ISchedulingPolicy σ) (pol : σ) (jobs : List Job) :
    Option ScheduleResult :=
  if jobs.isEmpty then some {}
  else (runState fuel P pol jobs).map fun s => clampMakespan s.result

/-! ## Policies of the spec -/

/-- The index of the first job of the list that no other job beats: a linear scan
keeping the best job seen so far and replacing it only by a strictly better one. -/
def scanBest (better : Job → Job → Bool) (best : Job) (bestIdx i : Nat) : List Job → Nat
  | [] => bestIdx
  | j :: rest =>
    if better j best then scanBest better j i (i + 1) rest
    else scanBest better best bestIdx (i + 1) rest

/-- The selection of a stateless policy by a strict preference `better`; `none` on
an empty queue. -/
def selectBest (better : Job → Job → Bool) : List Job → Option Nat
  | [] => none
  | j :: rest => some (scanBest better j 0 1 rest)

/-- A policy without state: selection by `better`, quantum `time_slice`, a hook
that does nothing. -/
def statelessPolicy (better : Job → Job → Bool) (time_slice : ℚ) : ISchedulingPolicy Unit :=
  { getNextJob := fun _ rq => (selectBest better rq, ()),
    getTimeSlice := fun _ => time_slice,
    onJobCompletion := fun _ job _ => ((), job.priority) }

/-- Modelled from the spec: the FCFS policy (its source file is not part of the
source tree): "selects earliest `arrival_time`, tie-break by id; quantum 0". -/
def fcfsPolicy : ISchedulingPolicy Unit := statelessPolicy arrivalLess 0

/-- The preference of SJF: smaller remaining time, ties broken by the lower id. -/
def shorterRemaining (a b : Job) : Bool :=
  if a.remaining_time ≠ b.remaining_time then decide (a.remaining_time < b.remaining_time)
  else decide (a.id < b.id)

/-- Modelled from the spec: the non-preemptive SJF policy (its source file is not
part of the source tree): "selects smallest `remaining_time` among currently ready
jobs only; quantum 0", ties broken by the lower id. -/
def sjfPolicy : ISchedulingPolicy Unit := statelessPolicy shorterRemaining 0

/-- Modelled from the spec: the Round Robin policy (its source file is not part of
the source tree): "selects head of an insertion-ordered ready queue; quantum > 0;
completion hook appends preempted jobs to the tail".  The state is the policy's
own queue of job ids: `getNextJob` first appends the ids of the ready jobs it has
not seen yet, in the order of the ready queue, and selects the job whose id is at
the head; the hook removes the id of the job and, when the job is not finished,
appends it at the tail. -/
def roundRobinPolicy (quantum : ℚ) : ISchedulingPolicy (List Int) :=
  { getNextJob := fun q rq =>
      let q1 := q ++ (rq.map Job.id).filter fun i => !q.contains i
      match q1 with
      | [] => (none, q1)
      | h :: _ => (rq.findIdx? (fun j => j.id == h), q1),
    getTimeSlice := fun _ => quantum,
    onJobCompletion := fun q job _ =>
      let q1 := q.erase job.id
      (if job.state = JobState.FINISHED then q1 else q1 ++ [job.id], job.priority) }

/-! ## The metrics collector -/

/-- The data members of `MetricsCollector` (`metrics_collector.cpp`; the mutex is
left out). -/
structure MetricsCollector where
  completed_jobs_ : List Job
  total_waiting_time_ : ℚ
  total_turnaround_time_ : ℚ
  cpu_active_time_ : ℚ
  idle_time_ : ℚ
  makespan_ : ℚ
  dispatch_count_ : Nat
deriving DecidableEq, Repr

namespace MetricsCollector

/-- The constructor `MetricsCollector::MetricsCollector`. -/
def construct : MetricsCollector :=
  { completed_jobs_ := [], total_waiting_time_ := 0, total_turnaround_time_ := 0,
    cpu_active_time_ := 0, idle_time_ := 0, makespan_ := 0, dispatch_count_ := 0 }

/-- The method `recordJobCompletion`. -/
def recordJobCompletion (m : MetricsCollector) (job : Job) : MetricsCollector :=
  { m with
    completed_jobs_ := m.completed_jobs_ ++ [job],
    total_waiting_time_ := m.total_waiting_time_ + job.waiting_time,
    total_turnaround_time_ := m.total_turnaround_time_ + job.turnaround_time }

/-- The method `recordCpuActivity`: only positive durations are booked. -/
def recordCpuActivity (m : MetricsCollector) (duration : ℚ) : MetricsCollector :=
  if duration > 0 then { m with cpu_active_time_ := m.cpu_active_time_ + duration } else m

/-- The method `recordIdleTime`: only positive durations are booked. -/
def recordIdleTime (m : MetricsCollector) (duration : ℚ) : MetricsCollector :=
  if duration > 0 then { m with idle_time_ := m.idle_time_ + duration } else m

/-- The method `recordContextSwitch`. -/
def recordContextSwitch (m : MetricsCollector) : MetricsCollector :=
  { m with dispatch_count_ := m.dispatch_count_ + 1 }

/-- The method `setMakespan`. -/
def setMakespan (m : MetricsCollector) (makespan : ℚ) : MetricsCollector :=
  { m with makespan_ := makespan }

/-- The method `reset`. -/
def reset (_m : MetricsCollector) : MetricsCollector := construct

/-- The private helper `calculateAverage`. -/
def calculateAverage (total : ℚ) (count : Nat) : ℚ :=
  if count = 0 then 0 else total / (count : ℚ)

/-- The getter `getAverageWaitingTime`. -/
def getAverageWaitingTime (m : MetricsCollector) : ℚ :=
  calculateAverage m.total_waiting_time_ m.completed_jobs_.length

/-- The getter `getAverageTurnaroundTime`. -/
def getAverageTurnaroundTime (m : MetricsCollector) : ℚ :=
  calculateAverage m.total_turnaround_time_ m.completed_jobs_.length

/-- The getter `getCpuUtilization`. -/
def getCpuUtilization (m : MetricsCollector) : ℚ :=
  if m.makespan_ ≤ 0 then 0 else min 1 (m.cpu_active_time_ / m.makespan_)

/-- The getter `getContextSwitches`. -/
def getContextSwitches (m : MetricsCollector) : Nat :=
  if m.dispatch_count_ > 0 then sizeSub m.dispatch_count_ 1 else 0

end MetricsCollector

/-- A call of one of the mutating methods of `MetricsCollector`. -/
inductive MetricsCall where
  | recordJobCompletion (job : Job)
  | recordCpuActivity (duration : ℚ)
  | recordIdleTime (duration : ℚ)
  | recordContextSwitch
  | setMakespan (makespan : ℚ)
  | reset
deriving DecidableEq, Repr

/-- The effect of one call. -/
def MetricsCollector.call (m : MetricsCollector) : MetricsCall → MetricsCollector
  | MetricsCall.recordJobCompletion job => m.recordJobCompletion job
  | MetricsCall.recordCpuActivity duration => m.recordCpuActivity duration
  | MetricsCall.recordIdleTime duration => m.recordIdleTime duration
  | MetricsCall.recordContextSwitch => m.recordContextSwitch
  | MetricsCall.setMakespan makespan => m.setMakespan makespan
  | MetricsCall.reset => m.reset

/-- The collector after a sequence of calls on a freshly constructed object. -/
def MetricsCollector.afterCalls (calls : List MetricsCall) : MetricsCollector :=
  calls.foldl MetricsCollector.call MetricsCollector.construct

/-- The calls since the last `reset` (all of them when there was none). -/
def callsSinceReset : List MetricsCall → List MetricsCall
  | [] => []
  | c :: rest =>
    if MetricsCall.reset ∈ rest then callsSinceReset rest
    else if c = MetricsCall.reset then rest
    else c :: rest

/-- The number of `recordContextSwitch` calls since construction or the last
`reset`. -/
def switchCalls (calls : List MetricsCall) : Nat :=
  (callsSinceReset calls).count MetricsCall.recordContextSwitch

end chronos

/-! ## Names for the parts of a dispatch -/

namespace chronos

/-- The slice the job gets in a dispatch from state `s`. -/
def executionOf {σ : Type} (P : ISchedulingPolicy σ) (s : EngineState σ) (job : Job) : ℚ :=
  sliceOf (P.getTimeSlice s.policy) job.remaining_time

/-- The clock at the end of the dispatch of `job` from state `s`. -/
def clockAfter {σ : Type} (P : ISchedulingPolicy σ) (s : EngineState σ) (job : Job) : ℚ :=
  dispatchClock s.current_time job + executionOf P s job

/-- The job as it is moved into `completed_jobs` when the dispatch finishes it. -/
def completedJob {σ : Type} (P : ISchedulingPolicy σ) (s : EngineState σ) (job : Job) : Job :=
  let finished := finishedJob
    { startedJob s.current_time job with
      remaining_time := leftover job.remaining_time (executionOf P s job) }
    (clockAfter P s job)
  { finished with priority := (P.onJobCompletion s.policy finished (clockAfter P s job)).2 }

/-- The job as it stays in the ready queue when the dispatch preempts it. -/
def preemptedJob {σ : Type} (P : ISchedulingPolicy σ) (s : EngineState σ) (job : Job) : Job :=
  let preempted : Job :=
    { startedJob s.current_time job with
      remaining_time := leftover job.remaining_time (executionOf P s job),
      state := JobState.READY }
  { preempted with priority := (P.onJobCompletion s.policy preempted (clockAfter P s job)).2 }

/-- The dispatch completes the job: what is left after the slice is within
`EPSILON`. -/
def completes {σ : Type} (P : ISchedulingPolicy σ) (s : EngineState σ) (job : Job) : Prop :=
  leftover job.remaining_time (executionOf P s job) ≤ EPSILON

instance {σ : Type} (P : ISchedulingPolicy σ) (s : EngineState σ) (job : Job) :
    Decidable (completes P s job) := by
  unfold completes; infer_instance

/-- The immutable part of a job: id, arrival time and burst time. -/
def Job.key (j : Job) : Int × ℚ × ℚ := (j.id, j.arrival_time, j.burst_time)

/-- The jobs the engine still holds: the ready queue followed by the pending list. -/
def EngineState.queue {σ : Type} (s : EngineState σ) : List Job := s.ready_queue ++ s.pending

end chronos

/-! ## A bound on the number of iterations -/

namespace chronos

/-- The test of the admission loop. -/
def arrived (current_time : ℚ) (job : Job) : Bool :=
  decide (job.arrival_time ≤ current_time + EPSILON)

/-- The state change of the admission loop. -/
def Job.toReady (job : Job) : Job := { job with state := JobState.READY }

/-- The number of dispatches a job can still take is at most its weight: every
dispatch that does not complete the job takes at least `EPSILON` off its remaining
time. -/
def weight (job : Job) : Nat := ⌊job.remaining_time / EPSILON⌋₊ + 1

/-- The next iteration is an idle one: nothing is ready and the next arrival lies
more than `EPSILON` ahead of the clock. -/
def stalled {σ : Type} (s : EngineState σ) : Bool :=
  s.ready_queue.isEmpty &&
    match s.pending with
    | [] => false
    | next :: _ => !arrived s.current_time next

/-- A number of iterations after which the main loop has stopped. -/
def fuelBound {σ : Type} (s : EngineState σ) : Nat :=
  2 * (s.queue.map weight).sum + (if stalled s then 1 else 0)

end chronos

/-! ## Invariants of the main loop -/

namespace chronos

/-- The books of the engine: the clock has advanced by the idle time plus the
active time, the idle time is not negative, and once nothing is pending the
makespan is the distance of the clock from the start. -/
def Balanced {σ : Type} (s : EngineState σ) : Prop :=
  s.current_time - s.simulation_start = s.result.idle_time + s.result.cpu_active_time ∧
  0 ≤ s.result.idle_time ∧
  (s.pending = [] → s.result.makespan = s.current_time - s.simulation_start)

/-- All jobs still held have positive remaining time. -/
def PositiveWork {σ : Type} (s : EngineState σ) : Prop := ∀ j ∈ s.queue, 0 < j.remaining_time

end chronos

/-! ## Invariant of a run under FCFS -/

namespace chronos

/-- How a dispatch event and the job it completed belong together under a
run-to-completion policy: same id, and the job finished at the dispatch clock plus
its burst time. -/
def RanToCompletion (e : DispatchEvent) (j : Job) : Prop :=
  e.id = j.id ∧ j.finish_time = e.clock + j.burst_time

/-- The policy selects an earliest job: its answer is null (the engine then takes
the head of the queue) or a job of the queue that no job of the queue precedes
under `arrivalLess`, that is a job of earliest `arrival_time` and, among those, of
lowest id. -/
def ISchedulingPolicy.SelectsEarliest {σ : Type} (P : ISchedulingPolicy σ) : Prop :=
  ∀ (s : σ) (rq : List Job) (i : Nat), (P.getNextJob s rq).1 = some i →
    ∃ j, rq[i]? = some j ∧ ∀ x ∈ rq, arrivalLess x j = false

/-- The state of a run under FCFS on the sorted job list `sorted`: the held jobs
are in `(arrival_time, id)` order and untouched, the jobs dispatched so far are the
front part of `sorted`, each dispatched once and run to completion. -/
def FcfsInv {σ : Type} (sorted : List Job) (s : EngineState σ) : Prop :=
  s.queue.Pairwise arrivalLE ∧
  s.log.map DispatchEvent.id ++ s.queue.map Job.id = sorted.map Job.id ∧
  s.result.dispatch_count = s.log.length ∧
  List.Forall₂ RanToCompletion s.log s.result.completed_jobs ∧
  ∀ j ∈ s.queue, j.remaining_time = j.burst_time

end chronos

/-! ## The states a run passes through -/

namespace chronos

/-- The state at the head of the main loop after `n` iterations; `none` when the
loop has stopped before or the policy returned a pointer outside the ready queue. -/
def stateAfter {σ : Type} (P : ISchedulingPolicy σ) : Nat → EngineState σ → Option (EngineState σ)
  | 0, s => some s
  | n + 1, s => if s.finished then none else (step P s).bind (stateAfter P n)

/-- The ready queue handed to `policy.getNextJob` in the iteration that starts in
state `s`: the ready queue after the admission loop (empty when the iteration takes
the idle branch and does not call the policy). -/
def offeredJobs {σ : Type} (s : EngineState σ) : List Job := (admitted s).ready_queue

/-- No job still held has negative remaining time. -/
def NonnegWork {σ : Type} (s : EngineState σ) : Prop := ∀ j ∈ s.queue, 0 ≤ j.remaining_time

/-- Every ready job has arrived, up to the tolerance. -/
def NoLookAhead {σ : Type} (s : EngineState σ) : Prop :=
  ∀ j ∈ s.ready_queue, j.arrival_time ≤ s.current_time + EPSILON

end chronos

/-! ## Counting dispatches under a quantum -/

namespace chronos

/-- The number of dispatches a job with remaining time `r` takes under the quantum
`q`: the least `k ≥ 1` with `r - k * q ≤ EPSILON`, in closed form. -/
def dispatchesNeeded (q r : ℚ) : Nat := max 1 ⌈(r - EPSILON) / q⌉₊

/-- The dispatches made so far plus the dispatches the held jobs still need. -/
def CountInv {σ : Type} (q : ℚ) (total : Nat) (s : EngineState σ) : Prop :=
  PositiveWork s ∧
  s.result.dispatch_count +
    (s.queue.map (fun j => dispatchesNeeded q j.remaining_time)).sum = total

end chronos

/-! ## Policies for the scenarios of the selection -/

namespace chronos

/-- A policy that follows a script of job ids: each call of `getNextJob` takes the
next id of the script and answers with the ready job of that id (null when the
script is exhausted or no ready job has the id).  It fixes the dispatch sequence
of a scenario without any assumption on how a policy of the repository reaches it. -/
def scriptedPolicy (quantum : ℚ) : ISchedulingPolicy (List Int) :=
  { getNextJob := fun script rq =>
      match script with
      | [] => (none, [])
      | i :: rest => (rq.findIdx? (fun j => j.id == i), rest),
    getTimeSlice := fun _ => quantum,
    onJobCompletion := fun script job _ => (script, job.priority) }

/-- The policy `P` made to decline: `getNextJob` always answers null; time slice,
completion hook and the evolution of the policy state are those of `P`. -/
def ISchedulingPolicy.declining {σ : Type} (P : ISchedulingPolicy σ) : ISchedulingPolicy σ :=
  { getNextJob := fun s rq => (none, (P.getNextJob s rq).2),
    getTimeSlice := P.getTimeSlice,
    onJobCompletion := P.onJobCompletion }

/-- The policy `P` made to select the head: `getNextJob` always answers with the
first element of the ready queue; time slice, completion hook and the evolution of
the policy state are those of `P`. -/
def ISchedulingPolicy.selectingHead {σ : Type} (P : ISchedulingPolicy σ) :
    ISchedulingPolicy σ :=
  { getNextJob := fun s rq => (some 0, (P.getNextJob s rq).2),
    getTimeSlice := P.getTimeSlice,
    onJobCompletion := P.onJobCompletion }

end chronos

/-! ## Means -/

namespace chronos

/-- The arithmetic mean of a list of values, `0` for the empty list. -/
def mean (xs : List ℚ) : ℚ := if xs.isEmpty then 0 else xs.sum / (xs.length : ℚ)

/-- The job a call records, if it is a `recordJobCompletion`. -/
def MetricsCall.job? : MetricsCall → Option Job
  | MetricsCall.recordJobCompletion job => some job
  | _ => none

/-- The jobs recorded by `recordJobCompletion` since construction or the last
`reset`, in the order of the calls. -/
def recordedJobs (calls : List MetricsCall) : List Job :=
  (callsSinceReset calls).filterMap MetricsCall.job?

end chronos

/-! ## Invariant for the makespan -/

namespace chronos

/-- The clock is at or after every recorded finish time, and when no job is held
any more it is the finish time of a completed job; the start of the simulation is
`start`. -/
def FinishInv {σ : Type} (start : ℚ) (s : EngineState σ) : Prop :=
  PositiveWork s ∧ Balanced s ∧ s.simulation_start = start ∧
  (∀ j ∈ s.result.completed_jobs, j.finish_time ≤ s.current_time) ∧
  (s.queue = [] → ∃ j ∈ s.result.completed_jobs, j.finish_time = s.current_time)

end chronos

/-! ## Invariant for the time a job has received -/

namespace chronos

/-- A held job is on time at `clock`: it has not been dispatched yet (`start_time`
unset, nothing executed), or it was started at or after its arrival and the time it
has executed since fits between `start_time` and the clock, up to `EPSILON`. -/
def Job.OnTime (clock : ℚ) (j : Job) : Prop :=
  (j.start_time < 0 ∧ j.remaining_time = j.burst_time) ∨
  (0 ≤ j.start_time ∧ j.arrival_time ≤ j.start_time ∧
    j.start_time + (j.burst_time - j.remaining_time) ≤ clock + EPSILON)

/-- The bounds a completed job satisfies: started at or after its arrival, and
finished and waited no less than `2 * EPSILON` short of its burst time. -/
def Job.RanLongEnough (j : Job) : Prop :=
  j.arrival_time ≤ j.start_time ∧
  j.burst_time - 2 * EPSILON ≤ j.finish_time - j.start_time ∧
  -(2 * EPSILON) ≤ j.waiting_time

/-- The invariant of the main loop behind `Job.RanLongEnough`. -/
def TimingInv {σ : Type} (s : EngineState σ) : Prop :=
  PositiveWork s ∧ (∀ j ∈ s.queue, 0 ≤ j.arrival_time) ∧
  (∀ j ∈ s.queue, j.OnTime s.current_time) ∧
  (∀ j ∈ s.result.completed_jobs, j.RanLongEnough)

end chronos

/-! ## Invariant for the start stamp -/

namespace chronos

/-- The first dispatch of the job with the given id, as logged. -/
def firstDispatch (log : List DispatchEvent) (id : Int) : Option DispatchEvent :=
  log.find? (fun e => e.id == id)

/-- The start stamp of the job is the one of its first dispatch:
`max(clock, arrival_time)` at the first event of the log that carries its id. -/
def Job.StartedAtFirstDispatch (log : List DispatchEvent) (j : Job) : Prop :=
  ∃ e, firstDispatch log j.id = some e ∧ j.start_time = max e.clock j.arrival_time

/-- The invariant of the main loop for jobs with pairwise distinct ids and
non-negative arrival times: a held job is unset and was never dispatched, or it
carries the stamp of its first dispatch; every completed job carries the stamp of
its first dispatch. -/
def StartInv {σ : Type} (s : EngineState σ) : Prop :=
  ((s.result.completed_jobs ++ s.queue).map Job.id).Nodup ∧
  (∀ j ∈ s.queue, 0 ≤ j.arrival_time) ∧
  (∀ j ∈ s.queue, (j.start_time < 0 ∧ firstDispatch s.log j.id = none) ∨
    (0 ≤ j.start_time ∧ j.StartedAtFirstDispatch s.log)) ∧
  (∀ j ∈ s.result.completed_jobs, j.StartedAtFirstDispatch s.log)

/-- The invariant of the main loop that needs no identity of jobs: a held job is
unset or stamped at or after its arrival, a completed job is stamped at or after
its arrival. -/
def StampInv {σ : Type} (s : EngineState σ) : Prop :=
  (∀ j ∈ s.queue, j.start_time < 0 ∨ j.arrival_time ≤ j.start_time) ∧
  (∀ j ∈ s.result.completed_jobs, j.arrival_time ≤ j.start_time)

end chronos

/-! ## One iteration of a worker thread, taken alone -/

namespace chronos

/-- The threshold `0.001f` of `worker_pool.cpp`. -/
def WORKER_EPSILON : ℚ := 1 / 1000

/-- The state `WorkerPool::workerThread` works on when no other worker runs: the
shared ready queue (a `std::vector<Job>`, element `i` of the list being slot `i`
of its storage), the shared clock and the policy object. -/
structure WorkerPoolState (σ : Type) where
  ready_queue_ : List Job
  current_time_ : ℚ
  policy_ : σ

/-- The slice of `workerThread`: as in the engine, with the threshold `0.001f`. -/
def workerSlice (time_slice remaining : ℚ) : ℚ :=
  let execution := if time_slice > 0 then min remaining time_slice else remaining
  if execution < WORKER_EPSILON then remaining else execution

/-- The remaining time after the slice, clamped to zero below `0.001f`. -/
def workerLeftover (remaining execution : ℚ) : ℚ :=
  let new_remaining := remaining - execution
  if new_remaining < WORKER_EPSILON then 0 else new_remaining

/-- One iteration of the loop of `WorkerPool::workerThread` on a ready queue that
is not empty, no other thread running and `executeJob` only sleeping.

The reference `Job& job = *it` designates slot `it` of the storage of the vector.
`ready_queue_.erase(it)` moves the later elements one slot down, so that after it
the reference designates the element that followed the selected job; when the
selected job was the last one the slot lies past the end and the reference
dangles, which is `none` here, as is a pointer of the policy outside the queue.
The writes made through the reference before the erase (`start_time`, `RUNNING`)
go to the selected job and leave the vector with it.
`ready_queue_.push_back(job)` appends a copy of what slot `it` holds at that
moment, and the hook is called on slot `it` afterwards. -/
def workerIteration {σ : Type} (P : ISchedulingPolicy σ) (w : WorkerPoolState σ) :
    Option (WorkerPoolState σ) :=
  let choice := P.getNextJob w.policy_ w.ready_queue_
  match choice.1 with
  | none => some { w with policy_ := choice.2 }
  | some sel =>
    match w.ready_queue_[sel]? with
    | none => none
    | some selected_job =>
      match w.ready_queue_.findIdx? (fun job => job.id == selected_job.id) with
      | none => some { w with policy_ := choice.2 }
      | some it =>
        match w.ready_queue_[it]? with
        | none => none
        | some job =>
          let dispatch_time := max w.current_time_ job.arrival_time
          let remaining := job.remaining_time
          let execution := workerSlice (P.getTimeSlice choice.2) remaining
          let erased := w.ready_queue_.eraseIdx it
          let new_time := dispatch_time + execution
          let new_remaining := workerLeftover remaining execution
          match erased[it]? with
          | none => none
          | some aliased =>
            if new_remaining ≤ WORKER_EPSILON then
              let finished := Job.calculateMetrics
                { aliased with
                  remaining_time := 0, finish_time := new_time, state := JobState.FINISHED }
              let hook := P.onJobCompletion choice.2 finished new_time
              some { ready_queue_ := erased.set it { finished with priority := hook.2 },
                     current_time_ := new_time, policy_ := hook.1 }
            else
              let requeued : Job :=
                { aliased with remaining_time := new_remaining, state := JobState.READY }
              let hook := P.onJobCompletion choice.2 requeued new_time
              some { ready_queue_ :=
                       (erased.set it { requeued with priority := hook.2 }) ++ [requeued],
                     current_time_ := new_time, policy_ := hook.1 }

end chronos

/-! ## Binary32 arithmetic -/

namespace chronos

namespace F32

/-- The search for the exponent of a number `a ≥ 1`: the first `k`, counting up,
with `a < 2 ^ (k + 1)`; `p` is `2 ^ (k + 1)`. -/
def exponentUp : Nat → Nat → ℚ → ℚ → Nat
  | 0, k, _, _ => k
  | fuel + 1, k, p, a => if a < p then k else exponentUp fuel (k + 1) (2 * p) a

/-- The search for the exponent of a positive number `a < 1`: the first `k`,
counting up, with `2 ^ (-k) ≤ a`; `p` is `2 ^ (-k)`. -/
def exponentDown : Nat → Nat → ℚ → ℚ → Nat
  | 0, k, _, _ => k
  | fuel + 1, k, p, a => if p ≤ a then k else exponentDown fuel (k + 1) (p / 2) a

/-- The binary32 exponent of a positive number: the integer `e` with
`2 ^ e ≤ a < 2 ^ (e + 1)`, kept within `-126 ≤ e ≤ 127` (below `2 ^ (-126)` the
numbers are subnormal and share the exponent `-126`). -/
def exponent (a : ℚ) : Int :=
  if 1 ≤ a then Int.ofNat (exponentUp 127 0 2 a)
  else -Int.ofNat (exponentDown 125 1 (1 / 2) a)

/-- Rounding to the nearest integer, a tie going to the even one. -/
def roundHalfEven (m : ℚ) : Int :=
  let f := ⌊m⌋
  let d := m - (f : ℚ)
  if d < 1 / 2 then f
  else if 1 / 2 < d then f + 1
  else if f % 2 = 0 then f else f + 1

/-- The distance between neighbouring binary32 numbers at the magnitude `a > 0`: a
significand of 24 bits. -/
def ulp (a : ℚ) : ℚ := (2 : ℚ) ^ (exponent a - 23)

/-- The binary32 number nearest to `x`, a tie going to the even significand: the
rounding every `float` operation of the C++ code applies to its exact result.
The overflow of the format to infinity (beyond about `3.4e38`) is not modelled. -/
def round (x : ℚ) : ℚ :=
  if x = 0 then 0 else (roundHalfEven (x / ulp |x|) : ℚ) * ulp |x|

end F32

/-- The arithmetic the engine computes with: sum, difference and quotient of two
`float` values and the constant `EPSILON`. -/
structure Arithmetic where
  add : ℚ → ℚ → ℚ
  sub : ℚ → ℚ → ℚ
  div : ℚ → ℚ → ℚ
  epsilon : ℚ

/-- Exact arithmetic on the rational numbers, the arithmetic of the engine above. -/
def exactArithmetic : Arithmetic :=
  { add := fun a b => a + b, sub := fun a b => a - b, div := fun a b => a / b,
    epsilon := EPSILON }

/-- The arithmetic of the type `float` of the C++ code: every operation rounds its
exact result to binary32, and the literal `1e-5f` is the binary32 number nearest to
`1 / 100000`. -/
def binary32 : Arithmetic :=
  { add := fun a b => F32.round (a + b), sub := fun a b => F32.round (a - b),
    div := fun a b => F32.round (a / b), epsilon := F32.round (1 / 100000) }

end chronos
/-! ## The engine over an arithmetic

The same lines of `scheduler_engine.cpp` as above, with every sum, difference and
quotient of two `float` values and the constant `EPSILON` taken from an
`Arithmetic`.  Comparisons, `std::min` and `std::max` do not round. -/

namespace chronos

namespace Arithmetic

/-- Modelled from the spec: `Job::calculateMetrics` (`job.h` is not part of the
source tree), computed in the arithmetic `A`. -/
def calculateMetrics (A : Arithmetic) (j : Job) : Job :=
  { j with
    turnaround_time := A.sub j.finish_time j.arrival_time,
    waiting_time := A.sub (A.sub j.finish_time j.arrival_time) j.burst_time }

/-- The admission loop, line 45 to 50. -/
def admitJobs (A : Arithmetic) (current_time : ℚ) : List Job → List Job → List Job × List Job
  | [], ready_queue => ([], ready_queue)
  | job :: rest, ready_queue =>
    if job.arrival_time ≤ A.add current_time A.epsilon then
      admitJobs A current_time rest (ready_queue ++ [{ job with state := JobState.READY }])
    else
      (job :: rest, ready_queue)

/-- The state after the admission loop of one iteration. -/
def admitted (A : Arithmetic) {σ : Type} (s : EngineState σ) : EngineState σ :=
  { s with
    pending := (A.admitJobs s.current_time s.pending s.ready_queue).1,
    ready_queue := (A.admitJobs s.current_time s.pending s.ready_queue).2 }

/-- The branch `if (ready_queue.empty())`, line 52 to 61. -/
def idleStep (A : Arithmetic) {σ : Type} (s : EngineState σ) : EngineState σ :=
  match s.pending with
  | [] => s
  | next :: _ =>
    if next.arrival_time > s.current_time then
      { s with
        result := { s.result with
          idle_time := A.add s.result.idle_time (A.sub next.arrival_time s.current_time) },
        current_time := next.arrival_time }
    else s

/-- The length of the slice, line 85 to 91. -/
def sliceOf (A : Arithmetic) (time_slice remaining : ℚ) : ℚ :=
  let execution := if time_slice > 0 then min remaining time_slice else remaining
  if execution < A.epsilon then remaining else execution

/-- The remaining time after the slice, line 96 to 99. -/
def leftover (A : Arithmetic) (remaining execution : ℚ) : ℚ :=
  let new_remaining := A.sub remaining execution
  if new_remaining < A.epsilon then 0 else new_remaining

/-- The clock after the idle gap in front of a dispatch, line 75 to 78. -/
def dispatchClock (A : Arithmetic) (current_time : ℚ) (job : Job) : ℚ :=
  if A.sub (max current_time job.arrival_time) current_time > A.epsilon then
    max current_time job.arrival_time
  else current_time

/-- The job at the moment it completes, line 103 to 106. -/
def finishedJob (A : Arithmetic) (job : Job) (now : ℚ) : Job :=
  A.calculateMetrics
    { job with remaining_time := 0, finish_time := now, state := JobState.FINISHED }

/-- The dispatch of the job at index `idx` of the ready queue, line 71 to 123;
`job` is `ready_queue[idx]`. -/
def dispatch (A : Arithmetic) {σ : Type} (P : ISchedulingPolicy σ) (s : EngineState σ)
    (idx : Nat) (job : Job) : EngineState σ :=
  let dispatch_time := max s.current_time job.arrival_time
  let job1 := startedJob s.current_time job
  let idle_time :=
    if A.sub dispatch_time s.current_time > A.epsilon then
      A.add s.result.idle_time (A.sub dispatch_time s.current_time)
    else s.result.idle_time
  let clock := A.dispatchClock s.current_time job
  let time_slice := P.getTimeSlice s.policy
  let remaining := job1.remaining_time
  let execution := A.sliceOf time_slice remaining
  let now := A.add clock execution
  let new_remaining := A.leftover remaining execution
  let event : DispatchEvent := { id := job.id, clock := clock }
  if new_remaining ≤ A.epsilon then
    let finished := A.finishedJob { job1 with remaining_time := new_remaining } now
    let hook := P.onJobCompletion s.policy finished now
    { s with
      ready_queue := s.ready_queue.eraseIdx idx,
      current_time := now,
      policy := hook.1,
      log := s.log ++ [event],
      result := { s.result with
        completed_jobs := s.result.completed_jobs ++ [{ finished with priority := hook.2 }],
        total_waiting_time := A.add s.result.total_waiting_time finished.waiting_time,
        total_turnaround_time :=
          A.add s.result.total_turnaround_time finished.turnaround_time,
        cpu_active_time := A.add s.result.cpu_active_time execution,
        idle_time := idle_time,
        makespan := A.sub now s.simulation_start,
        dispatch_count := s.result.dispatch_count + 1 } }
  else
    let preempted : Job :=
      { job1 with remaining_time := new_remaining, state := JobState.READY }
    let hook := P.onJobCompletion s.policy preempted now
    { s with
      ready_queue := s.ready_queue.set idx { preempted with priority := hook.2 },
      current_time := now,
      policy := hook.1,
      log := s.log ++ [event],
      result := { s.result with
        cpu_active_time := A.add s.result.cpu_active_time execution,
        idle_time := idle_time,
        makespan := A.sub now s.simulation_start,
        dispatch_count := s.result.dispatch_count + 1 } }

/-- The selection, with the fall back to the head of the queue on a null pointer,
followed by the dispatch. -/
def selectAndDispatch (A : Arithmetic) {σ : Type} (P : ISchedulingPolicy σ)
    (s : EngineState σ) : Option (EngineState σ) :=
  let choice := P.getNextJob s.policy s.ready_queue
  let idx := choice.1.getD 0
  match s.ready_queue[idx]? with
  | none => none
  | some job => some (A.dispatch P { s with policy := choice.2 } idx job)

/-- One iteration of the main loop. -/
def step (A : Arithmetic) {σ : Type} (P : ISchedulingPolicy σ) (s : EngineState σ) :
    Option (EngineState σ) :=
  let s1 := A.admitted s
  if s1.ready_queue.isEmpty then some (A.idleStep s1) else A.selectAndDispatch P s1

/-- The main loop, bounded by `fuel` iterations.  `none`: the fuel ran out or the
policy returned a pointer outside the ready queue. -/
def runLoop (A : Arithmetic) {σ : Type} (P : ISchedulingPolicy σ) :
    Nat → EngineState σ → Option (EngineState σ)
  | 0, s => if s.finished then some s else none
  | fuel + 1, s => if s.finished then some s else (A.step P s).bind (runLoop A P fuel)

/-- The state at the head of the main loop after `n` iterations; `none` when the
loop has stopped before or the policy returned a pointer outside the ready queue. -/
def stateAfter (A : Arithmetic) {σ : Type} (P : ISchedulingPolicy σ) :
    Nat → EngineState σ → Option (EngineState σ)
  | 0, s => some s
  | n + 1, s => if s.finished then none else (A.step P s).bind (stateAfter A P n)

/-- The final clamp `if (result.makespan < EPSILON) result.makespan = 0`. -/
def clampMakespan (A : Arithmetic) (r : ScheduleResult) : ScheduleResult :=
  if r.makespan < A.epsilon then { r with makespan := 0 } else r

/-- The run up to the end of the main loop. -/
def runState (A : Arithmetic) {σ : Type} (fuel : Nat) (P : ISchedulingPolicy σ) (pol : σ)
    (jobs : List Job) : Option (EngineState σ) :=
  A.runLoop P fuel (initialState pol jobs)

/-- The method `SchedulerEngine::run` (printing left out). -/
def run (A : Arithmetic) {σ : Type} (fuel : Nat) (P : ISchedulingPolicy σ) (pol : σ)
    (jobs : List Job) : Option ScheduleResult :=
  if jobs.isEmpty then some {}
  else (A.runState fuel P pol jobs).map fun s => A.clampMakespan s.result

/-- The getter `ScheduleResult::cpuUtilization`: no clamping. -/
def cpuUtilization (A : Arithmetic) (r : ScheduleResult) : ℚ :=
  if r.makespan ≤ 0 then 0 else A.div r.cpu_active_time r.makespan

end Arithmetic

/-- The engine holds exactly one job, whose remaining time is `r`: the job is in
the ready queue, or it is pending and passes the admission test in binary32. -/
def HoldsOne {σ : Type} (r : ℚ) (s : EngineState σ) : Prop :=
  ∃ j : Job, j.remaining_time = r ∧
    ((s.pending = [] ∧ s.ready_queue = [j]) ∨
      (s.pending = [j] ∧ s.ready_queue = [] ∧
        j.arrival_time ≤ binary32.add s.current_time binary32.epsilon))

end chronos
/-! ## The slices of one job -/

namespace chronos

/-- A job with remaining time `r` completes at its `k`-th dispatch under the
quantum `q`: the update of lines 85 to 99 (`remaining - execution`, set to zero
below `EPSILON`), applied `k` times, passes the completion test
`new_remaining <= EPSILON` of line 102 at the `k`-th application and not before. -/
def completesAfter (q : ℚ) : Nat → ℚ → Bool
  | 0, _ => false
  | k + 1, r =>
    if leftover r (sliceOf q r) ≤ EPSILON then k == 0
    else completesAfter q k (leftover r (sliceOf q r))

/-- The log holds one event for each dispatch, and every dispatch logged belongs to
a job, completed or still held, that had arrived when the slice started, up to the
tolerance of the admission test. -/
def ArrivedInv {σ : Type} (s : EngineState σ) : Prop :=
  NonnegWork s ∧ NoLookAhead s ∧ s.log.length = s.result.dispatch_count ∧
  ∀ e ∈ s.log, ∃ k ∈ (s.result.completed_jobs ++ s.queue).map Job.key,
    k.1 = e.id ∧ k.2.1 ≤ e.clock + EPSILON

end chronos
/-! ## Worker threads side by side -/

namespace chronos

/-- The locals a worker thread carries from its first locked section to its second
one: the slot of the storage of `ready_queue_` that the reference `Job& job`
designates, `remaining` and `execution`. -/
structure WorkerLocals where
  job : Nat
  remaining : ℚ
  execution : ℚ
deriving DecidableEq, Repr

/-- The data members of `WorkerPool` the worker threads share, and the locals of
the threads.  Element `i` of `ready_queue_` is slot `i` of the storage of the
vector; `executing_jobs_[core_id]` is `none` for a null pointer and otherwise the
slot the stored `Job*` designates.  `locals[core_id]` is `none` while the thread is
at the head of its loop and holds its locals between `lock.unlock()` (line 108)
and `lock.lock()` (line 124). -/
structure WorkerPool (σ : Type) where
  ready_queue_ : List Job
  current_time_ : ℚ
  policy_ : σ
  executing_jobs_ : List (Option Nat)
  active_workers_ : Int
  locals : List (Option WorkerLocals)

/-- The constructor `WorkerPool::WorkerPool` on a ready queue, followed by `start`:
`num_cores` null pointers, every thread at the head of its loop. -/
def WorkerPool.construct {σ : Type} (num_cores : Nat) (policy : σ) (ready_queue : List Job) :
    WorkerPool σ :=
  { ready_queue_ := ready_queue, current_time_ := 0, policy_ := policy,
    executing_jobs_ := List.replicate num_cores none, active_workers_ := 0,
    locals := List.replicate num_cores none }

/-- The first locked section of an iteration of `workerThread(core_id)`, line 54 to
108, run as a whole (the mutex keeps the other threads out of their locked
sections): selection, `find_if`, the writes through `job`, the store of `&job`
into `executing_jobs_[core_id]`, the slice, `ready_queue_.erase(it)`.  After the
erase the later elements have moved one slot down, the stored pointer and the
reference keep their slot.  `none`: the thread is not at the head of its loop, the
queue is empty (the thread stays in `wait`), or the policy returned a pointer
outside the queue. -/
def WorkerPool.selectSection {σ : Type} (P : ISchedulingPolicy σ) (core_id : Nat)
    (w : WorkerPool σ) : Option (WorkerPool σ) :=
  match w.locals[core_id]? with
  | some none =>
    if w.ready_queue_.isEmpty then none
    else
      let choice := P.getNextJob w.policy_ w.ready_queue_
      match choice.1 with
      | none => some { w with policy_ := choice.2 }
      | some sel =>
        match w.ready_queue_[sel]? with
        | none => none
        | some selected_job =>
          match w.ready_queue_.findIdx? (fun job => job.id == selected_job.id) with
          | none => some { w with policy_ := choice.2 }
          | some it =>
            match w.ready_queue_[it]? with
            | none => none
            | some job =>
              let dispatch_time := max w.current_time_ job.arrival_time
              let running : Job :=
                { startedJob w.current_time_ job with state := JobState.RUNNING }
              let remaining := job.remaining_time
              let execution := workerSlice (P.getTimeSlice choice.2) remaining
              some { w with
                ready_queue_ := (w.ready_queue_.set it running).eraseIdx it,
                current_time_ := dispatch_time,
                policy_ := choice.2,
                executing_jobs_ := w.executing_jobs_.set core_id (some it),
                active_workers_ := w.active_workers_ + 1,
                locals := w.locals.set core_id
                  (some { job := it, remaining := remaining, execution := execution }) }
  | _ => none

/-- The rest of the iteration of `workerThread(core_id)`, line 111 to 142, run as a
whole: the clock, the write of `new_remaining` through `job`, completion or
re-enqueueing, the null pointer stored into `executing_jobs_[core_id]`.  `none`:
the thread is not between its two locked sections, or the slot `job` designates
lies past the end of the queue (the reference dangles). -/
def WorkerPool.finishSection {σ : Type} (P : ISchedulingPolicy σ) (core_id : Nat)
    (w : WorkerPool σ) : Option (WorkerPool σ) :=
  match w.locals[core_id]? with
  | some (some l) =>
    let new_time := w.current_time_ + l.execution
    let new_remaining := workerLeftover l.remaining l.execution
    match w.ready_queue_[l.job]? with
    | none => none
    | some aliased =>
      if new_remaining ≤ WORKER_EPSILON then
        let finished := Job.calculateMetrics
          { aliased with
            remaining_time := 0, finish_time := new_time, state := JobState.FINISHED }
        let hook := P.onJobCompletion w.policy_ finished new_time
        some { w with
          ready_queue_ := w.ready_queue_.set l.job { finished with priority := hook.2 },
          current_time_ := new_time,
          policy_ := hook.1,
          executing_jobs_ := w.executing_jobs_.set core_id none,
          active_workers_ := w.active_workers_ - 1,
          locals := w.locals.set core_id none }
      else
        let requeued : Job :=
          { aliased with remaining_time := new_remaining, state := JobState.READY }
        let hook := P.onJobCompletion w.policy_ requeued new_time
        some { w with
          ready_queue_ :=
            (w.ready_queue_.set l.job { requeued with priority := hook.2 }) ++ [requeued],
          current_time_ := new_time,
          policy_ := hook.1,
          executing_jobs_ := w.executing_jobs_.set core_id none,
          active_workers_ := w.active_workers_ - 1,
          locals := w.locals.set core_id none }
  | _ => none

/-- A step of an interleaving: a thread runs its first locked section, or the
rest of its iteration. -/
inductive WorkerEvent where
  | select (core_id : Nat)
  | finish (core_id : Nat)
deriving DecidableEq, Repr

/-- The effect of one step of an interleaving. -/
def WorkerPool.perform {σ : Type} (P : ISchedulingPolicy σ) (w : WorkerPool σ) :
    WorkerEvent → Option (WorkerPool σ)
  | WorkerEvent.select core_id => w.selectSection P core_id
  | WorkerEvent.finish core_id => w.finishSection P core_id

/-- An interleaving of the worker threads: the steps in the order in which the
threads take them. -/
def WorkerPool.runSchedule {σ : Type} (P : ISchedulingPolicy σ) :
    WorkerPool σ → List WorkerEvent → Option (WorkerPool σ)
  | w, [] => some w
  | w, e :: rest => (w.perform P e).bind fun w1 => WorkerPool.runSchedule P w1 rest

/-- The job `executing_jobs_[core_id]` designates: what a reader of the pointer
finds in the slot (`none` for a null pointer or a slot past the end). -/
def WorkerPool.executing {σ : Type} (w : WorkerPool σ) (core_id : Nat) : Option Job :=
  (w.executing_jobs_[core_id]?).join.bind fun slot => w.ready_queue_[slot]?

end chronos

/-! ## Basic facts about the main loop -/

namespace chronos

section Loop

variable {σ : Type} (P : ISchedulingPolicy σ)

theorem runLoop_of_finished (fuel : Nat) (s : EngineState σ) (h : s.finished = true) :
    runLoop P fuel s = some s := by
  cases fuel <;> simp [runLoop, h]

theorem runLoop_succ_of_not_finished (fuel : Nat) (s : EngineState σ)
    (h : s.finished = false) :
    runLoop P (fuel + 1) s = (step P s).bind (runLoop P fuel) := by
  simp [runLoop, h]

theorem runLoop_zero_of_not_finished (s : EngineState σ) (h : s.finished = false) :
    runLoop P 0 s = none := by
  simp [runLoop, h]

/-- The loop only stops when nothing is pending and nothing is ready. -/
theorem runLoop_finished : ∀ (fuel : Nat) (s s' : EngineState σ),
    runLoop P fuel s = some s' → s'.finished = true := by
  intro fuel
  induction fuel with
  | zero =>
    intro s s' h
    by_cases hf : s.finished = true
    · rw [runLoop_of_finished P 0 s hf] at h
      cases h; exact hf
    · simp [runLoop, hf] at h
  | succ n ih =>
    intro s s' h
    by_cases hf : s.finished = true
    · rw [runLoop_of_finished P _ s hf] at h
      cases h; exact hf
    · have hf' : s.finished = false := by simpa using hf
      rw [runLoop_succ_of_not_finished P n s hf'] at h
      cases hs : step P s with
      | none => simp [hs] at h
      | some s1 =>
        rw [hs] at h
        exact ih s1 s' h

/-- More fuel does not change a result. -/
theorem runLoop_mono : ∀ (fuel k : Nat) (s s' : EngineState σ),
    runLoop P fuel s = some s' → runLoop P (fuel + k) s = some s' := by
  intro fuel
  induction fuel with
  | zero =>
    intro k s s' h
    by_cases hf : s.finished = true
    · rw [runLoop_of_finished P 0 s hf] at h
      rw [runLoop_of_finished P _ s hf]; exact h
    · simp [runLoop, hf] at h
  | succ n ih =>
    intro k s s' h
    by_cases hf : s.finished = true
    · rw [runLoop_of_finished P _ s hf] at h
      rw [runLoop_of_finished P _ s hf]; exact h
    · have hf' : s.finished = false := by simpa using hf
      rw [runLoop_succ_of_not_finished P n s hf'] at h
      have e : n + 1 + k = (n + k) + 1 := by omega
      rw [e, runLoop_succ_of_not_finished P _ s hf']
      cases hs : step P s with
      | none => simp [hs] at h
      | some s1 =>
        rw [hs] at h
        exact ih k s1 s' h

/-- The result of the loop does not depend on the fuel. -/
theorem runLoop_det (f1 f2 : Nat) (s s1 s2 : EngineState σ)
    (h1 : runLoop P f1 s = some s1) (h2 : runLoop P f2 s = some s2) : s1 = s2 := by
  have a := runLoop_mono P f1 f2 s s1 h1
  have b := runLoop_mono P f2 f1 s s2 h2
  rw [Nat.add_comm] at b
  rw [a] at b
  exact Option.some.inj b

/-- A property kept by every iteration holds when the loop stops. -/
theorem runLoop_invariant (Inv : EngineState σ → Prop)
    (hstep : ∀ s s', Inv s → s.finished = false → step P s = some s' → Inv s') :
    ∀ (fuel : Nat) (s s' : EngineState σ), Inv s → runLoop P fuel s = some s' → Inv s' := by
  intro fuel
  induction fuel with
  | zero =>
    intro s s' hi h
    by_cases hf : s.finished = true
    · rw [runLoop_of_finished P 0 s hf] at h
      cases h; exact hi
    · simp [runLoop, hf] at h
  | succ n ih =>
    intro s s' hi h
    by_cases hf : s.finished = true
    · rw [runLoop_of_finished P _ s hf] at h
      cases h; exact hi
    · have hf' : s.finished = false := by simpa using hf
      rw [runLoop_succ_of_not_finished P n s hf'] at h
      cases hs : step P s with
      | none => simp [hs] at h
      | some s1 =>
        rw [hs] at h
        exact ih s1 s' (hstep s s1 hi hf' hs) h

/-- An iteration is the admission followed by the idle branch, or by the dispatch
of the job the selection designates. -/
theorem step_cases {s s' : EngineState σ} (h : step P s = some s') :
    ((admitted s).ready_queue = [] ∧ s' = idleStep (admitted s)) ∨
    ((admitted s).ready_queue ≠ [] ∧ ∃ (p : σ) (idx : Nat) (job : Job),
      (admitted s).ready_queue[idx]? = some job ∧
      idx = ((P.getNextJob (admitted s).policy (admitted s).ready_queue).1).getD 0 ∧
      p = (P.getNextJob (admitted s).policy (admitted s).ready_queue).2 ∧
      s' = dispatch P { admitted s with policy := p } idx job) := by
  unfold step at h
  by_cases he : (admitted s).ready_queue = []
  · left
    simp [he] at h
    exact ⟨he, h.symm⟩
  · right
    have : (admitted s).ready_queue.isEmpty = false := by
      simpa [List.isEmpty_iff] using he
    replace h : (if (admitted s).ready_queue.isEmpty = true then some (idleStep (admitted s))
        else selectAndDispatch P (admitted s)) = some s' := h
    rw [this] at h
    simp only [Bool.false_eq_true, if_false] at h
    unfold selectAndDispatch at h
    replace h : (match (admitted s).ready_queue[((P.getNextJob (admitted s).policy
        (admitted s).ready_queue).1).getD 0]? with
      | none => none
      | some job => some (dispatch P { admitted s with
          policy := (P.getNextJob (admitted s).policy (admitted s).ready_queue).2 }
          (((P.getNextJob (admitted s).policy (admitted s).ready_queue).1).getD 0) job))
        = some s' := h
    cases hjob : (admitted s).ready_queue[((P.getNextJob (admitted s).policy
        (admitted s).ready_queue).1).getD 0]? with
    | none => simp [hjob] at h
    | some job =>
      simp only [hjob] at h
      refine ⟨he, _, _, job, hjob, rfl, rfl, ?_⟩
      exact (Option.some.inj h).symm

/-- An iteration kept by the three parts of the loop body is kept by the body. -/
theorem step_preserves (Inv : EngineState σ → Prop)
    (hadm : ∀ s, Inv s → Inv (admitted s))
    (hidle : ∀ s, Inv s → s.ready_queue = [] → Inv (idleStep s))
    (hdisp : ∀ s p idx job, Inv s → s.ready_queue[idx]? = some job →
      Inv (dispatch P { s with policy := p } idx job))
    (s s' : EngineState σ) (hi : Inv s) (h : step P s = some s') : Inv s' := by
  rcases step_cases P h with ⟨he, rfl⟩ | ⟨_, p, idx, job, hjob, _, _, rfl⟩
  · exact hidle _ (hadm s hi) he
  · exact hdisp _ p idx job (hadm s hi) hjob

end Loop

end chronos

/-! ## Basic facts about a dispatch -/

namespace chronos

section Dispatch

variable {σ : Type} (P : ISchedulingPolicy σ)

@[simp] theorem startedJob_remaining_time (t : ℚ) (job : Job) :
    (startedJob t job).remaining_time = job.remaining_time := by
  unfold startedJob; split <;> rfl

@[simp] theorem startedJob_key (t : ℚ) (job : Job) : (startedJob t job).key = job.key := by
  unfold startedJob; split <;> rfl

@[simp] theorem startedJob_id (t : ℚ) (job : Job) : (startedJob t job).id = job.id := by
  unfold startedJob; split <;> rfl

@[simp] theorem startedJob_arrival_time (t : ℚ) (job : Job) :
    (startedJob t job).arrival_time = job.arrival_time := by
  unfold startedJob; split <;> rfl

@[simp] theorem startedJob_burst_time (t : ℚ) (job : Job) :
    (startedJob t job).burst_time = job.burst_time := by
  unfold startedJob; split <;> rfl

@[simp] theorem completedJob_id (s : EngineState σ) (job : Job) :
    (completedJob P s job).id = job.id := by
  simp [completedJob, finishedJob, Job.calculateMetrics]

@[simp] theorem completedJob_key (s : EngineState σ) (job : Job) :
    (completedJob P s job).key = job.key := by
  simp [completedJob, finishedJob, Job.calculateMetrics, Job.key]

@[simp] theorem completedJob_arrival_time (s : EngineState σ) (job : Job) :
    (completedJob P s job).arrival_time = job.arrival_time := by
  simp [completedJob, finishedJob, Job.calculateMetrics]

@[simp] theorem completedJob_burst_time (s : EngineState σ) (job : Job) :
    (completedJob P s job).burst_time = job.burst_time := by
  simp [completedJob, finishedJob, Job.calculateMetrics]

@[simp] theorem completedJob_finish_time (s : EngineState σ) (job : Job) :
    (completedJob P s job).finish_time = clockAfter P s job := by
  simp [completedJob, finishedJob, Job.calculateMetrics]

@[simp] theorem completedJob_remaining_time (s : EngineState σ) (job : Job) :
    (completedJob P s job).remaining_time = 0 := by
  simp [completedJob, finishedJob, Job.calculateMetrics]

@[simp] theorem completedJob_turnaround_time (s : EngineState σ) (job : Job) :
    (completedJob P s job).turnaround_time = clockAfter P s job - job.arrival_time := by
  simp [completedJob, finishedJob, Job.calculateMetrics]

@[simp] theorem completedJob_waiting_time (s : EngineState σ) (job : Job) :
    (completedJob P s job).waiting_time =
      clockAfter P s job - job.arrival_time - job.burst_time := by
  simp [completedJob, finishedJob, Job.calculateMetrics]

@[simp] theorem preemptedJob_id (s : EngineState σ) (job : Job) :
    (preemptedJob P s job).id = job.id := by
  simp [preemptedJob]

@[simp] theorem preemptedJob_key (s : EngineState σ) (job : Job) :
    (preemptedJob P s job).key = job.key := by
  simp [preemptedJob, Job.key]

@[simp] theorem preemptedJob_arrival_time (s : EngineState σ) (job : Job) :
    (preemptedJob P s job).arrival_time = job.arrival_time := by
  simp [preemptedJob]

@[simp] theorem preemptedJob_remaining_time (s : EngineState σ) (job : Job) :
    (preemptedJob P s job).remaining_time =
      leftover job.remaining_time (executionOf P s job) := by
  simp [preemptedJob]

@[simp] theorem dispatch_pending (s : EngineState σ) (idx : Nat) (job : Job) :
    (dispatch P s idx job).pending = s.pending := by
  unfold dispatch; simp only []; split <;> rfl

@[simp] theorem dispatch_simulation_start (s : EngineState σ) (idx : Nat) (job : Job) :
    (dispatch P s idx job).simulation_start = s.simulation_start := by
  unfold dispatch; simp only []; split <;> rfl

@[simp] theorem dispatch_current_time (s : EngineState σ) (idx : Nat) (job : Job) :
    (dispatch P s idx job).current_time = clockAfter P s job := by
  unfold dispatch; simp only []; split <;> simp [clockAfter, executionOf]

@[simp] theorem dispatch_log (s : EngineState σ) (idx : Nat) (job : Job) :
    (dispatch P s idx job).log =
      s.log ++ [{ id := job.id, clock := dispatchClock s.current_time job }] := by
  unfold dispatch; simp only []; split <;> rfl

@[simp] theorem dispatch_cpu_active_time (s : EngineState σ) (idx : Nat) (job : Job) :
    (dispatch P s idx job).result.cpu_active_time =
      s.result.cpu_active_time + executionOf P s job := by
  unfold dispatch; simp only []; split <;> simp [executionOf]

@[simp] theorem dispatch_idle_time (s : EngineState σ) (idx : Nat) (job : Job) :
    (dispatch P s idx job).result.idle_time =
      s.result.idle_time + (dispatchClock s.current_time job - s.current_time) := by
  unfold dispatch dispatchClock; simp only []; split <;> split <;> simp

@[simp] theorem dispatch_makespan (s : EngineState σ) (idx : Nat) (job : Job) :
    (dispatch P s idx job).result.makespan = clockAfter P s job - s.simulation_start := by
  unfold dispatch; simp only []; split <;> simp [clockAfter, executionOf]

@[simp] theorem dispatch_dispatch_count (s : EngineState σ) (idx : Nat) (job : Job) :
    (dispatch P s idx job).result.dispatch_count = s.result.dispatch_count + 1 := by
  unfold dispatch; simp only []; split <;> rfl

theorem dispatch_ready_of_completes (s : EngineState σ) (idx : Nat) (job : Job)
    (h : completes P s job) :
    (dispatch P s idx job).ready_queue = s.ready_queue.eraseIdx idx := by
  unfold completes executionOf at h
  unfold dispatch; simp only []; rw [if_pos (by simpa using h)]

theorem dispatch_completed_of_completes (s : EngineState σ) (idx : Nat) (job : Job)
    (h : completes P s job) :
    (dispatch P s idx job).result.completed_jobs =
      s.result.completed_jobs ++ [completedJob P s job] := by
  unfold completes executionOf at h
  unfold dispatch; simp only []; rw [if_pos (by simpa using h)]
  simp [completedJob, clockAfter, executionOf]

theorem dispatch_ready_of_not_completes (s : EngineState σ) (idx : Nat) (job : Job)
    (h : ¬ completes P s job) :
    (dispatch P s idx job).ready_queue = s.ready_queue.set idx (preemptedJob P s job) := by
  unfold completes executionOf at h
  unfold dispatch; simp only []; rw [if_neg (by simpa using h)]
  simp [preemptedJob, clockAfter, executionOf]

theorem dispatch_completed_of_not_completes (s : EngineState σ) (idx : Nat) (job : Job)
    (h : ¬ completes P s job) :
    (dispatch P s idx job).result.completed_jobs = s.result.completed_jobs := by
  unfold completes executionOf at h
  unfold dispatch; simp only []; rw [if_neg (by simpa using h)]

end Dispatch

end chronos

/-! ## Arithmetic of a slice, lists -/

namespace chronos

theorem EPSILON_pos : 0 < EPSILON := by norm_num [EPSILON]

/-- The slice is the whole remaining time or at least `EPSILON`. -/
theorem sliceOf_cases (ts r : ℚ) :
    sliceOf ts r = r ∨ (EPSILON ≤ sliceOf ts r ∧ sliceOf ts r = ts ∧ ts < r ∧ 0 < ts) := by
  unfold sliceOf
  simp only []
  by_cases hts : ts > 0
  · rw [if_pos hts]
    by_cases hm : min r ts < EPSILON
    · left; rw [if_pos hm]
    · rw [if_neg hm]
      rcases le_total r ts with h | h
      · left; exact min_eq_left h
      · rcases eq_or_lt_of_le h with h' | h'
        · left; rw [h']; simp
        · right
          rw [min_eq_right h] at hm ⊢
          exact ⟨not_lt.mp hm, rfl, h', hts⟩
  · left
    rw [if_neg hts]
    simp

/-- After a dispatch the job is complete (nothing left), or at least `EPSILON` was
executed and at least `EPSILON` is left. -/
theorem leftover_cases (ts r : ℚ) :
    leftover r (sliceOf ts r) = 0 ∨
    (EPSILON ≤ leftover r (sliceOf ts r) ∧ leftover r (sliceOf ts r) = r - sliceOf ts r ∧
      EPSILON ≤ sliceOf ts r ∧ sliceOf ts r = ts) := by
  have hpos := EPSILON_pos
  rcases sliceOf_cases ts r with h | ⟨h1, h2, _, _⟩
  · left
    unfold leftover
    simp only [h, sub_self]
    rw [if_pos hpos]
  · unfold leftover
    simp only []
    by_cases hl : r - sliceOf ts r < EPSILON
    · left; rw [if_pos hl]
    · right
      rw [if_neg hl]
      exact ⟨not_lt.mp hl, rfl, h1, h2⟩

theorem sum_map_eraseIdx (f : Job → Nat) : ∀ (l : List Job) (i : Nat) (j : Job),
    l[i]? = some j → ((l.eraseIdx i).map f).sum + f j = (l.map f).sum := by
  intro l
  induction l with
  | nil => intro i j h; simp at h
  | cons a t ih =>
    intro i j h
    cases i with
    | zero =>
      simp at h
      subst h
      simp [Nat.add_comm]
    | succ n =>
      simp at h
      have := ih n j h
      simp [List.eraseIdx]
      omega

theorem sum_map_set (f : Job → Nat) : ∀ (l : List Job) (i : Nat) (j a : Job),
    l[i]? = some j → ((l.set i a).map f).sum + f j = (l.map f).sum + f a := by
  intro l
  induction l with
  | nil => intro i j a h; simp at h
  | cons b t ih =>
    intro i j a h
    cases i with
    | zero =>
      simp at h
      subst h
      simp only [List.set, List.map, List.sum_cons]
      omega
    | succ n =>
      simp at h
      have := ih n j a h
      simp only [List.set, List.map, List.sum_cons]
      omega

theorem perm_cons_eraseIdx : ∀ (l : List Job) (i : Nat) (j : Job),
    l[i]? = some j → List.Perm l (j :: l.eraseIdx i) := by
  intro l
  induction l with
  | nil => intro i j h; simp at h
  | cons a t ih =>
    intro i j h
    cases i with
    | zero =>
      simp at h
      subst h
      simp
    | succ n =>
      simp at h
      have := ih n j h
      simp only [List.eraseIdx]
      exact (List.Perm.cons a this).trans (List.Perm.swap j a _)

theorem map_set_of_eq {α : Type} (f : Job → α) : ∀ (l : List Job) (i : Nat) (j a : Job),
    l[i]? = some j → f a = f j → (l.set i a).map f = l.map f := by
  intro l
  induction l with
  | nil => intro i j a h; simp at h
  | cons b t ih =>
    intro i j a h hf
    cases i with
    | zero =>
      simp at h
      subst h
      simp [hf]
    | succ n =>
      simp at h
      simp [List.set, ih n j a h hf]

/-- The admission loop moves the longest arrived front part of the pending list to
the back of the ready queue. -/
theorem admitJobs_eq (t : ℚ) : ∀ (pending ready : List Job),
    admitJobs t pending ready =
      (pending.dropWhile (arrived t), ready ++ (pending.takeWhile (arrived t)).map Job.toReady) := by
  intro pending
  induction pending with
  | nil => intro ready; simp [admitJobs]
  | cons a rest ih =>
    intro ready
    unfold admitJobs
    by_cases h : a.arrival_time ≤ t + EPSILON
    · have ha : arrived t a = true := by simp [arrived, h]
      rw [if_pos h, ih]
      simp [List.dropWhile, List.takeWhile, ha, Job.toReady]
    · have ha : arrived t a = false := by simp [arrived, h]
      rw [if_neg h]
      simp [List.dropWhile, List.takeWhile, ha]

end chronos

/-! ## Termination of the main loop -/

namespace chronos

section Termination

variable {σ : Type} (P : ISchedulingPolicy σ)

theorem admitted_pending (s : EngineState σ) :
    (admitted s).pending = s.pending.dropWhile (arrived s.current_time) := by
  simp [admitted, admitJobs_eq]

theorem admitted_ready_queue (s : EngineState σ) :
    (admitted s).ready_queue =
      s.ready_queue ++ (s.pending.takeWhile (arrived s.current_time)).map Job.toReady := by
  simp [admitted, admitJobs_eq]

@[simp] theorem admitted_current_time (s : EngineState σ) :
    (admitted s).current_time = s.current_time := rfl

@[simp] theorem admitted_result (s : EngineState σ) : (admitted s).result = s.result := rfl

@[simp] theorem admitted_simulation_start (s : EngineState σ) :
    (admitted s).simulation_start = s.simulation_start := rfl

@[simp] theorem admitted_log (s : EngineState σ) : (admitted s).log = s.log := rfl

@[simp] theorem admitted_policy (s : EngineState σ) : (admitted s).policy = s.policy := rfl

/-- Admission keeps every view of the held jobs that does not look at `state`. -/
theorem admitted_queue_map {α : Type} (f : Job → α) (hf : ∀ j, f j.toReady = f j)
    (s : EngineState σ) : (admitted s).queue.map f = s.queue.map f := by
  have e := List.takeWhile_append_dropWhile (arrived s.current_time) s.pending
  have hcomp : f ∘ Job.toReady = f := funext hf
  unfold EngineState.queue
  rw [admitted_pending, admitted_ready_queue]
  simp only [List.map_append, List.map_map, List.append_assoc, hcomp]
  congr 1
  rw [← List.map_append, e]

/-- When nothing is ready after the admission, nothing was ready before and the
head of the pending list has not arrived. -/
theorem admitted_ready_nil {s : EngineState σ} (h : (admitted s).ready_queue = []) :
    s.ready_queue = [] ∧ (admitted s).pending = s.pending ∧
      ∀ j rest, s.pending = j :: rest → arrived s.current_time j = false := by
  rw [admitted_ready_queue] at h
  have h1 : s.ready_queue = [] := (List.append_eq_nil.mp h).1
  have h2 : s.pending.takeWhile (arrived s.current_time) = [] := by
    simpa using (List.append_eq_nil.mp h).2
  refine ⟨h1, ?_, ?_⟩
  · rw [admitted_pending]
    have e := List.takeWhile_append_dropWhile (arrived s.current_time) s.pending
    rw [h2] at e
    simpa using e
  · intro j rest hp
    rw [hp] at h2
    by_cases ha : arrived s.current_time j = true
    · simp [List.takeWhile, ha] at h2
    · simpa using ha

/-- Every job left pending by the admission has not arrived, at its head. -/
theorem admitted_pending_head (s : EngineState σ) (j : Job) (rest : List Job)
    (h : (admitted s).pending = j :: rest) : arrived s.current_time j = false := by
  rw [admitted_pending] at h
  have hne : s.pending.dropWhile (arrived s.current_time) ≠ [] := by simp [h]
  have := List.head_dropWhile_not (arrived s.current_time) s.pending hne
  simp only [h, List.head_cons] at this
  exact this

@[simp] theorem idleStep_pending (s : EngineState σ) : (idleStep s).pending = s.pending := by
  unfold idleStep; split
  · rfl
  · split <;> rfl

@[simp] theorem idleStep_ready_queue (s : EngineState σ) :
    (idleStep s).ready_queue = s.ready_queue := by
  unfold idleStep; split
  · rfl
  · split <;> rfl

@[simp] theorem idleStep_simulation_start (s : EngineState σ) :
    (idleStep s).simulation_start = s.simulation_start := by
  unfold idleStep; split
  · rfl
  · split <;> rfl

@[simp] theorem idleStep_log (s : EngineState σ) : (idleStep s).log = s.log := by
  unfold idleStep; split
  · rfl
  · split <;> rfl

@[simp] theorem idleStep_completed_jobs (s : EngineState σ) :
    (idleStep s).result.completed_jobs = s.result.completed_jobs := by
  unfold idleStep; split
  · rfl
  · split <;> rfl

@[simp] theorem idleStep_dispatch_count (s : EngineState σ) :
    (idleStep s).result.dispatch_count = s.result.dispatch_count := by
  unfold idleStep; split
  · rfl
  · split <;> rfl

@[simp] theorem idleStep_cpu_active_time (s : EngineState σ) :
    (idleStep s).result.cpu_active_time = s.result.cpu_active_time := by
  unfold idleStep; split
  · rfl
  · split <;> rfl

@[simp] theorem idleStep_makespan (s : EngineState σ) :
    (idleStep s).result.makespan = s.result.makespan := by
  unfold idleStep; split
  · rfl
  · split <;> rfl

@[simp] theorem idleStep_queue (s : EngineState σ) : (idleStep s).queue = s.queue := by
  simp [EngineState.queue]

/-- The idle branch with a pending head in the future: the clock jumps to it. -/
theorem idleStep_current_time_of_cons (s : EngineState σ) (j : Job) (rest : List Job)
    (hp : s.pending = j :: rest) (hlt : s.current_time < j.arrival_time) :
    (idleStep s).current_time = j.arrival_time ∧
      (idleStep s).result.idle_time = s.result.idle_time + (j.arrival_time - s.current_time) := by
  unfold idleStep
  split
  · rename_i h; rw [hp] at h; cases h
  · rename_i next rest2 h
    rw [hp] at h
    cases h
    rw [if_pos hlt]
    exact ⟨rfl, rfl⟩

/-- The idle branch never moves the clock backwards, and books exactly the jump
as idle time. -/
theorem idleStep_clock (s : EngineState σ) :
    s.current_time ≤ (idleStep s).current_time ∧
      (idleStep s).result.idle_time =
        s.result.idle_time + ((idleStep s).current_time - s.current_time) := by
  unfold idleStep
  split
  · simp
  · split
    · rename_i h
      exact ⟨le_of_lt h, rfl⟩
    · simp

theorem weight_pos (j : Job) : 1 ≤ weight j := by unfold weight; omega

/-- A preempted job has lost at least one unit of weight. -/
theorem weight_preemptedJob (s : EngineState σ) (job : Job) (h : ¬ completes P s job) :
    weight (preemptedJob P s job) + 1 ≤ weight job := by
  have hpos := EPSILON_pos
  unfold completes executionOf at h
  rcases leftover_cases (P.getTimeSlice s.policy) job.remaining_time with h0 | ⟨h1, h2, h3, _⟩
  · rw [h0] at h
    exact absurd hpos.le h
  · unfold weight
    rw [preemptedJob_remaining_time]
    unfold executionOf
    have hle : leftover job.remaining_time (sliceOf (P.getTimeSlice s.policy)
        job.remaining_time) / EPSILON + 1 ≤ job.remaining_time / EPSILON := by
      rw [h2, ← sub_nonneg]
      have : job.remaining_time / EPSILON -
          ((job.remaining_time - sliceOf (P.getTimeSlice s.policy) job.remaining_time)
            / EPSILON + 1) =
          (sliceOf (P.getTimeSlice s.policy) job.remaining_time - EPSILON) / EPSILON := by
        field_simp
        ring
      rw [this]
      exact div_nonneg (sub_nonneg.mpr h3) hpos.le
    have hnn : 0 ≤ leftover job.remaining_time (sliceOf (P.getTimeSlice s.policy)
        job.remaining_time) / EPSILON := div_nonneg (hpos.le.trans h1) hpos.le
    have := Nat.floor_mono hle
    rw [Nat.floor_add_one hnn] at this
    omega

theorem stalled_le_one (s : EngineState σ) : (if stalled s then 1 else 0) ≤ 1 := by
  split <;> omega

/-- Every iteration of a loop that has not stopped succeeds and lowers `fuelBound`,
provided the policy selects from the ready queue. -/
theorem step_decreases (hsel : P.Selects) (s : EngineState σ) (hf : s.finished = false) :
    ∃ s', step P s = some s' ∧ fuelBound s' < fuelBound s := by
  have hq : ((admitted s).queue.map weight).sum = (s.queue.map weight).sum := by
    rw [admitted_queue_map weight (fun _ => rfl)]
  by_cases he : (admitted s).ready_queue = []
  · -- idle iteration
    obtain ⟨h1, h2, h3⟩ := admitted_ready_nil he
    have hp : s.pending ≠ [] := by
      intro hp
      simp [EngineState.finished, hp, h1] at hf
    obtain ⟨j, rest, hjr⟩ := List.exists_cons_of_ne_nil hp
    have hj := h3 j rest hjr
    have hlt : s.current_time < j.arrival_time := by
      have : ¬ j.arrival_time ≤ s.current_time + EPSILON := by
        simpa [arrived] using hj
      linarith [EPSILON_pos]
    refine ⟨idleStep (admitted s), ?_, ?_⟩
    · unfold step
      simp [he]
    · have hstall : stalled s = true := by
        simp [stalled, h1, hjr, hj]
      have hap : (admitted s).pending = j :: rest := by rw [h2, hjr]
      have hclock := (idleStep_current_time_of_cons (admitted s) j rest hap hlt).1
      have hnot : stalled (idleStep (admitted s)) = false := by
        unfold stalled
        rw [idleStep_pending, hap, hclock]
        simp [arrived, EPSILON_pos.le]
      unfold fuelBound
      rw [hnot, hstall, idleStep_queue, hq]
      simp
  · -- dispatch iteration
    have hlen : ((P.getNextJob (admitted s).policy (admitted s).ready_queue).1).getD 0 <
        (admitted s).ready_queue.length := by
      cases hc : (P.getNextJob (admitted s).policy (admitted s).ready_queue).1 with
      | none => simpa using List.length_pos.mpr he
      | some i => simpa using hsel _ _ i hc
    obtain ⟨job, hjob⟩ : ∃ job, (admitted s).ready_queue[((P.getNextJob (admitted s).policy
        (admitted s).ready_queue).1).getD 0]? = some job :=
      ⟨_, List.getElem?_eq_getElem hlen⟩
    have hstep : step P s = some (dispatch P { admitted s with
        policy := (P.getNextJob (admitted s).policy (admitted s).ready_queue).2 }
        (((P.getNextJob (admitted s).policy (admitted s).ready_queue).1).getD 0) job) := by
      unfold step
      have : (admitted s).ready_queue.isEmpty = false := by
        simpa [List.isEmpty_iff] using he
      simp only [this, Bool.false_eq_true, if_false]
      unfold selectAndDispatch
      simp only [hjob]
    refine ⟨_, hstep, ?_⟩
    generalize hidx : ((P.getNextJob (admitted s).policy (admitted s).ready_queue).1).getD 0
      = idx at hjob
    generalize hs1 : ({ admitted s with
        policy := (P.getNextJob (admitted s).policy (admitted s).ready_queue).2 } :
        EngineState σ) = s1
    have hrq : s1.ready_queue = (admitted s).ready_queue := by rw [← hs1]
    have hpe : s1.pending = (admitted s).pending := by rw [← hs1]
    have hsum : (s.queue.map weight).sum =
        (s1.ready_queue.map weight).sum + (s1.pending.map weight).sum := by
      rw [← hq, hrq, hpe]
      simp [EngineState.queue]
    rw [← hrq] at hjob
    have hb := stalled_le_one (dispatch P s1 idx job)
    by_cases hc : completes P s1 job
    · have h1 := sum_map_eraseIdx weight s1.ready_queue idx job hjob
      have hw := weight_pos job
      unfold fuelBound
      simp only [EngineState.queue, dispatch_pending, dispatch_ready_of_completes P s1 idx job hc,
        List.map_append, List.sum_append] at hb ⊢
      rw [EngineState.queue] at hsum
      simp only [List.map_append, List.sum_append] at hsum
      omega
    · have h1 := sum_map_set weight s1.ready_queue idx job (preemptedJob P s1 job) hjob
      have hw := weight_preemptedJob P s1 job hc
      unfold fuelBound
      simp only [EngineState.queue, dispatch_pending,
        dispatch_ready_of_not_completes P s1 idx job hc,
        List.map_append, List.sum_append] at hb ⊢
      rw [EngineState.queue] at hsum
      simp only [List.map_append, List.sum_append] at hsum
      omega

/-- With a policy that selects from the ready queue the main loop stops within
`fuelBound` iterations. -/
theorem runLoop_terminates (hsel : P.Selects) : ∀ (fuel : Nat) (s : EngineState σ),
    fuelBound s ≤ fuel → ∃ s', runLoop P fuel s = some s' := by
  intro fuel
  induction fuel with
  | zero =>
    intro s hb
    by_cases hf : s.finished = true
    · exact ⟨s, runLoop_of_finished P 0 s hf⟩
    · have hf' : s.finished = false := by simpa using hf
      obtain ⟨s', _, hlt⟩ := step_decreases P hsel s hf'
      omega
  | succ n ih =>
    intro s hb
    by_cases hf : s.finished = true
    · exact ⟨s, runLoop_of_finished P _ s hf⟩
    · have hf' : s.finished = false := by simpa using hf
      obtain ⟨s1, hs, hlt⟩ := step_decreases P hsel s hf'
      obtain ⟨s', hs'⟩ := ih s1 (by omega)
      refine ⟨s', ?_⟩
      rw [runLoop_succ_of_not_finished P n s hf', hs]
      exact hs'

end Termination

end chronos

/-! ## Conservation of jobs -/

namespace chronos

section Conservation

variable {σ : Type} (P : ISchedulingPolicy σ)

/-- The keys of all jobs of a state: completed, ready and pending. -/
theorem keys_dispatch (s : EngineState σ) (idx : Nat) (job : Job)
    (hjob : s.ready_queue[idx]? = some job) :
    List.Perm
      (((dispatch P s idx job).result.completed_jobs ++ (dispatch P s idx job).queue).map Job.key)
      ((s.result.completed_jobs ++ s.queue).map Job.key) := by
  by_cases hc : completes P s job
  · simp only [EngineState.queue, dispatch_pending, dispatch_ready_of_completes P s idx job hc,
      dispatch_completed_of_completes P s idx job hc, List.map_append, List.append_assoc]
    refine List.Perm.append_left _ ?_
    rw [← List.append_assoc]
    refine List.Perm.append_right _ ?_
    have h1 := (perm_cons_eraseIdx s.ready_queue idx job hjob).map Job.key
    simp only [List.map_cons, List.map_nil, completedJob_key]
    simpa using h1.symm
  · simp only [EngineState.queue, dispatch_pending,
      dispatch_ready_of_not_completes P s idx job hc,
      dispatch_completed_of_not_completes P s idx job hc, List.map_append]
    rw [map_set_of_eq Job.key s.ready_queue idx job _ hjob (preemptedJob_key P s job)]

/-- An iteration permutes the keys of the jobs of the state. -/
theorem keys_step (s s' : EngineState σ) (h : step P s = some s') :
    List.Perm ((s'.result.completed_jobs ++ s'.queue).map Job.key)
      ((s.result.completed_jobs ++ s.queue).map Job.key) := by
  have hadm : ((admitted s).result.completed_jobs ++ (admitted s).queue).map Job.key =
      (s.result.completed_jobs ++ s.queue).map Job.key := by
    simp only [List.map_append, admitted_result]
    rw [admitted_queue_map Job.key (fun _ => rfl)]
  rcases step_cases P h with ⟨_, rfl⟩ | ⟨_, p, idx, job, hjob, _, _, rfl⟩
  · rw [← hadm]
    simp
  · rw [← hadm]
    exact keys_dispatch P _ idx job hjob

theorem sortJobs_perm (jobs : List Job) : List.Perm (sortJobs jobs) jobs :=
  List.perm_insertionSort _ _

/-- When the loop stops, the completed jobs carry the keys of the input jobs. -/
theorem runState_keys (fuel : Nat) (pol : σ) (jobs : List Job) (s : EngineState σ)
    (h : runState fuel P pol jobs = some s) :
    List.Perm (s.result.completed_jobs.map Job.key) (jobs.map Job.key) := by
  have hinv := runLoop_invariant P
    (fun st => List.Perm ((st.result.completed_jobs ++ st.queue).map Job.key)
      (jobs.map Job.key))
    (fun st st' hi _ hst => (keys_step P st st' hst).trans hi)
    fuel (initialState pol jobs) s
    (by simpa [initialState, EngineState.queue] using (sortJobs_perm jobs).map Job.key) h
  have hfin := runLoop_finished P fuel _ s h
  have hq : s.queue = [] := by
    simp only [EngineState.finished, Bool.and_eq_true, List.isEmpty_iff] at hfin
    simp [EngineState.queue, hfin.1, hfin.2]
  simpa [hq] using hinv

/-- With a policy that selects from the ready queue the run returns. -/
theorem run_returns (hsel : P.Selects) (pol : σ) (jobs : List Job) :
    ∃ r, run (fuelBound (initialState pol jobs)) P pol jobs = some r := by
  unfold run
  by_cases he : jobs.isEmpty = true
  · exact ⟨_, by rw [if_pos he]⟩
  · rw [if_neg he]
    obtain ⟨s, hs⟩ := runLoop_terminates P hsel _ (initialState pol jobs) le_rfl
    exact ⟨_, by unfold runState; rw [hs]; rfl⟩

/-- A result of `run` on a non-empty list is the clamped result of the final state. -/
theorem run_eq_some {fuel : Nat} {pol : σ} {jobs : List Job} {r : ScheduleResult}
    (hne : jobs ≠ []) (h : run fuel P pol jobs = some r) :
    ∃ s, runState fuel P pol jobs = some s ∧ r = clampMakespan s.result := by
  unfold run at h
  have he : jobs.isEmpty = false := by simpa [List.isEmpty_iff] using hne
  rw [he] at h
  simp only [Bool.false_eq_true, if_false, Option.map_eq_some'] at h
  obtain ⟨s, hs, hr⟩ := h
  exact ⟨s, hs, hr.symm⟩

@[simp] theorem clampMakespan_completed_jobs (r : ScheduleResult) :
    (clampMakespan r).completed_jobs = r.completed_jobs := by
  unfold clampMakespan; split <;> rfl

@[simp] theorem clampMakespan_dispatch_count (r : ScheduleResult) :
    (clampMakespan r).dispatch_count = r.dispatch_count := by
  unfold clampMakespan; split <;> rfl

@[simp] theorem clampMakespan_cpu_active_time (r : ScheduleResult) :
    (clampMakespan r).cpu_active_time = r.cpu_active_time := by
  unfold clampMakespan; split <;> rfl

@[simp] theorem clampMakespan_idle_time (r : ScheduleResult) :
    (clampMakespan r).idle_time = r.idle_time := by
  unfold clampMakespan; split <;> rfl

/-- The result of `run` does not depend on the fuel. -/
theorem run_det {f1 f2 : Nat} {pol : σ} {jobs : List Job} {r1 r2 : ScheduleResult}
    (h1 : run f1 P pol jobs = some r1) (h2 : run f2 P pol jobs = some r2) : r1 = r2 := by
  by_cases hne : jobs = []
  · subst hne
    simp [run] at h1 h2
    rw [← h1, ← h2]
  · obtain ⟨s1, hs1, rfl⟩ := run_eq_some P hne h1
    obtain ⟨s2, hs2, rfl⟩ := run_eq_some P hne h2
    rw [runLoop_det P f1 f2 _ s1 s2 hs1 hs2]

/-- The selection of a stateless policy points into the queue. -/
theorem scanBest_lt (better : Job → Job → Bool) : ∀ (rest : List Job) (best : Job)
    (bestIdx i : Nat), bestIdx < i → scanBest better best bestIdx i rest < i + rest.length := by
  intro rest
  induction rest with
  | nil => intro best bestIdx i h; simpa [scanBest] using h
  | cons j t ih =>
    intro best bestIdx i h
    unfold scanBest
    split
    · have := ih j i (i + 1) (by omega)
      simp only [List.length_cons]; omega
    · have := ih best bestIdx (i + 1) (by omega)
      simp only [List.length_cons]; omega

theorem statelessPolicy_selects (better : Job → Job → Bool) (time_slice : ℚ) :
    (statelessPolicy better time_slice).Selects := by
  intro s rq i h
  cases rq with
  | nil => simp [statelessPolicy, selectBest] at h
  | cons j rest =>
    simp only [statelessPolicy, selectBest, Option.some.injEq] at h
    have := scanBest_lt better rest j 0 1 (by omega)
    simp only [List.length_cons]
    omega

end Conservation

/-- Claim C1: for a non-empty job list with pairwise distinct ids and a policy whose
`getNextJob` answers with null or an element of the ready queue it was given,
`SchedulerEngine::run` returns, and every result it returns has exactly as many
completed jobs as the input has jobs, holds every input id exactly once and holds
no id that is not an input id. -/
theorem C1_completed_jobs_are_the_input {σ : Type} (P : ISchedulingPolicy σ)
    (hsel : P.Selects) (pol : σ) (jobs : List Job) (hne : jobs ≠ [])
    (hdistinct : (jobs.map Job.id).Nodup) :
    (∃ fuel r, run fuel P pol jobs = some r) ∧
    ∀ fuel r, run fuel P pol jobs = some r →
      r.completed_jobs.length = jobs.length ∧
      (∀ j ∈ jobs, (r.completed_jobs.map Job.id).count j.id = 1) ∧
      (∀ i ∈ r.completed_jobs.map Job.id, i ∈ jobs.map Job.id) := by
  refine ⟨⟨_, run_returns P hsel pol jobs⟩, ?_⟩
  intro fuel r hr
  obtain ⟨s, hs, rfl⟩ := run_eq_some P hne hr
  have hk := runState_keys P fuel pol jobs s hs
  have hid : List.Perm (s.result.completed_jobs.map Job.id) (jobs.map Job.id) := by
    have := hk.map Prod.fst
    simpa [List.map_map, Function.comp_def, Job.key] using this
  refine ⟨?_, ?_, ?_⟩
  · simpa using hid.length_eq
  · intro j hj
    rw [clampMakespan_completed_jobs, hid.count_eq]
    exact List.count_eq_one_of_mem hdistinct (List.mem_map_of_mem _ hj)
  · intro i hi
    rw [clampMakespan_completed_jobs] at hi
    exact hid.subset hi

/-- The theorem of C1 on the two jobs `A(id=1, arrival=0, burst=5)` and
`B(id=2, arrival=0, burst=3)` under FCFS. -/
theorem C1_completed_jobs_are_the_input_witness :
    [Job.create 1 0 5 0, Job.create 2 0 3 0] ≠ [] ∧
    (([Job.create 1 0 5 0, Job.create 2 0 3 0].map Job.id).Nodup) ∧
    ((∃ fuel r, run fuel fcfsPolicy () [Job.create 1 0 5 0, Job.create 2 0 3 0] = some r) ∧
    ∀ fuel r, run fuel fcfsPolicy () [Job.create 1 0 5 0, Job.create 2 0 3 0] = some r →
      r.completed_jobs.length = [Job.create 1 0 5 0, Job.create 2 0 3 0].length ∧
      (∀ j ∈ [Job.create 1 0 5 0, Job.create 2 0 3 0],
        (r.completed_jobs.map Job.id).count j.id = 1) ∧
      (∀ i ∈ r.completed_jobs.map Job.id,
        i ∈ [Job.create 1 0 5 0, Job.create 2 0 3 0].map Job.id)) :=
  ⟨by simp, by decide,
    C1_completed_jobs_are_the_input fcfsPolicy (statelessPolicy_selects _ _) ()
      [Job.create 1 0 5 0, Job.create 2 0 3 0] (by simp) (by decide)⟩

end chronos

/-! ## Accounting of time -/

namespace chronos

section Accounting

variable {σ : Type} (P : ISchedulingPolicy σ)

/-- A job held after the admission was held before, up to the change of `state`. -/
theorem mem_admitted_queue {s : EngineState σ} {j : Job} (h : j ∈ (admitted s).queue) :
    ∃ j0 ∈ s.queue, j = j0 ∨ j = j0.toReady := by
  unfold EngineState.queue at h ⊢
  rw [admitted_ready_queue, admitted_pending] at h
  simp only [List.mem_append, List.mem_map] at h ⊢
  rcases h with (h | ⟨j0, h0, rfl⟩) | h
  · exact ⟨j, Or.inl h, Or.inl rfl⟩
  · exact ⟨j0, Or.inr ((List.takeWhile_sublist _).subset h0), Or.inr rfl⟩
  · exact ⟨j, Or.inr ((List.dropWhile_sublist _).subset h), Or.inl rfl⟩

/-- A job held after a dispatch was held before, or is the preempted job. -/
theorem mem_dispatch_queue {s : EngineState σ} {idx : Nat} {job j : Job}
    (h : j ∈ (dispatch P s idx job).queue) :
    j ∈ s.queue ∨ (¬ completes P s job ∧ j = preemptedJob P s job) := by
  unfold EngineState.queue at h ⊢
  by_cases hc : completes P s job
  · rw [dispatch_pending, dispatch_ready_of_completes P s idx job hc] at h
    rcases List.mem_append.mp h with h | h
    · exact Or.inl (List.mem_append_left _ (List.mem_of_mem_eraseIdx h))
    · exact Or.inl (List.mem_append_right _ h)
  · rw [dispatch_pending, dispatch_ready_of_not_completes P s idx job hc] at h
    rcases List.mem_append.mp h with h | h
    · rcases List.mem_or_eq_of_mem_set h with h | h
      · exact Or.inl (List.mem_append_left _ h)
      · exact Or.inr ⟨hc, h⟩
    · exact Or.inl (List.mem_append_right _ h)

theorem mem_queue_of_getElem? {s : EngineState σ} {idx : Nat} {job : Job}
    (h : s.ready_queue[idx]? = some job) : job ∈ s.queue :=
  List.mem_append_left _ (List.mem_iff_getElem?.mpr ⟨idx, h⟩)

/-- The clock of a dispatch is not before the clock of the state. -/
theorem dispatchClock_ge (t : ℚ) (job : Job) : t ≤ dispatchClock t job := by
  unfold dispatchClock
  split
  · exact le_max_left _ _
  · exact le_refl _

/-- The slice of a job with positive remaining time is positive. -/
theorem sliceOf_pos (ts r : ℚ) (hr : 0 < r) : 0 < sliceOf ts r := by
  rcases sliceOf_cases ts r with h | ⟨h, _⟩
  · rw [h]; exact hr
  · exact lt_of_lt_of_le EPSILON_pos h

/-- The remaining time of a preempted job is positive. -/
theorem preemptedJob_remaining_pos (s : EngineState σ) (job : Job) (h : ¬ completes P s job) :
    0 < (preemptedJob P s job).remaining_time := by
  rw [preemptedJob_remaining_time]
  unfold completes at h
  exact lt_trans EPSILON_pos (not_le.mp h)

theorem balanced_step (s s' : EngineState σ) (hb : Balanced s) (h : step P s = some s') :
    Balanced s' := by
  obtain ⟨h1, h2, h3⟩ := hb
  rcases step_cases P h with ⟨he, rfl⟩ | ⟨_, p, idx, job, hjob, _, _, rfl⟩
  · obtain ⟨hr, hp, _⟩ := admitted_ready_nil he
    obtain ⟨hc1, hc2⟩ := idleStep_clock (admitted s)
    simp only [admitted_current_time, admitted_result] at hc1 hc2
    refine ⟨?_, ?_, ?_⟩
    · rw [hc2, idleStep_cpu_active_time, idleStep_simulation_start]
      simp only [admitted_simulation_start, admitted_result]
      linarith
    · rw [hc2]; linarith
    · intro hpe
      rw [idleStep_pending, hp] at hpe
      have : idleStep (admitted s) = admitted s := by
        unfold idleStep; rw [hp, hpe]
      rw [this]
      simpa using h3 hpe
  · have hge := dispatchClock_ge s.current_time job
    refine ⟨?_, ?_, ?_⟩
    · simp only [dispatch_current_time, dispatch_simulation_start, dispatch_idle_time,
        dispatch_cpu_active_time, clockAfter, executionOf, admitted_current_time,
        admitted_simulation_start, admitted_result]
      linarith
    · simp only [dispatch_idle_time, admitted_current_time, admitted_result]
      linarith
    · intro _
      simp only [dispatch_makespan, dispatch_current_time, dispatch_simulation_start]

theorem balanced_initialState (pol : σ) (jobs : List Job) :
    Balanced (initialState pol jobs) := by
  simp [Balanced, initialState]

theorem positiveWork_admitted (s : EngineState σ) (h : PositiveWork s) :
    PositiveWork (admitted s) := by
  intro j hj
  obtain ⟨j0, hj0, rfl | rfl⟩ := mem_admitted_queue hj
  · exact h _ hj0
  · exact h j0 hj0

theorem positiveWork_step (s s' : EngineState σ) (hw : PositiveWork s)
    (h : step P s = some s') : PositiveWork s' := by
  have ha := positiveWork_admitted s hw
  rcases step_cases P h with ⟨_, rfl⟩ | ⟨_, p, idx, job, hjob, _, _, rfl⟩
  · intro j hj
    rw [idleStep_queue] at hj
    exact ha j hj
  · intro j hj
    rcases mem_dispatch_queue P hj with hj | ⟨hc, rfl⟩
    · exact ha j hj
    · exact preemptedJob_remaining_pos P _ job hc

theorem positiveWork_initialState (pol : σ) (jobs : List Job)
    (h : ∀ j ∈ jobs, 0 < j.remaining_time) : PositiveWork (initialState pol jobs) := by
  intro j hj
  have : j ∈ sortJobs jobs := by simpa [initialState, EngineState.queue] using hj
  exact h j ((sortJobs_perm jobs).subset this)

/-- With positive work only, the active time never becomes negative and the clock
never runs backwards. -/
theorem active_nonneg_step (s s' : EngineState σ) (hw : PositiveWork s)
    (h : step P s = some s') :
    s.result.cpu_active_time ≤ s'.result.cpu_active_time ∧ s.current_time ≤ s'.current_time := by
  have ha := positiveWork_admitted s hw
  rcases step_cases P h with ⟨_, rfl⟩ | ⟨_, p, idx, job, hjob, _, _, rfl⟩
  · have := (idleStep_clock (admitted s)).1
    simpa using this
  · have hpos : 0 < job.remaining_time := ha job (mem_queue_of_getElem? hjob)
    have hs := sliceOf_pos (P.getTimeSlice p) job.remaining_time hpos
    have hge := dispatchClock_ge s.current_time job
    simp only [dispatch_cpu_active_time, dispatch_current_time, clockAfter, executionOf,
      admitted_current_time, admitted_result]
    constructor <;> linarith

/-- The state reached by a run from fresh jobs with positive bursts. -/
theorem runState_accounting (fuel : Nat) (pol : σ) (jobs : List Job) (s : EngineState σ)
    (hpos : ∀ j ∈ jobs, 0 < j.remaining_time)
    (h : runState fuel P pol jobs = some s) :
    s.result.makespan = s.result.idle_time + s.result.cpu_active_time ∧
      0 ≤ s.result.idle_time ∧ 0 ≤ s.result.cpu_active_time := by
  have hinv := runLoop_invariant P
    (fun st => Balanced st ∧ PositiveWork st ∧ 0 ≤ st.result.cpu_active_time)
    (fun st st' hi _ hst =>
      ⟨balanced_step P st st' hi.1 hst, positiveWork_step P st st' hi.2.1 hst,
        le_trans hi.2.2 (active_nonneg_step P st st' hi.2.1 hst).1⟩)
    fuel (initialState pol jobs) s
    ⟨balanced_initialState pol jobs, positiveWork_initialState pol jobs hpos,
      by simp [initialState]⟩ h
  have hfin := runLoop_finished P fuel _ s h
  simp only [EngineState.finished, Bool.and_eq_true, List.isEmpty_iff] at hfin
  obtain ⟨⟨h1, h2, h3⟩, _, h4⟩ := hinv
  exact ⟨by rw [h3 hfin.1, h1], h2, h4⟩

/-- The books balance for every input: the makespan before the final clamp is the
idle time plus the active time, and the idle time is not negative. -/
theorem runState_balanced (fuel : Nat) (pol : σ) (jobs : List Job) (s : EngineState σ)
    (h : runState fuel P pol jobs = some s) :
    s.result.makespan = s.result.idle_time + s.result.cpu_active_time ∧
      0 ≤ s.result.idle_time := by
  have hinv := runLoop_invariant P (fun st => Balanced st)
    (fun st st' hi _ hst => balanced_step P st st' hi hst)
    fuel (initialState pol jobs) s (balanced_initialState pol jobs) h
  have hfin := runLoop_finished P fuel _ s h
  simp only [EngineState.finished, Bool.and_eq_true, List.isEmpty_iff] at hfin
  obtain ⟨h1, h2, h3⟩ := hinv
  exact ⟨by rw [h3 hfin.1, h1], h2⟩

end Accounting

end chronos

/-! ## Claims on the result of a run: time, metrics, utilisation -/

namespace chronos

theorem fresh_remaining_pos {jobs : List Job} (hfresh : ∀ j ∈ jobs, j.Fresh)
    (hpos : ∀ j ∈ jobs, 0 < j.burst_time) : ∀ j ∈ jobs, 0 < j.remaining_time := by
  intro j hj
  rw [(hfresh j hj).1]
  exact hpos j hj

theorem run_nil {σ : Type} (P : ISchedulingPolicy σ) (fuel : Nat) (pol : σ) :
    run fuel P pol [] = some {} := by
  simp [run]

/-- Over exact arithmetic the books of the engine balance: for fresh jobs with
positive burst times and a policy that selects from the ready queue, every result
has `makespan ≥ 0` and `|idle_time + cpu_active_time - makespan| ≤ EPSILON`, with
equality whenever the makespan was not clamped to zero.  The three accumulators of
the C++ code round separately, and the engine in binary32 departs from this. -/
theorem exact_books_balance {σ : Type} (P : ISchedulingPolicy σ)
    (hsel : P.Selects) (pol : σ) (jobs : List Job)
    (hfresh : ∀ j ∈ jobs, j.Fresh) (hpos : ∀ j ∈ jobs, 0 < j.burst_time) :
    (∃ fuel r, run fuel P pol jobs = some r) ∧
    ∀ fuel r, run fuel P pol jobs = some r →
      0 ≤ r.makespan ∧
      |r.idle_time + r.cpu_active_time - r.makespan| ≤ EPSILON ∧
      (r.makespan ≠ 0 → r.idle_time + r.cpu_active_time = r.makespan) := by
  refine ⟨⟨_, run_returns P hsel pol jobs⟩, ?_⟩
  intro fuel r hr
  by_cases hne : jobs = []
  · subst hne
    rw [run_nil] at hr
    cases hr
    simp [EPSILON_pos.le]
  · obtain ⟨s, hs, rfl⟩ := run_eq_some P hne hr
    obtain ⟨h1, h2, h3⟩ :=
      runState_accounting P fuel pol jobs s (fresh_remaining_pos hfresh hpos) hs
    have hpos' := EPSILON_pos
    unfold clampMakespan
    by_cases hc : s.result.makespan < EPSILON
    · rw [if_pos hc]
      simp only [sub_zero, ne_eq, not_true_eq_false, false_implies, and_true, le_refl, true_and]
      rw [abs_of_nonneg (by linarith)]
      linarith
    · rw [if_neg hc]
      refine ⟨by linarith, ?_, fun _ => h1.symm⟩
      rw [h1]
      simp [hpos'.le]

/-- The metrics every completed job carries. -/
theorem completed_metrics_step {σ : Type} (P : ISchedulingPolicy σ) (s s' : EngineState σ)
    (h : step P s = some s') :
    s'.result.completed_jobs = s.result.completed_jobs ∨
    ∃ j, s'.result.completed_jobs = s.result.completed_jobs ++ [j] ∧
      j.remaining_time = 0 ∧ j.finish_time = s'.current_time ∧
      j.turnaround_time = j.finish_time - j.arrival_time ∧
      j.waiting_time = j.turnaround_time - j.burst_time := by
  rcases step_cases P h with ⟨_, rfl⟩ | ⟨_, p, idx, job, hjob, _, _, rfl⟩
  · left; simp
  · by_cases hc : completes P { admitted s with policy := p } job
    · right
      refine ⟨completedJob P { admitted s with policy := p } job,
        by rw [dispatch_completed_of_completes P _ idx job hc]; rfl, ?_⟩
      simp
    · left
      rw [dispatch_completed_of_not_completes P _ idx job hc]
      rfl

/-- Claim C3: every job in the `completed_jobs` returned by `SchedulerEngine::run`
has `turnaround_time = finish_time - arrival_time` and `waiting_time =
turnaround_time - burst_time`, hence `waiting_time + burst_time = turnaround_time`;
a job enters `completed_jobs` in the iteration in which its remaining time becomes
zero and its `finish_time` is the clock at the end of that iteration; and the run
returns whenever the policy selects from the ready queue. -/
theorem C3_waiting_and_turnaround {σ : Type} (P : ISchedulingPolicy σ) (pol : σ)
    (jobs : List Job) :
    (∀ fuel r, run fuel P pol jobs = some r → ∀ j ∈ r.completed_jobs,
      j.turnaround_time = j.finish_time - j.arrival_time ∧
      j.waiting_time = j.turnaround_time - j.burst_time ∧
      j.waiting_time + j.burst_time = j.turnaround_time) ∧
    (∀ s s' : EngineState σ, step P s = some s' →
      s'.result.completed_jobs = s.result.completed_jobs ∨
      ∃ j, s'.result.completed_jobs = s.result.completed_jobs ++ [j] ∧
        j.remaining_time = 0 ∧ j.finish_time = s'.current_time) ∧
    (P.Selects → ∃ fuel r, run fuel P pol jobs = some r) := by
  refine ⟨?_, ?_, fun hsel => ⟨_, run_returns P hsel pol jobs⟩⟩
  · intro fuel r hr j hj
    by_cases hne : jobs = []
    · subst hne
      rw [run_nil] at hr
      cases hr
      simp at hj
    · obtain ⟨s, hs, rfl⟩ := run_eq_some P hne hr
      rw [clampMakespan_completed_jobs] at hj
      have hinv := runLoop_invariant P
        (fun st => ∀ j ∈ st.result.completed_jobs,
          j.turnaround_time = j.finish_time - j.arrival_time ∧
          j.waiting_time = j.turnaround_time - j.burst_time)
        (fun st st' hi _ hst => by
          rcases completed_metrics_step P st st' hst with h | ⟨j', h, _, _, h1, h2⟩
          · rw [h]; exact hi
          · intro x hx
            rw [h] at hx
            rcases List.mem_append.mp hx with hx | hx
            · exact hi x hx
            · simp only [List.mem_singleton] at hx
              subst hx
              exact ⟨h1, h2⟩)
        fuel (initialState pol jobs) s (by simp [initialState]) hs
      obtain ⟨h1, h2⟩ := hinv j hj
      exact ⟨h1, h2, by rw [h2]; ring⟩
  · intro s s' h
    rcases completed_metrics_step P s s' h with h | ⟨j, h, h1, h2, _, _⟩
    · exact Or.inl h
    · exact Or.inr ⟨j, h, h1, h2⟩

/-- Over exact arithmetic, for fresh jobs with positive burst times and a policy that
selects from the ready queue, every result has `0 ≤ cpuUtilization() ≤ 1`,
although the getter itself does not clamp: on a result with `cpu_active_time = 2`
and `makespan = 1` it answers `2`.  With the rounding of the C++ code the bound
fails, as the evaluation of the engine in binary32 shows. -/
theorem exact_utilization_within_bounds {σ : Type} (P : ISchedulingPolicy σ)
    (hsel : P.Selects) (pol : σ) (jobs : List Job)
    (hfresh : ∀ j ∈ jobs, j.Fresh) (hpos : ∀ j ∈ jobs, 0 < j.burst_time) :
    ((∃ fuel r, run fuel P pol jobs = some r) ∧
    ∀ fuel r, run fuel P pol jobs = some r →
      0 ≤ r.cpuUtilization ∧ r.cpuUtilization ≤ 1) ∧
    ({ cpu_active_time := 2, makespan := 1 } : ScheduleResult).cpuUtilization = 2 := by
  refine ⟨⟨⟨_, run_returns P hsel pol jobs⟩, ?_⟩, by norm_num [ScheduleResult.cpuUtilization]⟩
  intro fuel r hr
  by_cases hne : jobs = []
  · subst hne
    rw [run_nil] at hr
    cases hr
    simp [ScheduleResult.cpuUtilization]
  · obtain ⟨s, hs, rfl⟩ := run_eq_some P hne hr
    obtain ⟨h1, h2, h3⟩ :=
      runState_accounting P fuel pol jobs s (fresh_remaining_pos hfresh hpos) hs
    have hpos' := EPSILON_pos
    unfold ScheduleResult.cpuUtilization clampMakespan
    by_cases hc : s.result.makespan < EPSILON
    · rw [if_pos hc]
      simp
    · rw [if_neg hc]
      have hm : 0 < s.result.makespan := lt_of_lt_of_le hpos' (not_lt.mp hc)
      rw [if_neg (not_le.mpr hm)]
      exact ⟨div_nonneg h3 hm.le, (div_le_one hm).mpr (by linarith)⟩

end chronos

/-! ## Malformed input -/

namespace chronos

/-- Claim C5 (evaluation of the code at the failing input): on the job list
`A(id=1, arrival=0, burst=-2)`, `B(id=2, arrival=10, burst=1)` under FCFS the run
returns a result with `cpu_active_time = -1`, `idle_time = 12`, `makespan = 11` and
`cpuUtilization() = -1/11`, which is below `0`. -/
theorem C5_negative_burst_gives_negative_utilization :
    (run 3 fcfsPolicy () [Job.create 1 0 (-2) 0, Job.create 2 10 1 0]).map
        (fun r => (r.cpu_active_time, r.idle_time, r.makespan, r.cpuUtilization)) =
      some (-1, 12, 11, -1 / 11) ∧
    ¬ (0 ≤ (-1 / 11 : ℚ)) := by
  constructor
  · decide!
  · norm_num

end chronos

/-! ## The metrics collector -/

namespace chronos

namespace MetricsCollector

/-- No call makes the booked active time negative. -/
theorem call_cpu_active_nonneg (m : MetricsCollector) (c : MetricsCall)
    (h : 0 ≤ m.cpu_active_time_) : 0 ≤ (m.call c).cpu_active_time_ := by
  cases c with
  | recordJobCompletion job => exact h
  | recordCpuActivity duration =>
    simp only [call, recordCpuActivity]
    split
    · rename_i hd
      simp only
      linarith
    · exact h
  | recordIdleTime duration =>
    simp only [call, recordIdleTime]
    split
    · exact h
    · exact h
  | recordContextSwitch => exact h
  | setMakespan makespan => exact h
  | reset => simp [call, reset, construct]

theorem foldl_cpu_active_nonneg : ∀ (calls : List MetricsCall) (m : MetricsCollector),
    0 ≤ m.cpu_active_time_ → 0 ≤ (calls.foldl call m).cpu_active_time_ := by
  intro calls
  induction calls with
  | nil => intro m h; exact h
  | cons c rest ih =>
    intro m h
    exact ih _ (call_cpu_active_nonneg m c h)

theorem afterCalls_cpu_active_nonneg (calls : List MetricsCall) :
    0 ≤ (afterCalls calls).cpu_active_time_ :=
  foldl_cpu_active_nonneg calls construct (by simp [construct])

theorem call_dispatch_count (m : MetricsCollector) (c : MetricsCall) :
    (m.call c).dispatch_count_ =
      if c = MetricsCall.reset then 0
      else if c = MetricsCall.recordContextSwitch then m.dispatch_count_ + 1
      else m.dispatch_count_ := by
  cases c with
  | recordJobCompletion job => simp [call, recordJobCompletion]
  | recordCpuActivity duration =>
    simp only [call, recordCpuActivity]
    split <;> simp
  | recordIdleTime duration =>
    simp only [call, recordIdleTime]
    split <;> simp
  | recordContextSwitch => simp [call, recordContextSwitch]
  | setMakespan makespan => simp [call, setMakespan]
  | reset => simp [call, reset, construct]

theorem callsSinceReset_of_not_mem : ∀ (calls : List MetricsCall),
    MetricsCall.reset ∉ calls → callsSinceReset calls = calls := by
  intro calls h
  cases calls with
  | nil => rfl
  | cons c rest =>
    simp only [List.mem_cons, not_or] at h
    unfold callsSinceReset
    rw [if_neg h.2, if_neg (fun e => h.1 e.symm)]

theorem foldl_dispatch_count : ∀ (calls : List MetricsCall) (m : MetricsCollector),
    (calls.foldl call m).dispatch_count_ =
      if MetricsCall.reset ∈ calls then switchCalls calls
      else m.dispatch_count_ + calls.count MetricsCall.recordContextSwitch := by
  intro calls
  induction calls with
  | nil => intro m; simp
  | cons c rest ih =>
    intro m
    rw [List.foldl_cons, ih, call_dispatch_count]
    by_cases hr : MetricsCall.reset ∈ rest
    · rw [if_pos hr, if_pos (List.mem_cons_of_mem _ hr)]
      unfold switchCalls
      conv_rhs => unfold callsSinceReset
      rw [if_pos hr]
    · rw [if_neg hr]
      by_cases hc : c = MetricsCall.reset
      · subst hc
        rw [if_pos rfl, if_pos (List.mem_cons_self _ _)]
        unfold switchCalls
        conv_rhs => unfold callsSinceReset
        rw [if_neg hr, if_pos rfl]
        simp
      · rw [if_neg hc]
        have hnot : MetricsCall.reset ∉ c :: rest := by
          simp only [List.mem_cons, not_or]
          exact ⟨fun e => hc e.symm, hr⟩
        rw [if_neg hnot]
        by_cases hs : c = MetricsCall.recordContextSwitch
        · subst hs
          rw [if_pos rfl, List.count_cons_self]
          omega
        · rw [if_neg hs, List.count_cons_of_ne (fun e => hs e.symm)]

/-- The counter holds the number of `recordContextSwitch` calls since construction
or the last `reset`. -/
theorem afterCalls_dispatch_count (calls : List MetricsCall) :
    (afterCalls calls).dispatch_count_ = switchCalls calls := by
  unfold afterCalls
  rw [foldl_dispatch_count]
  split
  · rfl
  · rename_i h
    unfold switchCalls
    rw [callsSinceReset_of_not_mem calls h]
    simp [construct]

end MetricsCollector

/-- Unsigned subtraction of one from a positive size does not wrap. -/
theorem sizeSub_one (d : Nat) (hd : d < 2 ^ SIZE_BITS) (hpos : 0 < d) : sizeSub d 1 = d - 1 := by
  unfold sizeSub
  have h1 : 1 % 2 ^ SIZE_BITS = 1 := by norm_num [SIZE_BITS]
  rw [h1]
  have h2 : d + 2 ^ SIZE_BITS - 1 = (d - 1) + 2 ^ SIZE_BITS := by omega
  rw [h2, Nat.add_mod_right]
  exact Nat.mod_eq_of_lt (by omega)

/-- Claim C6: in every state of a `MetricsCollector` reached from construction by a
sequence of `recordJobCompletion`, `recordCpuActivity`, `recordIdleTime`,
`recordContextSwitch`, `setMakespan` (any argument) and `reset` calls,
`getCpuUtilization()` is `0` when `makespan_ ≤ 0` and
`min(1, cpu_active_time_ / makespan_)` otherwise, and lies in `[0, 1]`. -/
theorem C6_collector_utilization_clamped (calls : List MetricsCall) :
    ((MetricsCollector.afterCalls calls).makespan_ ≤ 0 →
      (MetricsCollector.afterCalls calls).getCpuUtilization = 0) ∧
    (0 < (MetricsCollector.afterCalls calls).makespan_ →
      (MetricsCollector.afterCalls calls).getCpuUtilization =
        min 1 ((MetricsCollector.afterCalls calls).cpu_active_time_ /
          (MetricsCollector.afterCalls calls).makespan_)) ∧
    0 ≤ (MetricsCollector.afterCalls calls).getCpuUtilization ∧
    (MetricsCollector.afterCalls calls).getCpuUtilization ≤ 1 := by
  have hnn := MetricsCollector.afterCalls_cpu_active_nonneg calls
  generalize MetricsCollector.afterCalls calls = m at hnn
  unfold MetricsCollector.getCpuUtilization
  refine ⟨fun h => by rw [if_pos h], fun h => by rw [if_neg (not_le.mpr h)], ?_, ?_⟩
  · split
    · exact le_refl _
    · rename_i h
      exact le_min zero_le_one (div_nonneg hnn (le_of_lt (not_le.mp h)))
  · split
    · exact zero_le_one
    · exact min_le_left _ _

/-- Claim C7: for a dispatch count `d` that fits `std::size_t`,
`ScheduleResult::contextSwitches()` and `MetricsCollector::getContextSwitches()`
both return `max(d - 1, 0)`, that is `d - 1` for `d > 0` and `0` for `d = 0`, the
unsigned subtraction never wrapping; for the collector `d` is the number of
`recordContextSwitch` calls since construction or the last `reset`. -/
theorem C7_context_switches (d : Nat) (hd : d < 2 ^ SIZE_BITS) :
    (∀ r : ScheduleResult, r.dispatch_count = d →
      ((r.contextSwitches : ℤ) = max ((d : ℤ) - 1) 0) ∧
      (0 < d → r.contextSwitches + 1 = d) ∧ (d = 0 → r.contextSwitches = 0)) ∧
    (∀ calls : List MetricsCall, switchCalls calls = d →
      (MetricsCollector.afterCalls calls).dispatch_count_ = d ∧
      (((MetricsCollector.afterCalls calls).getContextSwitches : ℤ) = max ((d : ℤ) - 1) 0) ∧
      (0 < d → (MetricsCollector.afterCalls calls).getContextSwitches + 1 = d) ∧
      (d = 0 → (MetricsCollector.afterCalls calls).getContextSwitches = 0)) := by
  have key : ∀ n : Nat, n = d →
      (((if n > 0 then sizeSub n 1 else 0 : Nat) : ℤ) = max ((d : ℤ) - 1) 0) ∧
      (0 < d → (if n > 0 then sizeSub n 1 else 0) + 1 = d) ∧
      (d = 0 → (if n > 0 then sizeSub n 1 else 0) = 0) := by
    intro n hn
    subst hn
    by_cases hpos : 0 < n
    · rw [if_pos hpos, sizeSub_one n hd hpos]
      refine ⟨?_, fun _ => by omega, fun h => by omega⟩
      rw [max_eq_left (by omega)]
      omega
    · have h0 : n = 0 := by omega
      subst h0
      simp
  constructor
  · intro r hr
    exact key r.dispatch_count hr
  · intro calls hc
    have hcount := MetricsCollector.afterCalls_dispatch_count calls
    rw [hc] at hcount
    exact ⟨hcount, key _ hcount⟩

/-- The theorem of C7 at `d = 0`, the count at which an unguarded `d - 1` would
wrap. -/
theorem C7_context_switches_witness :
    (0 < 2 ^ SIZE_BITS) ∧
    ((∀ r : ScheduleResult, r.dispatch_count = 0 →
      ((r.contextSwitches : ℤ) = max (((0 : Nat) : ℤ) - 1) 0) ∧
      (0 < 0 → r.contextSwitches + 1 = 0) ∧ (0 = 0 → r.contextSwitches = 0)) ∧
    (∀ calls : List MetricsCall, switchCalls calls = 0 →
      (MetricsCollector.afterCalls calls).dispatch_count_ = 0 ∧
      (((MetricsCollector.afterCalls calls).getContextSwitches : ℤ) =
        max (((0 : Nat) : ℤ) - 1) 0) ∧
      (0 < 0 → (MetricsCollector.afterCalls calls).getContextSwitches + 1 = 0) ∧
      (0 = 0 → (MetricsCollector.afterCalls calls).getContextSwitches = 0))) :=
  ⟨by decide, C7_context_switches 0 (by decide)⟩

end chronos

/-! ## First come, first served -/

namespace chronos

theorem arrivalLE_iff (a b : Job) :
    arrivalLE a b ↔ a.arrival_time < b.arrival_time ∨
      (a.arrival_time = b.arrival_time ∧ a.id ≤ b.id) := by
  unfold arrivalLE arrivalLess
  by_cases h : b.arrival_time = a.arrival_time
  · simp [h]
  · have h' : ¬ a.arrival_time = b.arrival_time := fun e => h e.symm
    simp only [ne_eq, h, not_false_eq_true, if_true, decide_eq_false_iff_not, not_lt, h',
      false_and, or_false]
    exact ⟨fun hle => lt_of_le_of_ne hle h', le_of_lt⟩

theorem arrivalLE_total : IsTotal Job arrivalLE :=
  ⟨fun a b => by
    rw [arrivalLE_iff, arrivalLE_iff]
    rcases lt_trichotomy a.arrival_time b.arrival_time with h | h | h
    · exact Or.inl (Or.inl h)
    · rcases le_total a.id b.id with hi | hi
      · exact Or.inl (Or.inr ⟨h, hi⟩)
      · exact Or.inr (Or.inr ⟨h.symm, hi⟩)
    · exact Or.inr (Or.inl h)⟩

theorem arrivalLE_trans : IsTrans Job arrivalLE :=
  ⟨fun a b c => by
    rw [arrivalLE_iff, arrivalLE_iff, arrivalLE_iff]
    rintro (h1 | ⟨h1, h1'⟩) (h2 | ⟨h2, h2'⟩)
    · exact Or.inl (lt_trans h1 h2)
    · exact Or.inl (h2 ▸ h1)
    · exact Or.inl (h1 ▸ h2)
    · exact Or.inr ⟨h1.trans h2, le_trans h1' h2'⟩⟩

/-- The sorted list is in `(arrival_time, id)` order. -/
theorem sortJobs_sorted (jobs : List Job) : (sortJobs jobs).Sorted arrivalLE :=
  @List.sorted_insertionSort Job arrivalLE _ arrivalLE_total arrivalLE_trans jobs

/-- Being in `(arrival_time, id)` order is a property of the keys. -/
theorem pairwise_arrivalLE_iff (l : List Job) :
    l.Pairwise arrivalLE ↔
      (l.map Job.key).Pairwise
        (fun k1 k2 => k1.2.1 < k2.2.1 ∨ (k1.2.1 = k2.2.1 ∧ k1.1 ≤ k2.1)) := by
  rw [List.pairwise_map]
  simp only [Job.key]
  constructor
  · exact fun h => h.imp (fun hab => (arrivalLE_iff _ _).mp hab)
  · exact fun h => h.imp (fun hab => (arrivalLE_iff _ _).mpr hab)

theorem arrivalLess_iff (a b : Job) :
    arrivalLess a b = true ↔ a.arrival_time < b.arrival_time ∨
      (a.arrival_time = b.arrival_time ∧ a.id < b.id) := by
  unfold arrivalLess
  by_cases h : a.arrival_time = b.arrival_time
  · simp [h]
  · simp only [ne_eq, h, not_false_eq_true, if_true, decide_eq_true_eq, false_and, or_false]

theorem arrivalLess_irrefl (a : Job) : arrivalLess a a = false := by
  have := arrivalLess_iff a a
  simp only [lt_self_iff_false, true_and, false_or] at this
  simpa using this

theorem arrivalLess_trans (a b c : Job) (h1 : arrivalLess a b = true)
    (h2 : arrivalLess b c = true) : arrivalLess a c = true := by
  rw [arrivalLess_iff] at h1 h2 ⊢
  rcases h1 with h1 | ⟨h1, h1'⟩ <;> rcases h2 with h2 | ⟨h2, h2'⟩
  · exact Or.inl (lt_trans h1 h2)
  · exact Or.inl (h2 ▸ h1)
  · exact Or.inl (h1 ▸ h2)
  · exact Or.inr ⟨h1.trans h2, lt_trans h1' h2'⟩

/-- Two jobs neither of which precedes the other have the same id. -/
theorem id_eq_of_not_arrivalLess (a b : Job) (h1 : arrivalLess a b = false)
    (h2 : arrivalLess b a = false) : a.id = b.id := by
  have e1 := (arrivalLE_iff b a).mp h1
  have e2 := (arrivalLE_iff a b).mp h2
  rcases e1 with e1 | ⟨e1, e1'⟩ <;> rcases e2 with e2 | ⟨e2, e2'⟩
  · exact absurd e1 (not_lt.mpr e2.le)
  · rw [e2] at e1; exact absurd e1 (lt_irrefl _)
  · rw [e1] at e2; exact absurd e2 (lt_irrefl _)
  · exact le_antisymm e2' e1'

/-- The scan of a stateless policy ends on a job that no job of the queue beats,
when the preference is transitive and irreflexive. -/
theorem scanBest_spec (better : Job → Job → Bool)
    (hirr : ∀ a, better a a = false)
    (htrans : ∀ a b c, better a b = true → better b c = true → better a c = true) :
    ∀ (rest seen : List Job) (best : Job) (bestIdx : Nat),
      seen[bestIdx]? = some best → (∀ x ∈ seen, better x best = false) →
      ∃ j, (seen ++ rest)[scanBest better best bestIdx seen.length rest]? = some j ∧
        ∀ x ∈ seen ++ rest, better x j = false := by
  intro rest
  induction rest with
  | nil =>
    intro seen best bestIdx hb hall
    exact ⟨best, by simpa [scanBest] using hb, by simpa using hall⟩
  | cons y t ih =>
    intro seen best bestIdx hb hall
    have hlen : bestIdx < seen.length := by
      by_contra hcon
      rw [List.getElem?_eq_none (not_lt.mp hcon)] at hb
      cases hb
    unfold scanBest
    by_cases hy : better y best = true
    · rw [if_pos hy]
      have h1 : (seen ++ [y])[seen.length]? = some y := List.getElem?_concat_length seen y
      have h2 : ∀ x ∈ seen ++ [y], better x y = false := by
        intro x hx
        rcases List.mem_append.mp hx with hx | hx
        · cases hxy : better x y with
          | false => rfl
          | true =>
            have := htrans x y best hxy hy
            rw [hall x hx] at this
            cases this
        · simp only [List.mem_singleton] at hx
          rw [hx]; exact hirr y
      have := ih (seen ++ [y]) y seen.length h1 h2
      simpa using this
    · rw [if_neg hy]
      have h1 : (seen ++ [y])[bestIdx]? = some best := by
        rw [List.getElem?_append_left hlen]; exact hb
      have h2 : ∀ x ∈ seen ++ [y], better x best = false := by
        intro x hx
        rcases List.mem_append.mp hx with hx | hx
        · exact hall x hx
        · simp only [List.mem_singleton] at hx
          rw [hx]; simpa using hy
      have := ih (seen ++ [y]) best bestIdx h1 h2
      simpa using this

/-- The FCFS policy selects an earliest job. -/
theorem fcfsPolicy_selectsEarliest : fcfsPolicy.SelectsEarliest := by
  intro s rq i h
  cases rq with
  | nil => simp [fcfsPolicy, statelessPolicy, selectBest] at h
  | cons j rest =>
    simp only [fcfsPolicy, statelessPolicy, selectBest, Option.some.injEq] at h
    have := scanBest_spec arrivalLess arrivalLess_irrefl arrivalLess_trans rest [j] j 0
      (by simp) (by simpa using arrivalLess_irrefl j)
    rw [← h]
    simpa using this

/-- Taking an earliest job out of a queue in `(arrival_time, id)` order leaves the
ids in the order they had, the first one removed. -/
theorem map_id_eraseIdx_earliest : ∀ (l : List Job) (i : Nat) (j : Job),
    l.Pairwise arrivalLE → l[i]? = some j → (∀ x ∈ l, arrivalLess x j = false) →
    j.id :: (l.eraseIdx i).map Job.id = l.map Job.id := by
  intro l
  induction l with
  | nil => intro i j _ h; simp at h
  | cons a t ih =>
    intro i j hp hj hmin
    cases i with
    | zero =>
      simp at hj
      subst hj
      simp
    | succ k =>
      simp at hj
      have hjt : j ∈ t := List.mem_iff_getElem?.mpr ⟨k, hj⟩
      have h1 : arrivalLess j a = false := (List.pairwise_cons.mp hp).1 j hjt
      have h2 : arrivalLess a j = false := hmin a (List.mem_cons_self _ _)
      have hid : a.id = j.id := id_eq_of_not_arrivalLess a j h2 h1
      have := ih k j (List.pairwise_cons.mp hp).2 hj
        (fun x hx => hmin x (List.mem_cons_of_mem _ hx))
      simp only [List.eraseIdx, List.map_cons, hid]
      rw [this]

/-- With time slice `0` the slice is the whole remaining time. -/
theorem sliceOf_zero (r : ℚ) : sliceOf 0 r = r := by
  unfold sliceOf
  simp

theorem leftover_self (r : ℚ) : leftover r r = 0 := by
  unfold leftover
  simp [EPSILON_pos]

/-- Under a run-to-completion policy every dispatch completes the job. -/
theorem completes_of_slice_zero {σ : Type} (P : ISchedulingPolicy σ) (s : EngineState σ)
    (job : Job) (h : P.getTimeSlice s.policy = 0) : completes P s job := by
  unfold completes executionOf
  rw [h, sliceOf_zero, leftover_self]
  exact EPSILON_pos.le

end chronos

namespace chronos

/-- The result of `run` carries the completed jobs and the dispatch count of the
final state of the loop. -/
theorem run_of_runState {σ : Type} (P : ISchedulingPolicy σ) {fuel : Nat} {pol : σ}
    {jobs : List Job} {s : EngineState σ} (h : runState fuel P pol jobs = some s) :
    ∃ r, run fuel P pol jobs = some r ∧ r.completed_jobs = s.result.completed_jobs ∧
      r.dispatch_count = s.result.dispatch_count := by
  by_cases hne : jobs = []
  · subst hne
    have hfin : (initialState pol ([] : List Job)).finished = true := by
      simp [initialState, sortJobs, EngineState.finished]
    unfold runState at h
    rw [runLoop_of_finished P fuel _ hfin] at h
    cases h
    exact ⟨{}, run_nil P fuel pol, by simp [initialState], by simp [initialState]⟩
  · refine ⟨clampMakespan s.result, ?_, by simp, by simp⟩
    unfold run
    have he : jobs.isEmpty = false := by simpa [List.isEmpty_iff] using hne
    rw [he, h]
    simp

theorem fcfsInv_initialState {σ : Type} (pol : σ) (jobs : List Job)
    (hfresh : ∀ j ∈ jobs, j.Fresh) : FcfsInv (sortJobs jobs) (initialState pol jobs) := by
  refine ⟨?_, ?_, ?_, ?_, ?_⟩
  · simpa [initialState, EngineState.queue] using sortJobs_sorted jobs
  · simp [initialState, EngineState.queue]
  · simp [initialState]
  · simp [initialState]
  · intro j hj
    have : j ∈ sortJobs jobs := by simpa [initialState, EngineState.queue] using hj
    exact (hfresh j ((sortJobs_perm jobs).subset this)).1

theorem fcfsInv_admitted {σ : Type} (sorted : List Job) (s : EngineState σ)
    (h : FcfsInv sorted s) : FcfsInv sorted (admitted s) := by
  obtain ⟨h1, h2, h3, h4, h5⟩ := h
  refine ⟨?_, ?_, h3, h4, ?_⟩
  · rw [pairwise_arrivalLE_iff, admitted_queue_map Job.key (fun _ => rfl)]
    exact (pairwise_arrivalLE_iff _).mp h1
  · rw [admitted_queue_map Job.id (fun _ => rfl)]
    exact h2
  · intro j hj
    obtain ⟨j0, hj0, rfl | rfl⟩ := mem_admitted_queue hj
    · exact h5 _ hj0
    · exact h5 j0 hj0

/-- The job selected by a policy that selects an earliest job, null included, is
one that no job of the ready queue precedes. -/
theorem selected_is_earliest {σ : Type} (P : ISchedulingPolicy σ) (hearly : P.SelectsEarliest)
    (pol : σ) (rq : List Job) (hp : rq.Pairwise arrivalLE) (job : Job)
    (hjob : rq[((P.getNextJob pol rq).1).getD 0]? = some job) :
    ∀ x ∈ rq, arrivalLess x job = false := by
  cases hc : (P.getNextJob pol rq).1 with
  | none =>
    rw [hc] at hjob
    cases rq with
    | nil => simp at hjob
    | cons a t =>
      simp at hjob
      subst hjob
      intro x hx
      rcases List.mem_cons.mp hx with hx | hx
      · rw [hx]; exact arrivalLess_irrefl _
      · exact (List.pairwise_cons.mp hp).1 x hx
  | some i =>
    rw [hc] at hjob
    obtain ⟨j, hj, hmin⟩ := hearly pol rq i hc
    simp only [Option.getD_some] at hjob
    rw [hj] at hjob
    cases hjob
    exact hmin

/-- An iteration under a run-to-completion policy that selects an earliest job
keeps the invariant. -/
theorem fcfsInv_step {σ : Type} (P : ISchedulingPolicy σ)
    (hslice : ∀ st, P.getTimeSlice st = 0) (hearly : P.SelectsEarliest)
    (sorted : List Job) (s s' : EngineState σ) (h : FcfsInv sorted s)
    (_hrun : s.finished = false) (hstep : step P s = some s') : FcfsInv sorted s' := by
  have ha := fcfsInv_admitted sorted s h
  rcases step_cases P hstep with ⟨_, rfl⟩ | ⟨hne, p, idx, job, hjob, hidx, _, rfl⟩
  · obtain ⟨h1, h2, h3, h4, h5⟩ := ha
    exact ⟨by simpa using h1, by simpa using h2, by simpa using h3, by simpa using h4,
      by simpa using h5⟩
  · obtain ⟨h1, h2, h3, h4, h5⟩ := ha
    have hrsorted : (admitted s).ready_queue.Pairwise arrivalLE := by
      unfold EngineState.queue at h1
      exact (List.pairwise_append.mp h1).1
    have hmin : ∀ x ∈ (admitted s).ready_queue, arrivalLess x job = false := by
      rw [hidx] at hjob
      exact selected_is_earliest P hearly _ _ hrsorted job hjob
    have hids := map_id_eraseIdx_earliest _ idx job hrsorted hjob hmin
    generalize hs1 : ({ admitted s with policy := p } : EngineState σ) = s1
    have hq1 : s1.ready_queue = (admitted s).ready_queue := by rw [← hs1]
    have hp1 : s1.pending = (admitted s).pending := by rw [← hs1]
    have hl1 : s1.log = (admitted s).log := by rw [← hs1]
    have hr1 : s1.result = (admitted s).result := by rw [← hs1]
    have hc : completes P s1 job := completes_of_slice_zero P s1 job (hslice _)
    have hqueue' : (dispatch P s1 idx job).queue =
        (admitted s).ready_queue.eraseIdx idx ++ (admitted s).pending := by
      unfold EngineState.queue
      rw [dispatch_pending, dispatch_ready_of_completes P s1 idx job hc, hq1, hp1]
    have hrem : job.remaining_time = job.burst_time := h5 job (mem_queue_of_getElem? hjob)
    refine ⟨?_, ?_, ?_, ?_, ?_⟩
    · rw [hqueue']
      exact h1.sublist (List.Sublist.append_right (List.eraseIdx_sublist _ _) _)
    · rw [hqueue', dispatch_log, hl1]
      unfold EngineState.queue at h2
      simp only [List.map_append, List.map_cons, List.map_nil, List.append_assoc,
        List.singleton_append] at h2 ⊢
      rw [← List.cons_append, hids]
      exact h2
    · rw [dispatch_dispatch_count, dispatch_log, hr1, hl1, h3]
      simp
    · rw [dispatch_log, dispatch_completed_of_completes P s1 idx job hc, hl1, hr1]
      refine List.rel_append h4 ?_
      refine List.Forall₂.cons ⟨by simp, ?_⟩ List.Forall₂.nil
      simp only [completedJob_finish_time, completedJob_burst_time, clockAfter, executionOf]
      rw [hslice, sliceOf_zero, hrem]
    · intro x hx
      rw [hqueue'] at hx
      refine h5 x ?_
      unfold EngineState.queue
      rcases List.mem_append.mp hx with hx | hx
      · exact List.mem_append_left _ (List.mem_of_mem_eraseIdx hx)
      · exact List.mem_append_right _ hx

/-- A policy that selects an earliest job selects from the ready queue. -/
theorem selects_of_selectsEarliest {σ : Type} (P : ISchedulingPolicy σ)
    (hearly : P.SelectsEarliest) : P.Selects := by
  intro s rq i h
  obtain ⟨j, hj, _⟩ := hearly s rq i h
  by_contra hcon
  rw [List.getElem?_eq_none (not_lt.mp hcon)] at hj
  cases hj

/-- Claim C8: under a run-to-completion policy (time slice `0`) that selects the
earliest `arrival_time` and breaks ties by the lower id (FCFS),
`SchedulerEngine::run` on fresh jobs returns a result with `dispatch_count` equal
to the number of jobs; the jobs are dispatched in the order of the job list sorted
by `(arrival_time, id)`, each exactly once, and each job finishes at its dispatch
clock plus its burst time.  The FCFS policy of the spec is such a policy, and on
`A(id=1, arrival=0, burst=5)`, `B(id=2, arrival=0, burst=3)` the dispatch order is
A, B, the finish times are 5 and 8, the waiting times 0 and 5, the turnaround
times 5 and 8. -/
theorem C8_fcfs_runs_in_arrival_order {σ : Type} (P : ISchedulingPolicy σ)
    (hslice : ∀ st, P.getTimeSlice st = 0) (hearly : P.SelectsEarliest)
    (pol : σ) (jobs : List Job) (hfresh : ∀ j ∈ jobs, j.Fresh) :
    (∃ fuel s r, runState fuel P pol jobs = some s ∧
      run fuel P pol jobs = some r ∧
      r.completed_jobs = s.result.completed_jobs ∧
      r.dispatch_count = jobs.length ∧
      s.log.map DispatchEvent.id = (sortJobs jobs).map Job.id ∧
      (sortJobs jobs).Sorted arrivalLE ∧ (sortJobs jobs).Perm jobs ∧
      List.Forall₂ RanToCompletion s.log r.completed_jobs) ∧
    (fcfsPolicy.SelectsEarliest ∧ fcfsPolicy.getTimeSlice () = 0 ∧
      (runState 2 fcfsPolicy () [Job.create 1 0 5 0, Job.create 2 0 3 0]).map
        (fun s => s.log.map DispatchEvent.id) = some [1, 2] ∧
      (run 2 fcfsPolicy () [Job.create 1 0 5 0, Job.create 2 0 3 0]).map
        (fun r => (r.dispatch_count, r.completed_jobs.map
          (fun j => (j.id, j.finish_time, j.waiting_time, j.turnaround_time)))) =
        some (2, [(1, 5, 0, 5), (2, 8, 5, 8)])) := by
  refine ⟨?_, fcfsPolicy_selectsEarliest, rfl, by decide!, by decide!⟩
  obtain ⟨s, hs⟩ := runLoop_terminates P (selects_of_selectsEarliest P hearly) _
    (initialState pol jobs) le_rfl
  have hs' : runState (fuelBound (initialState pol jobs)) P pol jobs = some s := hs
  obtain ⟨r, hr, hrc, hrd⟩ := run_of_runState P hs'
  have hinv := runLoop_invariant P (FcfsInv (sortJobs jobs))
    (fcfsInv_step P hslice hearly (sortJobs jobs))
    _ (initialState pol jobs) s (fcfsInv_initialState pol jobs hfresh) hs
  have hfin := runLoop_finished P _ _ s hs
  have hq : s.queue = [] := by
    simp only [EngineState.finished, Bool.and_eq_true, List.isEmpty_iff] at hfin
    simp [EngineState.queue, hfin.1, hfin.2]
  obtain ⟨_, h2, h3, h4, _⟩ := hinv
  rw [hq] at h2
  simp only [List.map_nil, List.append_nil] at h2
  refine ⟨_, s, r, hs', hr, hrc, ?_, h2, sortJobs_sorted jobs, sortJobs_perm jobs, ?_⟩
  · rw [hrd, h3]
    have := congrArg List.length h2
    simpa [(sortJobs_perm jobs).length_eq] using this
  · rw [hrc]; exact h4

/-- The theorem of C8 on the FCFS policy and three jobs given out of order, with a
gap before the last arrival. -/
theorem C8_fcfs_runs_in_arrival_order_witness :
    (∀ st, fcfsPolicy.getTimeSlice st = 0) ∧ fcfsPolicy.SelectsEarliest ∧
    (∀ j ∈ [Job.create 3 9 1 0, Job.create 2 0 3 0, Job.create 1 0 5 0], j.Fresh) ∧
    ((∃ fuel s r,
      runState fuel fcfsPolicy () [Job.create 3 9 1 0, Job.create 2 0 3 0, Job.create 1 0 5 0]
        = some s ∧
      run fuel fcfsPolicy () [Job.create 3 9 1 0, Job.create 2 0 3 0, Job.create 1 0 5 0]
        = some r ∧
      r.completed_jobs = s.result.completed_jobs ∧
      r.dispatch_count = [Job.create 3 9 1 0, Job.create 2 0 3 0, Job.create 1 0 5 0].length ∧
      s.log.map DispatchEvent.id =
        (sortJobs [Job.create 3 9 1 0, Job.create 2 0 3 0, Job.create 1 0 5 0]).map Job.id ∧
      (sortJobs [Job.create 3 9 1 0, Job.create 2 0 3 0, Job.create 1 0 5 0]).Sorted arrivalLE ∧
      (sortJobs [Job.create 3 9 1 0, Job.create 2 0 3 0, Job.create 1 0 5 0]).Perm
        [Job.create 3 9 1 0, Job.create 2 0 3 0, Job.create 1 0 5 0] ∧
      List.Forall₂ RanToCompletion s.log r.completed_jobs) ∧
    (fcfsPolicy.SelectsEarliest ∧ fcfsPolicy.getTimeSlice () = 0 ∧
      (runState 2 fcfsPolicy () [Job.create 1 0 5 0, Job.create 2 0 3 0]).map
        (fun s => s.log.map DispatchEvent.id) = some [1, 2] ∧
      (run 2 fcfsPolicy () [Job.create 1 0 5 0, Job.create 2 0 3 0]).map
        (fun r => (r.dispatch_count, r.completed_jobs.map
          (fun j => (j.id, j.finish_time, j.waiting_time, j.turnaround_time)))) =
        some (2, [(1, 5, 0, 5), (2, 8, 5, 8)]))) :=
  ⟨fun _ => rfl, fcfsPolicy_selectsEarliest, by decide!,
    C8_fcfs_runs_in_arrival_order fcfsPolicy (fun _ => rfl) fcfsPolicy_selectsEarliest ()
      [Job.create 3 9 1 0, Job.create 2 0 3 0, Job.create 1 0 5 0] (by decide!)⟩

end chronos

/-! ## No look ahead -/

namespace chronos

section LookAhead

variable {σ : Type} (P : ISchedulingPolicy σ)

/-- A property kept by every iteration holds in every state the run passes through. -/
theorem stateAfter_invariant (Inv : EngineState σ → Prop)
    (hstep : ∀ s s', Inv s → step P s = some s' → Inv s') :
    ∀ (n : Nat) (s s' : EngineState σ), Inv s → stateAfter P n s = some s' → Inv s' := by
  intro n
  induction n with
  | zero =>
    intro s s' hi h
    simp only [stateAfter, Option.some.injEq] at h
    exact h ▸ hi
  | succ k ih =>
    intro s s' hi h
    unfold stateAfter at h
    split at h
    · cases h
    · cases hs : step P s with
      | none => simp [hs] at h
      | some s1 =>
        rw [hs] at h
        exact ih s1 s' (hstep s s1 hi hs) h

theorem sliceOf_nonneg (ts r : ℚ) (hr : 0 ≤ r) : 0 ≤ sliceOf ts r := by
  rcases sliceOf_cases ts r with h | ⟨h, _⟩
  · rw [h]; exact hr
  · exact le_trans EPSILON_pos.le h

theorem nonnegWork_admitted (s : EngineState σ) (h : NonnegWork s) :
    NonnegWork (admitted s) := by
  intro j hj
  obtain ⟨j0, hj0, rfl | rfl⟩ := mem_admitted_queue hj
  · exact h _ hj0
  · exact h j0 hj0

theorem nonnegWork_step (s s' : EngineState σ) (hw : NonnegWork s)
    (h : step P s = some s') : NonnegWork s' := by
  have ha := nonnegWork_admitted s hw
  rcases step_cases P h with ⟨_, rfl⟩ | ⟨_, p, idx, job, hjob, _, _, rfl⟩
  · intro j hj
    rw [idleStep_queue] at hj
    exact ha j hj
  · intro j hj
    rcases mem_dispatch_queue P hj with hj | ⟨hc, rfl⟩
    · exact ha j hj
    · exact (preemptedJob_remaining_pos P _ job hc).le

theorem noLookAhead_admitted (s : EngineState σ) (h : NoLookAhead s) :
    NoLookAhead (admitted s) := by
  intro j hj
  rw [admitted_ready_queue] at hj
  rcases List.mem_append.mp hj with hj | hj
  · exact h j hj
  · obtain ⟨j0, hj0, rfl⟩ := List.mem_map.mp hj
    have := List.mem_takeWhile_imp hj0
    simpa [arrived] using this

/-- An iteration on jobs without negative remaining time keeps every ready job
arrived. -/
theorem noLookAhead_step (s s' : EngineState σ) (hw : NonnegWork s) (hl : NoLookAhead s)
    (h : step P s = some s') : NoLookAhead s' := by
  have ha := nonnegWork_admitted s hw
  have hla := noLookAhead_admitted s hl
  rcases step_cases P h with ⟨he, rfl⟩ | ⟨_, p, idx, job, hjob, _, _, rfl⟩
  · intro j hj
    rw [idleStep_ready_queue, he] at hj
    cases hj
  · have hnn : 0 ≤ job.remaining_time := ha job (mem_queue_of_getElem? hjob)
    have hs := sliceOf_nonneg (P.getTimeSlice p) job.remaining_time hnn
    have hge := dispatchClock_ge s.current_time job
    have hclock : s.current_time ≤
        (dispatch P { admitted s with policy := p } idx job).current_time := by
      simp only [dispatch_current_time, clockAfter, executionOf, admitted_current_time]
      linarith
    have hjob_arr : job.arrival_time ≤ s.current_time + EPSILON :=
      hla job (List.mem_iff_getElem?.mpr ⟨idx, hjob⟩)
    intro j hj
    by_cases hc : completes P { admitted s with policy := p } job
    · rw [dispatch_ready_of_completes P _ idx job hc] at hj
      have := hla j (List.mem_of_mem_eraseIdx hj)
      simp only [admitted_current_time] at this
      linarith
    · rw [dispatch_ready_of_not_completes P _ idx job hc] at hj
      rcases List.mem_or_eq_of_mem_set hj with hj | hj
      · have := hla j hj
        simp only [admitted_current_time] at this
        linarith
      · rw [hj, preemptedJob_arrival_time]
        linarith

theorem fresh_remaining_nonneg {jobs : List Job} (hfresh : ∀ j ∈ jobs, j.Fresh)
    (hnn : ∀ j ∈ jobs, 0 ≤ j.burst_time) : ∀ j ∈ jobs, 0 ≤ j.remaining_time := by
  intro j hj
  rw [(hfresh j hj).1]
  exact hnn j hj

theorem nonnegWork_initialState (pol : σ) (jobs : List Job)
    (h : ∀ j ∈ jobs, 0 ≤ j.remaining_time) : NonnegWork (initialState pol jobs) := by
  intro j hj
  have : j ∈ sortJobs jobs := by simpa [initialState, EngineState.queue] using hj
  exact h j ((sortJobs_perm jobs).subset this)

/-- The log only grows, at its end. -/
theorem log_step (s s' : EngineState σ) (h : step P s = some s') :
    ∃ l, s'.log = s.log ++ l := by
  rcases step_cases P h with ⟨_, rfl⟩ | ⟨_, p, idx, job, hjob, _, _, rfl⟩
  · exact ⟨[], by simp⟩
  · exact ⟨_, dispatch_log P _ idx job⟩

theorem log_head_runLoop (e : DispatchEvent) : ∀ (fuel : Nat) (s s' : EngineState σ),
    s.log.head? = some e → runLoop P fuel s = some s' → s'.log.head? = some e := by
  intro fuel s s' h0 h
  refine runLoop_invariant P (fun st => st.log.head? = some e) ?_ fuel s s' h0 h
  intro st st' hi _ hst
  obtain ⟨l, hl⟩ := log_step P st st' hst
  rw [hl]
  cases hlog : st.log with
  | nil => rw [hlog] at hi; cases hi
  | cons x t => rw [hlog] at hi; simpa using hi

/-- When only the first job of the sorted list has arrived at the start, the first
iteration dispatches it. -/
theorem first_step_of_single_arrival (pol : σ) (jobs : List Job) (a : Job) (rest : List Job)
    (hs : sortJobs jobs = a :: rest)
    (hrest : ∀ b ∈ rest, a.arrival_time + EPSILON < b.arrival_time)
    (s1 : EngineState σ) (h : step P (initialState pol jobs) = some s1) :
    s1.log.head?.map DispatchEvent.id = some a.id := by
  have hinit : initialState pol jobs =
      { simulation_start := a.arrival_time, pending := a :: rest, ready_queue := [],
        current_time := a.arrival_time, result := {}, policy := pol, log := [] } := by
    simp [initialState, hs]
  have hready : (admitted (initialState pol jobs)).ready_queue = [a.toReady] := by
    rw [admitted_ready_queue, hinit]
    have ha : arrived a.arrival_time a = true := by simp [arrived, EPSILON_pos.le]
    cases rest with
    | nil => simp [List.takeWhile, ha]
    | cons b t =>
      have hb : arrived a.arrival_time b = false := by
        have := hrest b (List.mem_cons_self _ _)
        simp only [arrived, decide_eq_false_iff_not, not_le]
        exact this
      simp [List.takeWhile, ha, hb]
  rcases step_cases P h with ⟨he, _⟩ | ⟨_, p, idx, job, hjob, _, _, rfl⟩
  · rw [hready] at he; cases he
  · rw [hready] at hjob
    have hjob' : job = a.toReady := by
      cases idx with
      | zero => simpa using hjob.symm
      | succ k => simp at hjob
    rw [dispatch_log, hjob']
    simp [hinit, admitted, Job.toReady]

end LookAhead

/-- Claim C9 (the claim as stated fails): on `A(id=1, arrival=0, burst=-10)`,
`B(id=2, arrival=0, burst=5)` under FCFS the first dispatch takes the clock to
`-10`, and in the second iteration the policy is offered job B, whose arrival time
`0` is larger than the clock plus `EPSILON`. -/
theorem C9_counterexample_negative_burst :
    (stateAfter fcfsPolicy 1
        (initialState () [Job.create 1 0 (-10) 0, Job.create 2 0 5 0])).map
      (fun s => (s.current_time, (offeredJobs s).map (fun j => (j.id, j.arrival_time)))) =
      some (-10, [(2, 0)]) ∧
    ¬ ((0 : ℚ) ≤ -10 + EPSILON) := by
  constructor
  · decide!
  · norm_num [EPSILON]

/-- Claim C9 (amended): for fresh jobs without negative burst times, in every
iteration of `SchedulerEngine::run` every job of the ready queue offered to
`policy.getNextJob` has `arrival_time ≤ current_time + EPSILON`; under any policy,
when only the first job of the sorted list has arrived at the start, it is the
first job dispatched (and the run returns when the policy selects from the ready
queue).  On `A(id=1, arrival=0, burst=5)`, `B(id=2, arrival=1, burst=2)` under
non-preemptive SJF, A is dispatched first and finishes at 5, B finishes at 7. -/
theorem C9_no_look_ahead {σ : Type} (P : ISchedulingPolicy σ) (pol : σ) (jobs : List Job)
    (hfresh : ∀ j ∈ jobs, j.Fresh) (hnn : ∀ j ∈ jobs, 0 ≤ j.burst_time) :
    (∀ n s, stateAfter P n (initialState pol jobs) = some s →
      ∀ j ∈ offeredJobs s, j.arrival_time ≤ s.current_time + EPSILON) ∧
    (∀ a rest, sortJobs jobs = a :: rest →
      (∀ b ∈ rest, a.arrival_time + EPSILON < b.arrival_time) →
      ∀ fuel s, runState fuel P pol jobs = some s →
        s.log.head?.map DispatchEvent.id = some a.id) ∧
    (P.Selects → ∃ fuel s, runState fuel P pol jobs = some s) ∧
    ((runState 2 sjfPolicy () [Job.create 1 0 5 0, Job.create 2 1 2 0]).map
        (fun s => (s.log.map DispatchEvent.id,
          s.result.completed_jobs.map (fun j => (j.id, j.finish_time)))) =
      some ([1, 2], [(1, 5), (2, 7)])) := by
  refine ⟨?_, ?_, ?_, by decide!⟩
  · intro n s hs j hj
    have hinv := stateAfter_invariant P (fun st => NonnegWork st ∧ NoLookAhead st)
      (fun st st' hi hst =>
        ⟨nonnegWork_step P st st' hi.1 hst, noLookAhead_step P st st' hi.1 hi.2 hst⟩)
      n (initialState pol jobs) s
      ⟨nonnegWork_initialState pol jobs (fresh_remaining_nonneg hfresh hnn),
        by intro x hx; simp [initialState] at hx⟩ hs
    have := noLookAhead_admitted s hinv.2 j hj
    simpa using this
  · intro a rest hsort hrest fuel s hs
    have hnf : (initialState pol jobs).finished = false := by
      simp [initialState, hsort, EngineState.finished]
    unfold runState at hs
    cases fuel with
    | zero => rw [runLoop_zero_of_not_finished P _ hnf] at hs; cases hs
    | succ k =>
      rw [runLoop_succ_of_not_finished P k _ hnf] at hs
      cases hst : step P (initialState pol jobs) with
      | none => simp [hst] at hs
      | some s1 =>
        rw [hst] at hs
        have h1 := first_step_of_single_arrival P pol jobs a rest hsort hrest s1 hst
        cases hlog : s1.log.head? with
        | none => rw [hlog] at h1; cases h1
        | some e =>
          rw [hlog] at h1
          rw [log_head_runLoop P e k s1 s hlog hs]
          exact h1
  · intro hsel
    exact ⟨_, runLoop_terminates P hsel _ (initialState pol jobs) le_rfl⟩

/-- The theorem of C9 on `A(id=1, arrival=0, burst=5)`, `B(id=2, arrival=1, burst=2)`
under Round Robin with quantum 2. -/
theorem C9_no_look_ahead_witness :
    (∀ j ∈ [Job.create 1 0 5 0, Job.create 2 1 2 0], j.Fresh) ∧
    (∀ j ∈ [Job.create 1 0 5 0, Job.create 2 1 2 0], 0 ≤ j.burst_time) ∧
    ((∀ n s, stateAfter (roundRobinPolicy 2) n
        (initialState [] [Job.create 1 0 5 0, Job.create 2 1 2 0]) = some s →
      ∀ j ∈ offeredJobs s, j.arrival_time ≤ s.current_time + EPSILON) ∧
    (∀ a rest, sortJobs [Job.create 1 0 5 0, Job.create 2 1 2 0] = a :: rest →
      (∀ b ∈ rest, a.arrival_time + EPSILON < b.arrival_time) →
      ∀ fuel s, runState fuel (roundRobinPolicy 2) [] [Job.create 1 0 5 0, Job.create 2 1 2 0]
        = some s → s.log.head?.map DispatchEvent.id = some a.id) ∧
    ((roundRobinPolicy 2).Selects → ∃ fuel s,
      runState fuel (roundRobinPolicy 2) [] [Job.create 1 0 5 0, Job.create 2 1 2 0] = some s) ∧
    ((runState 2 sjfPolicy () [Job.create 1 0 5 0, Job.create 2 1 2 0]).map
        (fun s => (s.log.map DispatchEvent.id,
          s.result.completed_jobs.map (fun j => (j.id, j.finish_time)))) =
      some ([1, 2], [(1, 5), (2, 7)]))) :=
  ⟨by decide!, by decide!,
    C9_no_look_ahead (roundRobinPolicy 2) [] [Job.create 1 0 5 0, Job.create 2 1 2 0]
      (by decide!) (by decide!)⟩

end chronos

/-! ## The number of dispatches under a quantum -/

namespace chronos

/-- The closed form is the least number of quanta that bring the remaining time
within `EPSILON`. -/
theorem dispatchesNeeded_isLeast (q r : ℚ) (hq : 0 < q) :
    IsLeast {k : ℕ | 1 ≤ k ∧ r - (k : ℚ) * q ≤ EPSILON} (dispatchesNeeded q r) := by
  have key : ∀ k : ℕ, ⌈(r - EPSILON) / q⌉₊ ≤ k ↔ r - (k : ℚ) * q ≤ EPSILON := by
    intro k
    rw [Nat.ceil_le, div_le_iff₀ hq]
    constructor <;> intro h <;> linarith
  constructor
  · refine ⟨le_max_left _ _, ?_⟩
    exact (key _).mp (le_max_right _ _)
  · rintro k ⟨hk1, hk2⟩
    exact max_le hk1 ((key k).mpr hk2)

/-- Under a quantum of at least `EPSILON`, a dispatch of a job with positive
remaining time `r` completes it exactly when `r - q ≤ EPSILON`, and leaves `r - q`
otherwise. -/
theorem leftover_quantum (q r : ℚ) (hq : EPSILON ≤ q) :
    (leftover r (sliceOf q r) ≤ EPSILON ↔ r - q ≤ EPSILON) ∧
    (EPSILON < r - q → leftover r (sliceOf q r) = r - q) := by
  have hpos := EPSILON_pos
  have hq0 : 0 < q := lt_of_lt_of_le hpos hq
  rcases le_or_lt r q with hrq | hrq
  · have hs : sliceOf q r = r := by
      unfold sliceOf
      simp only [gt_iff_lt, hq0, if_true, min_eq_left hrq]
      split <;> rfl
    rw [hs, leftover_self]
    exact ⟨⟨fun _ => by linarith, fun _ => hpos.le⟩, fun h => by linarith⟩
  · have hs : sliceOf q r = q := by
      unfold sliceOf
      simp only [gt_iff_lt, hq0, if_true, min_eq_right hrq.le]
      rw [if_neg (not_lt.mpr hq)]
    rw [hs]
    unfold leftover
    simp only []
    by_cases hlt : r - q < EPSILON
    · rw [if_pos hlt]
      exact ⟨⟨fun _ => hlt.le, fun _ => hpos.le⟩, fun h => by linarith⟩
    · rw [if_neg hlt]
      exact ⟨Iff.rfl, fun _ => rfl⟩

theorem dispatchesNeeded_eq_one (q r : ℚ) (hq : 0 < q) (h : r - q ≤ EPSILON) :
    dispatchesNeeded q r = 1 := by
  unfold dispatchesNeeded
  have : ⌈(r - EPSILON) / q⌉₊ ≤ 1 := by
    rw [Nat.ceil_le, div_le_iff₀ hq]
    push_cast
    linarith
  omega

theorem dispatchesNeeded_succ (q r : ℚ) (hq : 0 < q) (h : EPSILON < r - q) :
    dispatchesNeeded q (r - q) + 1 = dispatchesNeeded q r := by
  unfold dispatchesNeeded
  have e : (r - q - EPSILON) / q = (r - EPSILON) / q - 1 := by
    field_simp
    ring
  have hx : 0 < (r - EPSILON) / q - 1 := by
    rw [sub_pos, lt_div_iff₀ hq]
    linarith
  have h1 : ⌈(r - EPSILON) / q⌉₊ = ⌈(r - EPSILON) / q - 1⌉₊ + 1 := by
    rw [← Nat.ceil_add_one hx.le]
    congr 1
    ring
  have h2 : 0 < ⌈(r - EPSILON) / q - 1⌉₊ := Nat.ceil_pos.mpr hx
  rw [e, h1]
  omega

section Count

variable {σ : Type} (P : ISchedulingPolicy σ)

/-- An iteration under a constant quantum of at least `EPSILON` keeps the count. -/
theorem countInv_step (q : ℚ) (hq : EPSILON ≤ q) (hslice : ∀ st, P.getTimeSlice st = q)
    (total : Nat) (s s' : EngineState σ) (hi : CountInv q total s)
    (h : step P s = some s') : CountInv q total s' := by
  have hq0 : 0 < q := lt_of_lt_of_le EPSILON_pos hq
  refine ⟨positiveWork_step P s s' hi.1 h, ?_⟩
  have hpa := positiveWork_admitted s hi.1
  have hadm : ((admitted s).queue.map (fun j => dispatchesNeeded q j.remaining_time)).sum =
      (s.queue.map (fun j => dispatchesNeeded q j.remaining_time)).sum := by
    rw [admitted_queue_map (fun j => dispatchesNeeded q j.remaining_time) (fun _ => rfl)]
  have hcount := hi.2
  rw [← hadm] at hcount
  rcases step_cases P h with ⟨_, rfl⟩ | ⟨_, p, idx, job, hjob, _, _, rfl⟩
  · rw [idleStep_dispatch_count, idleStep_queue]
    exact hcount
  · generalize hs1 : ({ admitted s with policy := p } : EngineState σ) = s1
    have hrq : s1.ready_queue = (admitted s).ready_queue := by rw [← hs1]
    have hpe : s1.pending = (admitted s).pending := by rw [← hs1]
    have hres : s1.result = (admitted s).result := by rw [← hs1]
    have hpos : 0 < job.remaining_time := hpa job (mem_queue_of_getElem? hjob)
    obtain ⟨hiff, hleft⟩ := leftover_quantum q job.remaining_time hq
    rw [← hrq] at hjob
    unfold EngineState.queue at hcount ⊢
    rw [← hrq, ← hpe] at hcount
    simp only [List.map_append, List.sum_append, admitted_result] at hcount
    by_cases hc : completes P s1 job
    · have hle : job.remaining_time - q ≤ EPSILON := by
        unfold completes executionOf at hc
        rw [hslice] at hc
        exact hiff.mp hc
      have h1 := sum_map_eraseIdx (fun j => dispatchesNeeded q j.remaining_time)
        s1.ready_queue idx job hjob
      have h2 := dispatchesNeeded_eq_one q job.remaining_time hq0 hle
      simp only [dispatch_pending, dispatch_ready_of_completes P s1 idx job hc,
        dispatch_dispatch_count, List.map_append, List.sum_append, hres, admitted_result]
      simp only [h2] at h1
      omega
    · have hgt : EPSILON < job.remaining_time - q := by
        unfold completes executionOf at hc
        rw [hslice] at hc
        exact not_le.mp (fun hle => hc (hiff.mpr hle))
      have h1 := sum_map_set (fun j => dispatchesNeeded q j.remaining_time)
        s1.ready_queue idx job (preemptedJob P s1 job) hjob
      have h2 := dispatchesNeeded_succ q job.remaining_time hq0 hgt
      have h3 : (preemptedJob P s1 job).remaining_time = job.remaining_time - q := by
        rw [preemptedJob_remaining_time]
        unfold executionOf
        rw [hslice]
        exact hleft hgt
      simp only [dispatch_pending, dispatch_ready_of_not_completes P s1 idx job hc,
        dispatch_dispatch_count, List.map_append, List.sum_append, hres, admitted_result]
      simp only [h3] at h1
      omega

theorem countInv_step_of_running (q : ℚ) (hq : EPSILON ≤ q)
    (hslice : ∀ st, P.getTimeSlice st = q) (total : Nat) (s s' : EngineState σ)
    (hi : CountInv q total s) (_hrun : s.finished = false) (h : step P s = some s') :
    CountInv q total s' :=
  countInv_step P q hq hslice total s s' hi h

end Count

/-- Round Robin selects from the ready queue. -/
theorem roundRobinPolicy_selects (quantum : ℚ) : (roundRobinPolicy quantum).Selects := by
  intro q rq i h
  simp only [roundRobinPolicy] at h
  split at h
  · cases h
  · exact (List.findIdx?_eq_some_iff_findIdx_eq.mp h).1

/-- Over exact arithmetic, for a policy with a constant time slice `q ≥ EPSILON` that
selects from the ready queue and fresh jobs with positive burst times, the
`dispatch_count` of a run is the sum over the jobs of the least `k ≥ 1` with
`burst_time - k * q ≤ EPSILON`, whatever the order of selection.  The repeated
subtraction of the C++ code rounds at every step and can take more slices than
this closed form; see `binary32_dispatch_count_drifts`. -/
theorem exact_dispatch_count_closed_form {σ : Type} (P : ISchedulingPolicy σ) (q : ℚ)
    (hq : EPSILON ≤ q) (hslice : ∀ st, P.getTimeSlice st = q) (hsel : P.Selects)
    (pol : σ) (jobs : List Job)
    (hfresh : ∀ j ∈ jobs, j.Fresh) (hpos : ∀ j ∈ jobs, 0 < j.burst_time) :
    (∀ j ∈ jobs, IsLeast {k : ℕ | 1 ≤ k ∧ j.burst_time - (k : ℚ) * q ≤ EPSILON}
      (dispatchesNeeded q j.burst_time)) ∧
    (∃ fuel r, run fuel P pol jobs = some r) ∧
    (∀ fuel r, run fuel P pol jobs = some r →
      r.dispatch_count = (jobs.map (fun j => dispatchesNeeded q j.burst_time)).sum) ∧
    ((runState 5 (roundRobinPolicy 2) [] [Job.create 1 0 5 0, Job.create 2 0 3 0]).map
        (fun s => s.log.map DispatchEvent.id) = some [1, 2, 1, 2, 1] ∧
      (run 5 (roundRobinPolicy 2) [] [Job.create 1 0 5 0, Job.create 2 0 3 0]).map
        (fun r => (r.dispatch_count, r.contextSwitches)) = some (5, 4)) := by
  have hq0 : 0 < q := lt_of_lt_of_le EPSILON_pos hq
  refine ⟨fun j _ => dispatchesNeeded_isLeast q j.burst_time hq0,
    ⟨_, run_returns P hsel pol jobs⟩, ?_, by decide!, by decide!⟩
  intro fuel r hr
  by_cases hne : jobs = []
  · subst hne
    rw [run_nil] at hr
    cases hr
    rfl
  · obtain ⟨s, hs, rfl⟩ := run_eq_some P hne hr
    have hrem := fresh_remaining_pos hfresh hpos
    have htotal : ((sortJobs jobs).map (fun j => dispatchesNeeded q j.remaining_time)).sum =
        (jobs.map (fun j => dispatchesNeeded q j.burst_time)).sum := by
      have hperm := ((sortJobs_perm jobs).map
        (fun j => dispatchesNeeded q j.remaining_time)).sum_eq
      have hmap : jobs.map (fun j => dispatchesNeeded q j.remaining_time) =
          jobs.map (fun j => dispatchesNeeded q j.burst_time) :=
        List.map_congr_left (fun j hj => by rw [(hfresh j hj).1])
      rw [hperm, hmap]
    generalize (jobs.map (fun j => dispatchesNeeded q j.burst_time)).sum = total at htotal ⊢
    have hinit : CountInv q total (initialState pol jobs) := by
      refine ⟨positiveWork_initialState pol jobs hrem, ?_⟩
      simp only [initialState, EngineState.queue, List.nil_append, Nat.zero_add]
      exact htotal
    have hinv := runLoop_invariant P (CountInv q total)
      (countInv_step_of_running P q hq hslice total)
      fuel (initialState pol jobs) s hinit hs
    have hfin := runLoop_finished P fuel _ s hs
    have hq' : s.queue = [] := by
      simp only [EngineState.finished, Bool.and_eq_true, List.isEmpty_iff] at hfin
      simp [EngineState.queue, hfin.1, hfin.2]
    have := hinv.2
    rw [hq'] at this
    simpa using this

end chronos

/-! ## The Round Robin scenario, the fall back to the head, the empty job list -/

namespace chronos

/-- Claim C11 (the claim as stated fails): in the Round Robin scenario
(`quantum = 2`, `A(id=1, arrival=0, burst=5)`, `B(id=2, arrival=0, burst=3)`) the
dispatch sequence is A, B, A, B, A and the `finish_time` recorded for job A is not
`9`, under the Round Robin policy as well as under the policy scripted with that
sequence. -/
theorem C11_counterexample_finish_of_A_is_not_9 :
    (runState 5 (roundRobinPolicy 2) [] [Job.create 1 0 5 0, Job.create 2 0 3 0]).map
        (fun s => s.log.map DispatchEvent.id) = some [1, 2, 1, 2, 1] ∧
    ¬ ((run 5 (roundRobinPolicy 2) [] [Job.create 1 0 5 0, Job.create 2 0 3 0]).map
        (fun r => (r.completed_jobs.filter (fun j => j.id == 1)).map Job.finish_time)
      = some [9]) ∧
    ¬ ((run 5 (scriptedPolicy 2) [1, 2, 1, 2, 1] [Job.create 1 0 5 0, Job.create 2 0 3 0]).map
        (fun r => (r.completed_jobs.filter (fun j => j.id == 1)).map Job.finish_time)
      = some [9]) := by
  refine ⟨by decide!, by decide!, by decide!⟩

/-- Claim C11 (amended): in the Round Robin scenario (`quantum = 2`,
`A(id=1, arrival=0, burst=5)`, `B(id=2, arrival=0, burst=3)`, dispatch sequence
A, B, A, B, A with dispatch clocks 0, 2, 4, 6, 7) the result of
`SchedulerEngine::run` records `finish_time = 8` for job A (and `7` for job B), and
a makespan of `8`; the same holds for the policy scripted with that dispatch
sequence. -/
theorem C11_round_robin_finish_of_A_is_8 :
    (runState 5 (roundRobinPolicy 2) [] [Job.create 1 0 5 0, Job.create 2 0 3 0]).map
        (fun s => s.log.map (fun e => (e.id, e.clock))) =
      some [(1, 0), (2, 2), (1, 4), (2, 6), (1, 7)] ∧
    (run 5 (roundRobinPolicy 2) [] [Job.create 1 0 5 0, Job.create 2 0 3 0]).map
        (fun r => (r.completed_jobs.map (fun j => (j.id, j.finish_time)), r.makespan)) =
      some ([(2, 7), (1, 8)], 8) ∧
    (runState 5 (scriptedPolicy 2) [1, 2, 1, 2, 1]
        [Job.create 1 0 5 0, Job.create 2 0 3 0]).map
        (fun s => s.log.map (fun e => (e.id, e.clock))) =
      some [(1, 0), (2, 2), (1, 4), (2, 6), (1, 7)] ∧
    (run 5 (scriptedPolicy 2) [1, 2, 1, 2, 1] [Job.create 1 0 5 0, Job.create 2 0 3 0]).map
        (fun r => (r.completed_jobs.map (fun j => (j.id, j.finish_time)), r.makespan)) =
      some ([(2, 7), (1, 8)], 8) := by
  refine ⟨by decide!, by decide!, by decide!, by decide!⟩

section Fallback

variable {σ : Type} (P Q : ISchedulingPolicy σ)

/-- Two policies with the same iteration have the same loop. -/
theorem runLoop_congr (h : ∀ s, step P s = step Q s) :
    ∀ (fuel : Nat) (s : EngineState σ), runLoop P fuel s = runLoop Q fuel s := by
  intro fuel
  induction fuel with
  | zero => intro s; rfl
  | succ n ih =>
    intro s
    unfold runLoop
    split
    · rfl
    · rw [h s]
      cases step Q s with
      | none => rfl
      | some s1 => exact ih s1

theorem dispatch_declining (s : EngineState σ) (idx : Nat) (job : Job) :
    dispatch P.declining s idx job = dispatch P.selectingHead s idx job := rfl

/-- Declining and selecting the head give the same iteration. -/
theorem step_declining (s : EngineState σ) :
    step P.declining s = step P.selectingHead s := by
  unfold step selectAndDispatch
  simp only [ISchedulingPolicy.declining, ISchedulingPolicy.selectingHead, Option.getD_none,
    Option.getD_some]
  rfl

/-- The declining policy selects from the ready queue. -/
theorem declining_selects : P.declining.Selects := by
  intro s rq i h
  simp [ISchedulingPolicy.declining] at h

/-- When the policy answers null on a ready queue that is not empty, the iteration
dispatches the head of the ready queue. -/
theorem step_of_null (s : EngineState σ) (job : Job) (rest : List Job)
    (hrq : (admitted s).ready_queue = job :: rest)
    (hnull : (P.getNextJob s.policy (job :: rest)).1 = none) :
    step P s = some (dispatch P
      { admitted s with policy := (P.getNextJob s.policy (job :: rest)).2 } 0 job) := by
  unfold step selectAndDispatch
  simp only [hrq, admitted_policy, hnull]
  simp

end Fallback

/-- Claim C12: when the policy declines (null) while the ready queue is not empty,
`SchedulerEngine::run` dispatches the first element of the ready queue; for every
job list, the run with a policy that always answers null and the run with the
policy that always answers with the head of the ready queue (same time slice, same
completion hook, same policy state) return the same `ScheduleResult`, and they do
return one. -/
theorem C12_null_falls_back_to_head {σ : Type} (P : ISchedulingPolicy σ) (pol : σ)
    (jobs : List Job) :
    (∀ (s : EngineState σ) (job : Job) (rest : List Job),
      (admitted s).ready_queue = job :: rest →
      (P.getNextJob s.policy (job :: rest)).1 = none →
      ∃ s', step P s = some s' ∧
        s'.log = s.log ++ [{ id := job.id, clock := dispatchClock s.current_time job }] ∧
        s'.result.dispatch_count = s.result.dispatch_count + 1) ∧
    (∀ fuel, run fuel P.declining pol jobs = run fuel P.selectingHead pol jobs) ∧
    (∃ fuel r, run fuel P.declining pol jobs = some r ∧
      run fuel P.selectingHead pol jobs = some r) := by
  have heq : ∀ fuel, run fuel P.declining pol jobs = run fuel P.selectingHead pol jobs := by
    intro fuel
    unfold run runState
    rw [runLoop_congr P.declining P.selectingHead (step_declining P) fuel]
  refine ⟨?_, heq, ?_⟩
  · intro s job rest hrq hnull
    refine ⟨_, step_of_null P s job rest hrq hnull, ?_, ?_⟩
    · rw [dispatch_log]; rfl
    · rw [dispatch_dispatch_count]; rfl
  · obtain ⟨r, hr⟩ := run_returns P.declining (declining_selects P) pol jobs
    exact ⟨_, r, hr, by rw [← heq]; exact hr⟩

/-- Claim C13: for the empty job list and any policy (whatever its `getNextJob`
does, and with no iteration of the loop allowed), `SchedulerEngine::run` returns
the result with no completed jobs, `total_waiting_time = total_turnaround_time =
cpu_active_time = idle_time = makespan = 0` and `dispatch_count = 0`, on which
`averageWaitingTime()`, `averageTurnaroundTime()`, `cpuUtilization()` and
`contextSwitches()` are all `0`. -/
theorem C13_empty_job_list {σ : Type} (P : ISchedulingPolicy σ) (pol : σ) (fuel : Nat) :
    ∃ r, run fuel P pol [] = some r ∧ run 0 P pol [] = some r ∧
      r.completed_jobs = [] ∧ r.total_waiting_time = 0 ∧ r.total_turnaround_time = 0 ∧
      r.cpu_active_time = 0 ∧ r.idle_time = 0 ∧ r.makespan = 0 ∧ r.dispatch_count = 0 ∧
      r.averageWaitingTime = 0 ∧ r.averageTurnaroundTime = 0 ∧ r.cpuUtilization = 0 ∧
      r.contextSwitches = 0 := by
  refine ⟨{}, run_nil P fuel pol, run_nil P 0 pol, rfl, rfl, rfl, rfl, rfl, rfl, rfl, ?_, ?_,
    ?_, ?_⟩
  · simp [ScheduleResult.averageWaitingTime]
  · simp [ScheduleResult.averageTurnaroundTime]
  · simp [ScheduleResult.cpuUtilization]
  · simp [ScheduleResult.contextSwitches]

end chronos

/-! ## Averages -/

namespace chronos

section Totals

variable {σ : Type} (P : ISchedulingPolicy σ)

theorem dispatch_totals_of_completes (s : EngineState σ) (idx : Nat) (job : Job)
    (h : completes P s job) :
    (dispatch P s idx job).result.total_waiting_time =
        s.result.total_waiting_time + (completedJob P s job).waiting_time ∧
      (dispatch P s idx job).result.total_turnaround_time =
        s.result.total_turnaround_time + (completedJob P s job).turnaround_time := by
  unfold completes executionOf at h
  unfold dispatch; simp only []; rw [if_pos (by simpa using h)]
  simp [completedJob, clockAfter, executionOf, finishedJob, Job.calculateMetrics]

theorem dispatch_totals_of_not_completes (s : EngineState σ) (idx : Nat) (job : Job)
    (h : ¬ completes P s job) :
    (dispatch P s idx job).result.total_waiting_time = s.result.total_waiting_time ∧
      (dispatch P s idx job).result.total_turnaround_time =
        s.result.total_turnaround_time := by
  unfold completes executionOf at h
  unfold dispatch; simp only []; rw [if_neg (by simpa using h)]
  exact ⟨rfl, rfl⟩

theorem idleStep_totals (s : EngineState σ) :
    (idleStep s).result.total_waiting_time = s.result.total_waiting_time ∧
      (idleStep s).result.total_turnaround_time = s.result.total_turnaround_time := by
  unfold idleStep; split
  · exact ⟨rfl, rfl⟩
  · split <;> exact ⟨rfl, rfl⟩

/-- An iteration keeps the totals equal to the sums over the completed jobs. -/
theorem totals_step (s s' : EngineState σ)
    (hi : s.result.total_waiting_time = (s.result.completed_jobs.map Job.waiting_time).sum ∧
      s.result.total_turnaround_time =
        (s.result.completed_jobs.map Job.turnaround_time).sum)
    (h : step P s = some s') :
    s'.result.total_waiting_time = (s'.result.completed_jobs.map Job.waiting_time).sum ∧
      s'.result.total_turnaround_time =
        (s'.result.completed_jobs.map Job.turnaround_time).sum := by
  rcases step_cases P h with ⟨_, rfl⟩ | ⟨_, p, idx, job, hjob, _, _, rfl⟩
  · obtain ⟨h1, h2⟩ := idleStep_totals (admitted s)
    rw [h1, h2, idleStep_completed_jobs]
    exact hi
  · generalize hs1 : ({ admitted s with policy := p } : EngineState σ) = s1
    have hres : s1.result = s.result := by rw [← hs1]; rfl
    by_cases hc : completes P s1 job
    · obtain ⟨h1, h2⟩ := dispatch_totals_of_completes P s1 idx job hc
      rw [h1, h2, dispatch_completed_of_completes P s1 idx job hc, hres]
      simp only [List.map_append, List.sum_append, List.map_cons, List.map_nil, List.sum_cons,
        List.sum_nil, add_zero]
      exact ⟨by rw [hi.1], by rw [hi.2]⟩
    · obtain ⟨h1, h2⟩ := dispatch_totals_of_not_completes P s1 idx job hc
      rw [h1, h2, dispatch_completed_of_not_completes P s1 idx job hc, hres]
      exact hi

end Totals

theorem clampMakespan_totals (r : ScheduleResult) :
    (clampMakespan r).total_waiting_time = r.total_waiting_time ∧
      (clampMakespan r).total_turnaround_time = r.total_turnaround_time := by
  unfold clampMakespan; split <;> exact ⟨rfl, rfl⟩

namespace MetricsCollector

/-- The totals of the collector are the sums over its completed jobs. -/
theorem call_totals (m : MetricsCollector) (c : MetricsCall)
    (h : m.total_waiting_time_ = (m.completed_jobs_.map Job.waiting_time).sum ∧
      m.total_turnaround_time_ = (m.completed_jobs_.map Job.turnaround_time).sum) :
    (m.call c).total_waiting_time_ = ((m.call c).completed_jobs_.map Job.waiting_time).sum ∧
      (m.call c).total_turnaround_time_ =
        ((m.call c).completed_jobs_.map Job.turnaround_time).sum := by
  cases c with
  | recordJobCompletion job =>
    simp only [call, recordJobCompletion, List.map_append, List.sum_append, List.map_cons,
      List.map_nil, List.sum_cons, List.sum_nil, add_zero]
    exact ⟨by rw [h.1], by rw [h.2]⟩
  | recordCpuActivity duration =>
    simp only [call, recordCpuActivity]
    split <;> exact h
  | recordIdleTime duration =>
    simp only [call, recordIdleTime]
    split <;> exact h
  | recordContextSwitch => exact h
  | setMakespan makespan => exact h
  | reset => simp [call, reset, construct]

theorem foldl_totals : ∀ (calls : List MetricsCall) (m : MetricsCollector),
    (m.total_waiting_time_ = (m.completed_jobs_.map Job.waiting_time).sum ∧
      m.total_turnaround_time_ = (m.completed_jobs_.map Job.turnaround_time).sum) →
    ((calls.foldl call m).total_waiting_time_ =
        ((calls.foldl call m).completed_jobs_.map Job.waiting_time).sum ∧
      (calls.foldl call m).total_turnaround_time_ =
        ((calls.foldl call m).completed_jobs_.map Job.turnaround_time).sum) := by
  intro calls
  induction calls with
  | nil => intro m h; exact h
  | cons c rest ih => intro m h; exact ih _ (call_totals m c h)

theorem call_completed_jobs (m : MetricsCollector) (c : MetricsCall) :
    (m.call c).completed_jobs_ =
      if c = MetricsCall.reset then []
      else m.completed_jobs_ ++ (MetricsCall.job? c).toList := by
  cases c with
  | recordJobCompletion job => simp [call, recordJobCompletion, MetricsCall.job?]
  | recordCpuActivity duration =>
    simp only [call, recordCpuActivity]
    split <;> simp [MetricsCall.job?]
  | recordIdleTime duration =>
    simp only [call, recordIdleTime]
    split <;> simp [MetricsCall.job?]
  | recordContextSwitch => simp [call, recordContextSwitch, MetricsCall.job?]
  | setMakespan makespan => simp [call, setMakespan, MetricsCall.job?]
  | reset => simp [call, reset, construct]

theorem foldl_completed_jobs : ∀ (calls : List MetricsCall) (m : MetricsCollector),
    (calls.foldl call m).completed_jobs_ =
      if MetricsCall.reset ∈ calls then recordedJobs calls
      else m.completed_jobs_ ++ calls.filterMap MetricsCall.job? := by
  intro calls
  induction calls with
  | nil => intro m; simp
  | cons c rest ih =>
    intro m
    rw [List.foldl_cons, ih, call_completed_jobs]
    by_cases hr : MetricsCall.reset ∈ rest
    · rw [if_pos hr, if_pos (List.mem_cons_of_mem _ hr)]
      unfold recordedJobs
      conv_rhs => unfold callsSinceReset
      rw [if_pos hr]
    · rw [if_neg hr]
      by_cases hc : c = MetricsCall.reset
      · subst hc
        rw [if_pos rfl, if_pos (List.mem_cons_self _ _)]
        unfold recordedJobs
        conv_rhs => unfold callsSinceReset
        rw [if_neg hr, if_pos rfl]
        simp
      · rw [if_neg hc]
        have hnot : MetricsCall.reset ∉ c :: rest := by
          simp only [List.mem_cons, not_or]
          exact ⟨fun e => hc e.symm, hr⟩
        rw [if_neg hnot]
        cases hj : MetricsCall.job? c with
        | none => simp [List.filterMap_cons, hj]
        | some j => simp [List.filterMap_cons, hj]

/-- The completed jobs of the collector are the jobs recorded since construction
or the last `reset`. -/
theorem afterCalls_completed_jobs (calls : List MetricsCall) :
    (afterCalls calls).completed_jobs_ = recordedJobs calls := by
  unfold afterCalls
  rw [foldl_completed_jobs]
  split
  · rfl
  · rename_i h
    unfold recordedJobs
    rw [callsSinceReset_of_not_mem calls h]
    simp [construct]

theorem afterCalls_totals (calls : List MetricsCall) :
    (afterCalls calls).total_waiting_time_ =
        ((recordedJobs calls).map Job.waiting_time).sum ∧
      (afterCalls calls).total_turnaround_time_ =
        ((recordedJobs calls).map Job.turnaround_time).sum := by
  have := foldl_totals calls construct (by simp [construct])
  rw [← afterCalls_completed_jobs]
  exact this

end MetricsCollector

/-- A total divided by a count, `0` for no entries, is the mean. -/
theorem mean_eq (xs : List ℚ) (total : ℚ) (h : total = xs.sum) :
    (if xs.length = 0 then 0 else total / (xs.length : ℚ)) = mean xs := by
  unfold mean
  cases xs with
  | nil => simp
  | cons a t => simp [h]

/-- Claim C14: the average getters return the arithmetic mean over the recorded
completions and `0` when there are none: for every result of
`SchedulerEngine::run`, `averageWaitingTime()` (`averageTurnaroundTime()`) is the
mean of `waiting_time` (`turnaround_time`) over `completed_jobs`; for every
sequence of calls on a `MetricsCollector`, `getAverageWaitingTime()` and
`getAverageTurnaroundTime()` are the means over the jobs recorded since
construction or the last `reset`; the mean of no values is `0`; and the run
returns whenever the policy selects from the ready queue. -/
theorem C14_averages_are_means {σ : Type} (P : ISchedulingPolicy σ) (pol : σ)
    (jobs : List Job) :
    (∀ fuel r, run fuel P pol jobs = some r →
      r.averageWaitingTime = mean (r.completed_jobs.map Job.waiting_time) ∧
      r.averageTurnaroundTime = mean (r.completed_jobs.map Job.turnaround_time)) ∧
    (∀ calls : List MetricsCall,
      (MetricsCollector.afterCalls calls).completed_jobs_ = recordedJobs calls ∧
      (MetricsCollector.afterCalls calls).getAverageWaitingTime =
        mean ((recordedJobs calls).map Job.waiting_time) ∧
      (MetricsCollector.afterCalls calls).getAverageTurnaroundTime =
        mean ((recordedJobs calls).map Job.turnaround_time)) ∧
    mean [] = 0 ∧
    (∀ xs : List ℚ, xs ≠ [] → mean xs = xs.sum / (xs.length : ℚ)) ∧
    (P.Selects → ∃ fuel r, run fuel P pol jobs = some r) := by
  refine ⟨?_, ?_, by simp [mean], ?_, fun hsel => ⟨_, run_returns P hsel pol jobs⟩⟩
  · intro fuel r hr
    have key : ∀ r : ScheduleResult,
        r.total_waiting_time = (r.completed_jobs.map Job.waiting_time).sum →
        r.total_turnaround_time = (r.completed_jobs.map Job.turnaround_time).sum →
        r.averageWaitingTime = mean (r.completed_jobs.map Job.waiting_time) ∧
        r.averageTurnaroundTime = mean (r.completed_jobs.map Job.turnaround_time) := by
      intro r h1 h2
      have e1 := mean_eq (r.completed_jobs.map Job.waiting_time) _ h1
      have e2 := mean_eq (r.completed_jobs.map Job.turnaround_time) _ h2
      simp only [List.length_map] at e1 e2
      unfold ScheduleResult.averageWaitingTime ScheduleResult.averageTurnaroundTime
      rw [← e1, ← e2]
      cases hcj : r.completed_jobs with
      | nil => simp
      | cons a t => simp
    by_cases hne : jobs = []
    · subst hne
      rw [run_nil] at hr
      cases hr
      exact key {} rfl rfl
    · obtain ⟨s, hs, rfl⟩ := run_eq_some P hne hr
      have hinv := runLoop_invariant P
        (fun st => st.result.total_waiting_time =
            (st.result.completed_jobs.map Job.waiting_time).sum ∧
          st.result.total_turnaround_time =
            (st.result.completed_jobs.map Job.turnaround_time).sum)
        (fun st st' hi _ hst => totals_step P st st' hi hst)
        fuel (initialState pol jobs) s (by simp [initialState]) hs
      obtain ⟨c1, c2⟩ := clampMakespan_totals s.result
      exact key _ (by rw [c1, clampMakespan_completed_jobs]; exact hinv.1)
        (by rw [c2, clampMakespan_completed_jobs]; exact hinv.2)
  · intro calls
    obtain ⟨h1, h2⟩ := MetricsCollector.afterCalls_totals calls
    have hc := MetricsCollector.afterCalls_completed_jobs calls
    refine ⟨hc, ?_, ?_⟩
    · unfold MetricsCollector.getAverageWaitingTime MetricsCollector.calculateAverage
      rw [hc]
      have := mean_eq ((recordedJobs calls).map Job.waiting_time) _ h1
      simpa using this
    · unfold MetricsCollector.getAverageTurnaroundTime MetricsCollector.calculateAverage
      rw [hc]
      have := mean_eq ((recordedJobs calls).map Job.turnaround_time) _ h2
      simpa using this
  · intro xs hxs
    unfold mean
    cases xs with
    | nil => exact absurd rfl hxs
    | cons a t => simp

end chronos

/-! ## The makespan -/

namespace chronos

section Makespan

variable {σ : Type} (P : ISchedulingPolicy σ)

theorem queue_ne_nil_of_not_finished (s : EngineState σ) (h : s.finished = false) :
    s.queue ≠ [] := by
  intro hq
  unfold EngineState.queue at hq
  have := List.append_eq_nil.mp hq
  simp [EngineState.finished, this.1, this.2] at h

theorem admitted_queue_ne_nil (s : EngineState σ) (h : s.queue ≠ []) :
    (admitted s).queue ≠ [] := by
  intro hq
  have := admitted_queue_map Job.id (fun _ => rfl) s
  rw [hq] at this
  simp only [List.map_nil] at this
  exact h (List.map_eq_nil_iff.mp this.symm)

theorem step_simulation_start (s s' : EngineState σ) (h : step P s = some s') :
    s'.simulation_start = s.simulation_start := by
  rcases step_cases P h with ⟨_, rfl⟩ | ⟨_, p, idx, job, hjob, _, _, rfl⟩
  · simp
  · simp

/-- An iteration on positive work keeps the invariant for the makespan. -/
theorem finishInv_step (start : ℚ) (s s' : EngineState σ) (hi : FinishInv start s)
    (hrun : s.finished = false) (h : step P s = some s') : FinishInv start s' := by
  obtain ⟨hw, hb, hst, hle, _⟩ := hi
  have hclock := (active_nonneg_step P s s' hw h).2
  refine ⟨positiveWork_step P s s' hw h, balanced_step P s s' hb h,
    by rw [step_simulation_start P s s' h, hst], ?_, ?_⟩
  · rcases completed_metrics_step P s s' h with hc | ⟨j, hc, _, hfin, _, _⟩
    · intro x hx
      rw [hc] at hx
      exact le_trans (hle x hx) hclock
    · intro x hx
      rw [hc] at hx
      rcases List.mem_append.mp hx with hx | hx
      · exact le_trans (hle x hx) hclock
      · simp only [List.mem_singleton] at hx
        rw [hx, hfin]
  · intro hq
    have hne := admitted_queue_ne_nil s (queue_ne_nil_of_not_finished s hrun)
    rcases step_cases P h with ⟨_, rfl⟩ | ⟨_, p, idx, job, hjob, _, _, rfl⟩
    · rw [idleStep_queue] at hq
      exact absurd hq hne
    · by_cases hc : completes P { admitted s with policy := p } job
      · refine ⟨completedJob P { admitted s with policy := p } job, ?_, ?_⟩
        · rw [dispatch_completed_of_completes P _ idx job hc]
          exact List.mem_append_right _ (List.mem_singleton_self _)
        · simp
      · exfalso
        unfold EngineState.queue at hq
        rw [dispatch_ready_of_not_completes P _ idx job hc] at hq
        have h1 := (List.append_eq_nil.mp hq).1
        have h2 : ((admitted s).ready_queue.set idx
            (preemptedJob P { admitted s with policy := p } job)).length = 0 := by
          rw [show ({ admitted s with policy := p } : EngineState σ).ready_queue =
            (admitted s).ready_queue from rfl] at h1
          rw [h1]; rfl
        rw [List.length_set] at h2
        have h3 := List.mem_iff_getElem?.mpr ⟨idx, hjob⟩
        rw [List.length_eq_zero.mp h2] at h3
        cases h3

/-- The head of the sorted job list has the least arrival time of the job list. -/
theorem sortJobs_head_least (jobs : List Job) (a : Job) (rest : List Job)
    (h : sortJobs jobs = a :: rest) :
    IsLeast {t | ∃ j ∈ jobs, j.arrival_time = t} a.arrival_time := by
  have hs := sortJobs_sorted jobs
  have hp := sortJobs_perm jobs
  rw [h] at hs hp
  constructor
  · exact ⟨a, hp.subset (List.mem_cons_self _ _), rfl⟩
  · rintro t ⟨j, hj, rfl⟩
    have hj' : j ∈ a :: rest := hp.symm.subset hj
    rcases List.mem_cons.mp hj' with hj' | hj'
    · rw [hj']
    · have := (List.pairwise_cons.mp hs).1 j hj'
      rcases (arrivalLE_iff a j).mp this with h1 | ⟨h1, _⟩
      · exact h1.le
      · exact h1.le

end Makespan

/-- Claim C16: for a non-empty list of fresh jobs with positive burst times and a
policy that selects from the ready queue, `SchedulerEngine::run` returns, and the
makespan of every result it returns is the maximum `finish_time` over
`completed_jobs` minus the minimum `arrival_time` over the input jobs, replaced by
`0` when that difference is below `EPSILON`. -/
theorem C16_makespan_is_last_finish_minus_first_arrival {σ : Type}
    (P : ISchedulingPolicy σ) (hsel : P.Selects) (pol : σ) (jobs : List Job)
    (hne : jobs ≠ []) (hfresh : ∀ j ∈ jobs, j.Fresh) (hpos : ∀ j ∈ jobs, 0 < j.burst_time) :
    (∃ fuel r, run fuel P pol jobs = some r) ∧
    ∀ fuel r, run fuel P pol jobs = some r →
      ∃ F A : ℚ, IsGreatest {t | ∃ j ∈ r.completed_jobs, j.finish_time = t} F ∧
        IsLeast {t | ∃ j ∈ jobs, j.arrival_time = t} A ∧
        r.makespan = if F - A < EPSILON then 0 else F - A := by
  refine ⟨⟨_, run_returns P hsel pol jobs⟩, ?_⟩
  intro fuel r hr
  obtain ⟨s, hs, rfl⟩ := run_eq_some P hne hr
  obtain ⟨a, rest, hsort⟩ : ∃ a rest, sortJobs jobs = a :: rest := by
    cases hsj : sortJobs jobs with
    | nil =>
      have := (sortJobs_perm jobs).length_eq
      rw [hsj] at this
      exact absurd (List.length_eq_zero.mp this.symm) hne
    | cons a rest => exact ⟨a, rest, rfl⟩
  have hstart : (initialState pol jobs).simulation_start = a.arrival_time := by
    simp [initialState, hsort]
  have hinit : FinishInv a.arrival_time (initialState pol jobs) := by
    refine ⟨positiveWork_initialState pol jobs (fresh_remaining_pos hfresh hpos),
      balanced_initialState pol jobs, hstart, by simp [initialState], ?_⟩
    intro hq
    simp [initialState, EngineState.queue, hsort] at hq
  have hinv := runLoop_invariant P (FinishInv a.arrival_time)
    (finishInv_step P a.arrival_time) fuel (initialState pol jobs) s hinit hs
  have hfin := runLoop_finished P fuel _ s hs
  simp only [EngineState.finished, Bool.and_eq_true, List.isEmpty_iff] at hfin
  obtain ⟨_, ⟨_, _, hmk⟩, hst, hle, hex⟩ := hinv
  have hq : s.queue = [] := by simp [EngineState.queue, hfin.1, hfin.2]
  obtain ⟨jl, hjl, hjf⟩ := hex hq
  refine ⟨s.current_time, a.arrival_time, ⟨?_, ?_⟩, sortJobs_head_least jobs a rest hsort, ?_⟩
  · exact ⟨jl, by simpa using hjl, hjf⟩
  · rintro t ⟨j, hj, rfl⟩
    exact hle j (by simpa using hj)
  · have hraw : s.result.makespan = s.current_time - a.arrival_time := by
      rw [hmk hfin.1, hst]
    unfold clampMakespan
    split
    · rename_i hlt
      rw [hraw] at hlt
      rw [if_pos hlt]
    · rename_i hlt
      rw [hraw] at hlt
      rw [if_neg hlt, hraw]

/-- The theorem of C16 on three jobs with a gap before the last arrival, under
Round Robin with quantum 2. -/
theorem C16_makespan_is_last_finish_minus_first_arrival_witness :
    (roundRobinPolicy 2).Selects ∧
    [Job.create 3 9 1 0, Job.create 2 1 3 0, Job.create 1 1 5 0] ≠ [] ∧
    (∀ j ∈ [Job.create 3 9 1 0, Job.create 2 1 3 0, Job.create 1 1 5 0], j.Fresh) ∧
    (∀ j ∈ [Job.create 3 9 1 0, Job.create 2 1 3 0, Job.create 1 1 5 0], 0 < j.burst_time) ∧
    ((∃ fuel r, run fuel (roundRobinPolicy 2) []
      [Job.create 3 9 1 0, Job.create 2 1 3 0, Job.create 1 1 5 0] = some r) ∧
    ∀ fuel r, run fuel (roundRobinPolicy 2) []
      [Job.create 3 9 1 0, Job.create 2 1 3 0, Job.create 1 1 5 0] = some r →
      ∃ F A : ℚ, IsGreatest {t | ∃ j ∈ r.completed_jobs, j.finish_time = t} F ∧
        IsLeast {t | ∃ j ∈ [Job.create 3 9 1 0, Job.create 2 1 3 0, Job.create 1 1 5 0],
          j.arrival_time = t} A ∧
        r.makespan = if F - A < EPSILON then 0 else F - A) :=
  ⟨roundRobinPolicy_selects 2, by simp, by decide!, by decide!,
    C16_makespan_is_last_finish_minus_first_arrival (roundRobinPolicy 2)
      (roundRobinPolicy_selects 2) []
      [Job.create 3 9 1 0, Job.create 2 1 3 0, Job.create 1 1 5 0] (by simp)
      (by decide!) (by decide!)⟩

end chronos

/-! ## Termination over exact arithmetic -/

namespace chronos

/-- A dispatch that does not complete the job takes at least `EPSILON` off its
remaining time. -/
theorem preemptedJob_remaining_le {σ : Type} (P : ISchedulingPolicy σ) (s : EngineState σ)
    (job : Job) (h : ¬ completes P s job) :
    (preemptedJob P s job).remaining_time + EPSILON ≤ job.remaining_time := by
  have hpos := EPSILON_pos
  rw [preemptedJob_remaining_time]
  unfold completes executionOf at h
  unfold executionOf
  rcases leftover_cases (P.getTimeSlice s.policy) job.remaining_time with h0 | ⟨_, h2, h3, _⟩
  · rw [h0] at h
    exact absurd hpos.le h
  · rw [h2]
    linarith

/-- An iteration that does not dispatch leaves the pending list as it is and moves
the clock forward to the next arrival. -/
theorem idle_iteration_advances {σ : Type} (P : ISchedulingPolicy σ) (s s' : EngineState σ)
    (hrun : s.finished = false) (h : step P s = some s') (hlog : s'.log = s.log) :
    ∃ next rest, s.pending = next :: rest ∧ s'.pending = s.pending ∧
      s.current_time < s'.current_time ∧ s'.current_time = next.arrival_time := by
  rcases step_cases P h with ⟨he, rfl⟩ | ⟨_, p, idx, job, hjob, _, _, rfl⟩
  · obtain ⟨h1, h2, h3⟩ := admitted_ready_nil he
    have hp : s.pending ≠ [] := by
      intro hp
      simp [EngineState.finished, hp, h1] at hrun
    obtain ⟨j, rest, hjr⟩ := List.exists_cons_of_ne_nil hp
    have hj := h3 j rest hjr
    have hlt : s.current_time < j.arrival_time := by
      have : ¬ j.arrival_time ≤ s.current_time + EPSILON := by
        simpa [arrived] using hj
      linarith [EPSILON_pos]
    have hap : (admitted s).pending = j :: rest := by rw [h2, hjr]
    have hclock := (idleStep_current_time_of_cons (admitted s) j rest hap hlt).1
    exact ⟨j, rest, hjr, by rw [idleStep_pending, h2], by rw [hclock]; exact hlt, hclock⟩
  · rw [dispatch_log] at hlog
    have := congrArg List.length hlog
    simp at this

/-- Over exact arithmetic, for every job list (any burst times, zero and negative
included) and every policy, with any time slice, whose `getNextJob` answers with
null or a member of the ready queue, the run terminates (within `fuelBound`
iterations of the main loop): every dispatch completes the selected job or lowers
its remaining time by at least `EPSILON`, every iteration without a dispatch moves
the clock forward to the next arrival, and every iteration lowers `fuelBound`.
With the rounding of the C++ code a dispatch can leave the remaining time as it
was; see `binary32_leftover_absorbed`. -/
theorem exact_run_terminates {σ : Type} (P : ISchedulingPolicy σ) (hsel : P.Selects) (pol : σ)
    (jobs : List Job) :
    (∃ r, run (fuelBound (initialState pol jobs)) P pol jobs = some r) ∧
    (∀ (s : EngineState σ) (idx : Nat) (job : Job),
      (completes P s job ∧
        (dispatch P s idx job).ready_queue = s.ready_queue.eraseIdx idx ∧
        (dispatch P s idx job).result.completed_jobs =
          s.result.completed_jobs ++ [completedJob P s job] ∧
        (completedJob P s job).remaining_time = 0) ∨
      (¬ completes P s job ∧
        (dispatch P s idx job).ready_queue = s.ready_queue.set idx (preemptedJob P s job) ∧
        (preemptedJob P s job).remaining_time + EPSILON ≤ job.remaining_time)) ∧
    (∀ s s' : EngineState σ, s.finished = false → step P s = some s' → s'.log = s.log →
      s'.pending.length < s.pending.length ∨
      ∃ next rest, s.pending = next :: rest ∧ s.current_time < s'.current_time ∧
        s'.current_time = next.arrival_time) ∧
    (∀ s : EngineState σ, s.finished = false →
      ∃ s', step P s = some s' ∧ fuelBound s' < fuelBound s) := by
  refine ⟨run_returns P hsel pol jobs, ?_, ?_, fun s hrun => step_decreases P hsel s hrun⟩
  · intro s idx job
    by_cases hc : completes P s job
    · exact Or.inl ⟨hc, dispatch_ready_of_completes P s idx job hc,
        dispatch_completed_of_completes P s idx job hc, completedJob_remaining_time P s job⟩
    · exact Or.inr ⟨hc, dispatch_ready_of_not_completes P s idx job hc,
        preemptedJob_remaining_le P s job hc⟩
  · intro s s' hrun h hlog
    obtain ⟨next, rest, h1, _, h3, h4⟩ := idle_iteration_advances P s s' hrun h hlog
    exact Or.inr ⟨next, rest, h1, h3, h4⟩

end chronos

/-! ## No job runs before it has arrived, up to the tolerance -/

namespace chronos

section Timing

variable {σ : Type} (P : ISchedulingPolicy σ)

theorem startedJob_start_time_of_unset (t : ℚ) (job : Job) (h : job.start_time < 0) :
    (startedJob t job).start_time = max t job.arrival_time := by
  unfold startedJob; rw [if_pos h]

theorem startedJob_of_set (t : ℚ) (job : Job) (h : ¬ job.start_time < 0) :
    startedJob t job = job := by
  unfold startedJob; rw [if_neg h]

@[simp] theorem completedJob_start_time (s : EngineState σ) (job : Job) :
    (completedJob P s job).start_time = (startedJob s.current_time job).start_time := by
  simp [completedJob, finishedJob, Job.calculateMetrics]

@[simp] theorem preemptedJob_start_time (s : EngineState σ) (job : Job) :
    (preemptedJob P s job).start_time = (startedJob s.current_time job).start_time := by
  simp [preemptedJob]

@[simp] theorem preemptedJob_burst_time (s : EngineState σ) (job : Job) :
    (preemptedJob P s job).burst_time = job.burst_time := by
  simp [preemptedJob]

/-- The start stamp `max(current_time, arrival_time)` is at most `EPSILON` after the
clock at which the slice starts. -/
theorem max_le_dispatchClock (t : ℚ) (job : Job) :
    max t job.arrival_time ≤ dispatchClock t job + EPSILON := by
  have hpos := EPSILON_pos
  unfold dispatchClock
  split
  · linarith
  · rename_i h
    linarith [not_lt.mp h]

theorem max_dispatchClock (t : ℚ) (job : Job) :
    max (dispatchClock t job) job.arrival_time = max t job.arrival_time := by
  unfold dispatchClock
  split
  · exact max_eq_left (le_max_right _ _)
  · rfl

theorem le_of_leftover_le (r e : ℚ) (h : leftover r e ≤ EPSILON) : r - e ≤ EPSILON := by
  unfold leftover at h
  simp only [] at h
  split at h
  · rename_i hlt; exact hlt.le
  · exact h

theorem leftover_of_gt (r e : ℚ) (h : ¬ leftover r e ≤ EPSILON) : leftover r e = r - e := by
  have hpos := EPSILON_pos
  unfold leftover at h ⊢
  simp only [] at h ⊢
  split
  · rename_i hlt
    rw [if_pos hlt] at h
    exact absurd hpos.le h
  · rfl

theorem onTime_mono (j : Job) (c c' : ℚ) (hc : c ≤ c') (h : j.OnTime c) : j.OnTime c' := by
  rcases h with h | ⟨h1, h2, h3⟩
  · exact Or.inl h
  · exact Or.inr ⟨h1, h2, by linarith⟩

/-- The job being dispatched: where its start stamp lies. -/
theorem started_bounds (t : ℚ) (job : Job) (harr : 0 ≤ job.arrival_time) (h : job.OnTime t) :
    0 ≤ (startedJob t job).start_time ∧
      job.arrival_time ≤ (startedJob t job).start_time ∧
      (startedJob t job).start_time + (job.burst_time - job.remaining_time) ≤
        dispatchClock t job + EPSILON := by
  have hge := dispatchClock_ge t job
  by_cases hs : job.start_time < 0
  · rcases h with ⟨_, hrem⟩ | ⟨h1, _, _⟩
    · rw [startedJob_start_time_of_unset t job hs, hrem]
      refine ⟨le_trans harr (le_max_right _ _), le_max_right _ _, ?_⟩
      have := max_le_dispatchClock t job
      linarith
    · exact absurd hs (not_lt.mpr h1)
  · rw [startedJob_of_set t job hs]
    rcases h with ⟨h1, _⟩ | ⟨h1, h2, h3⟩
    · exact absurd h1 hs
    · exact ⟨h1, h2, by linarith⟩

/-- The dispatch branch of an iteration, with the state after the selection named:
it differs from the state after the admission in the policy state only. -/
theorem step_cases_named {s s' : EngineState σ} (h : step P s = some s') :
    ((admitted s).ready_queue = [] ∧ s' = idleStep (admitted s)) ∨
    ∃ (s1 : EngineState σ) (idx : Nat) (job : Job),
      s1.ready_queue = (admitted s).ready_queue ∧ s1.pending = (admitted s).pending ∧
      s1.queue = (admitted s).queue ∧ s1.current_time = s.current_time ∧
      s1.result = s.result ∧ s1.log = s.log ∧ s1.simulation_start = s.simulation_start ∧
      s1.ready_queue[idx]? = some job ∧ s' = dispatch P s1 idx job := by
  rcases step_cases P h with h1 | ⟨_, p, idx, job, hjob, _, _, hs'⟩
  · exact Or.inl h1
  · exact Or.inr ⟨{ admitted s with policy := p }, idx, job, rfl, rfl, rfl, rfl, rfl, rfl, rfl,
      hjob, hs'⟩

/-- An iteration keeps the timing invariant. -/
theorem timingInv_step (s s' : EngineState σ) (hi : TimingInv s) (_hrun : s.finished = false)
    (h : step P s = some s') : TimingInv s' := by
  obtain ⟨hw, harr, hon, hdone⟩ := hi
  have hclock := (active_nonneg_step P s s' hw h).2
  have harr_a : ∀ j ∈ (admitted s).queue, 0 ≤ j.arrival_time := by
    intro j hj
    obtain ⟨j0, hj0, rfl | rfl⟩ := mem_admitted_queue hj
    · exact harr _ hj0
    · exact harr j0 hj0
  have hon_a : ∀ j ∈ (admitted s).queue, j.OnTime s.current_time := by
    intro j hj
    obtain ⟨j0, hj0, rfl | rfl⟩ := mem_admitted_queue hj
    · exact hon _ hj0
    · exact hon j0 hj0
  refine ⟨positiveWork_step P s s' hw h, ?_, ?_, ?_⟩
  · rcases step_cases_named P h with ⟨_, rfl⟩ | ⟨s1, idx, job, _, _, hq1, _, _, _, _, hjob, rfl⟩
    · intro j hj
      rw [idleStep_queue] at hj
      exact harr_a j hj
    · intro j hj
      rcases mem_dispatch_queue P hj with hj | ⟨_, rfl⟩
      · exact harr_a j (hq1 ▸ hj)
      · rw [preemptedJob_arrival_time]
        exact harr_a job (hq1 ▸ mem_queue_of_getElem? hjob)
  · rcases step_cases_named P h with ⟨_, rfl⟩ | ⟨s1, idx, job, _, _, hq1, ht1, _, _, _, hjob, rfl⟩
    · intro j hj
      rw [idleStep_queue] at hj
      exact onTime_mono j _ _ hclock (hon_a j hj)
    · intro j hj
      rcases mem_dispatch_queue P hj with hj | ⟨hc, rfl⟩
      · exact onTime_mono j _ _ hclock (hon_a j (hq1 ▸ hj))
      · have hjq : job ∈ (admitted s).queue := hq1 ▸ mem_queue_of_getElem? hjob
        obtain ⟨b1, b2, b3⟩ := started_bounds s.current_time job (harr_a job hjq)
          (hon_a job hjq)
        have hl := leftover_of_gt _ _ hc
        right
        rw [preemptedJob_start_time, preemptedJob_arrival_time, preemptedJob_burst_time,
          preemptedJob_remaining_time, dispatch_current_time, hl, ht1]
        unfold clockAfter
        rw [ht1]
        exact ⟨b1, b2, by linarith⟩
  · rcases step_cases_named P h with ⟨_, rfl⟩ | ⟨s1, idx, job, _, _, hq1, ht1, hr1, _, _, hjob, rfl⟩
    · rw [idleStep_completed_jobs]
      exact hdone
    · by_cases hc : completes P s1 job
      · rw [dispatch_completed_of_completes P _ idx job hc, hr1]
        intro j hj
        rcases List.mem_append.mp hj with hj | hj
        · exact hdone j hj
        · simp only [List.mem_singleton] at hj
          subst hj
          have hjq : job ∈ (admitted s).queue := hq1 ▸ mem_queue_of_getElem? hjob
          obtain ⟨_, b2, b3⟩ := started_bounds s.current_time job (harr_a job hjq)
            (hon_a job hjq)
          have hle := le_of_leftover_le _ _ hc
          unfold Job.RanLongEnough
          rw [completedJob_start_time, completedJob_arrival_time,
            completedJob_burst_time, completedJob_finish_time, completedJob_waiting_time, ht1]
          unfold clockAfter
          rw [ht1]
          refine ⟨b2, ?_, ?_⟩ <;> linarith
      · rw [dispatch_completed_of_not_completes P _ idx job hc, hr1]
        exact hdone

theorem timingInv_initialState (pol : σ) (jobs : List Job) (hfresh : ∀ j ∈ jobs, j.Fresh)
    (harr : ∀ j ∈ jobs, 0 ≤ j.arrival_time) (hpos : ∀ j ∈ jobs, 0 < j.burst_time) :
    TimingInv (initialState pol jobs) := by
  have hmem : ∀ j ∈ (initialState pol jobs).queue, j ∈ jobs := by
    intro j hj
    have : j ∈ sortJobs jobs := by simpa [initialState, EngineState.queue] using hj
    exact (sortJobs_perm jobs).subset this
  refine ⟨positiveWork_initialState pol jobs (fresh_remaining_pos hfresh hpos),
    fun j hj => harr j (hmem j hj), ?_, by simp [initialState]⟩
  intro j hj
  have hf := hfresh j (hmem j hj)
  exact Or.inl ⟨hf.2.1, hf.1⟩

end Timing

/-- Over exact arithmetic, for fresh jobs with non-negative arrival times and
positive burst times and a policy that selects from the ready queue, every
completed job of every result has `start_time ≥ arrival_time`,
`waiting_time ≥ -2 * EPSILON` and
`finish_time - start_time ≥ burst_time - 2 * EPSILON`: the two tolerances
(admission within `EPSILON`, completion within `EPSILON`) are all a job can lose.
With the rounding of the C++ code the two bounds on the times fail; see
`binary32_waiting_time_drifts`. -/
theorem exact_timing_within_two_tolerances {σ : Type} (P : ISchedulingPolicy σ)
    (hsel : P.Selects) (pol : σ) (jobs : List Job) (hfresh : ∀ j ∈ jobs, j.Fresh)
    (harr : ∀ j ∈ jobs, 0 ≤ j.arrival_time) (hpos : ∀ j ∈ jobs, 0 < j.burst_time) :
    (∃ fuel r, run fuel P pol jobs = some r) ∧
    ∀ fuel r, run fuel P pol jobs = some r → ∀ j ∈ r.completed_jobs,
      j.arrival_time ≤ j.start_time ∧
      -(2 * EPSILON) ≤ j.waiting_time ∧
      j.burst_time - 2 * EPSILON ≤ j.finish_time - j.start_time := by
  refine ⟨⟨_, run_returns P hsel pol jobs⟩, ?_⟩
  intro fuel r hr j hj
  by_cases hne : jobs = []
  · subst hne
    rw [run_nil] at hr
    cases hr
    simp at hj
  · obtain ⟨s, hs, rfl⟩ := run_eq_some P hne hr
    rw [clampMakespan_completed_jobs] at hj
    have hinv := runLoop_invariant P TimingInv (timingInv_step P)
      fuel (initialState pol jobs) s (timingInv_initialState pol jobs hfresh harr hpos) hs
    obtain ⟨h1, h2, h3⟩ := hinv.2.2.2 j hj
    exact ⟨h1, h3, h2⟩

end chronos

/-! ## The start stamp -/

namespace chronos

theorem firstDispatch_append_of_some (log l : List DispatchEvent) (id : Int)
    (e : DispatchEvent) (h : firstDispatch log id = some e) :
    firstDispatch (log ++ l) id = some e := by
  unfold firstDispatch at h ⊢
  rw [List.find?_append, h]
  rfl

theorem firstDispatch_append_of_ne (log : List DispatchEvent) (id : Int) (e : DispatchEvent)
    (h : e.id ≠ id) : firstDispatch (log ++ [e]) id = firstDispatch log id := by
  unfold firstDispatch
  rw [List.find?_append]
  have hb : (e.id == id) = false := by simpa using h
  have : List.find? (fun e => e.id == id) [e] = none := by
    simp only [List.find?, hb]
  rw [this]
  simp

theorem firstDispatch_append_self (log : List DispatchEvent) (e : DispatchEvent)
    (h : firstDispatch log e.id = none) : firstDispatch (log ++ [e]) e.id = some e := by
  unfold firstDispatch at h ⊢
  rw [List.find?_append, h]
  simp [List.find?]

theorem mem_set_eraseIdx : ∀ (l : List Job) (i : Nat) (a x : Job),
    x ∈ l.set i a → x = a ∨ x ∈ l.eraseIdx i := by
  intro l
  induction l with
  | nil => intro i a x h; simp at h
  | cons b t ih =>
    intro i a x h
    cases i with
    | zero =>
      simp only [List.set, List.mem_cons] at h
      simp only [List.eraseIdx]
      exact h
    | succ n =>
      simp only [List.set, List.mem_cons] at h
      simp only [List.eraseIdx, List.mem_cons]
      rcases h with h | h
      · exact Or.inr (Or.inl h)
      · rcases ih n a x h with h | h
        · exact Or.inl h
        · exact Or.inr (Or.inr h)

/-- With pairwise distinct ids, every job other than the one at index `idx` of the
ready queue has another id. -/
theorem id_ne_of_nodup (c r p : List Job) (idx : Nat) (job : Job)
    (hn : ((c ++ (r ++ p)).map Job.id).Nodup) (hjob : r[idx]? = some job) :
    ∀ x ∈ c ++ (r.eraseIdx idx ++ p), x.id ≠ job.id := by
  have hperm : List.Perm (c ++ (r ++ p)) (job :: (c ++ (r.eraseIdx idx ++ p))) := by
    have h1 := perm_cons_eraseIdx r idx job hjob
    have h2 : List.Perm (r ++ p) (job :: (r.eraseIdx idx ++ p)) := by
      simpa using h1.append_right p
    exact (List.Perm.append_left c h2).trans List.perm_middle
  have hn2 := (hperm.map Job.id).nodup_iff.mp hn
  simp only [List.map_cons, List.nodup_cons] at hn2
  intro x hx hid
  exact hn2.1 (hid ▸ List.mem_map_of_mem Job.id hx)

section Stamp

variable {σ : Type} (P : ISchedulingPolicy σ)

/-- A job held after a dispatch is another job of the queue, or the preempted job. -/
theorem mem_dispatch_queue_others {s : EngineState σ} {idx : Nat} {job j : Job}
    (h : j ∈ (dispatch P s idx job).queue) :
    j ∈ s.ready_queue.eraseIdx idx ++ s.pending ∨
      (¬ completes P s job ∧ j = preemptedJob P s job) := by
  unfold EngineState.queue at h
  by_cases hc : completes P s job
  · rw [dispatch_pending, dispatch_ready_of_completes P s idx job hc] at h
    exact Or.inl h
  · rw [dispatch_pending, dispatch_ready_of_not_completes P s idx job hc] at h
    rcases List.mem_append.mp h with h | h
    · rcases mem_set_eraseIdx _ _ _ _ h with h | h
      · exact Or.inr ⟨hc, h⟩
      · exact Or.inl (List.mem_append_left _ h)
    · exact Or.inl (List.mem_append_right _ h)

/-- An iteration keeps the ids of the jobs of the state pairwise distinct. -/
theorem nodup_ids_step (s s' : EngineState σ) (h : step P s = some s')
    (hn : ((s.result.completed_jobs ++ s.queue).map Job.id).Nodup) :
    ((s'.result.completed_jobs ++ s'.queue).map Job.id).Nodup := by
  have hk := (keys_step P s s' h).map Prod.fst
  simp only [List.map_map] at hk
  have e : (Prod.fst ∘ Job.key) = Job.id := rfl
  rw [e] at hk
  exact hk.nodup_iff.mpr hn

theorem stampInv_step (s s' : EngineState σ) (hi : StampInv s) (_hrun : s.finished = false)
    (h : step P s = some s') : StampInv s' := by
  obtain ⟨hq, hc⟩ := hi
  have hq_a : ∀ j ∈ (admitted s).queue, j.start_time < 0 ∨ j.arrival_time ≤ j.start_time := by
    intro j hj
    obtain ⟨j0, hj0, rfl | rfl⟩ := mem_admitted_queue hj
    · exact hq _ hj0
    · exact hq j0 hj0
  have hstamp : ∀ (t : ℚ) (job : Job),
      (job.start_time < 0 ∨ job.arrival_time ≤ job.start_time) →
      job.arrival_time ≤ (startedJob t job).start_time := by
    intro t job hj
    by_cases hs : job.start_time < 0
    · rw [startedJob_start_time_of_unset t job hs]
      exact le_max_right _ _
    · rw [startedJob_of_set t job hs]
      rcases hj with hj | hj
      · exact absurd hj hs
      · exact hj
  rcases step_cases_named P h with ⟨_, rfl⟩ | ⟨s1, idx, job, _, _, hq1, _, hr1, _, _, hjob, rfl⟩
  · exact ⟨by simpa using hq_a, by simpa using hc⟩
  · have hjq : job ∈ (admitted s).queue := hq1 ▸ mem_queue_of_getElem? hjob
    constructor
    · intro j hj
      rcases mem_dispatch_queue P hj with hj | ⟨_, rfl⟩
      · exact hq_a j (hq1 ▸ hj)
      · right
        rw [preemptedJob_start_time, preemptedJob_arrival_time]
        exact hstamp _ job (hq_a job hjq)
    · by_cases hcm : completes P s1 job
      · rw [dispatch_completed_of_completes P _ idx job hcm, hr1]
        intro j hj
        rcases List.mem_append.mp hj with hj | hj
        · exact hc j hj
        · simp only [List.mem_singleton] at hj
          subst hj
          rw [completedJob_start_time, completedJob_arrival_time]
          exact hstamp _ job (hq_a job hjq)
      · rw [dispatch_completed_of_not_completes P _ idx job hcm, hr1]
        exact hc

/-- The job being dispatched carries, afterwards, the stamp of its first dispatch. -/
theorem started_at_first_dispatch (log : List DispatchEvent) (t : ℚ) (job : Job)
    (harr : 0 ≤ job.arrival_time)
    (h : (job.start_time < 0 ∧ firstDispatch log job.id = none) ∨
      (0 ≤ job.start_time ∧ job.StartedAtFirstDispatch log)) :
    0 ≤ (startedJob t job).start_time ∧
    ∃ e, firstDispatch (log ++ [{ id := job.id, clock := dispatchClock t job }]) job.id
        = some e ∧
      (startedJob t job).start_time = max e.clock job.arrival_time := by
  rcases h with ⟨h1, h2⟩ | ⟨h1, e, h2, h3⟩
  · rw [startedJob_start_time_of_unset t job h1]
    refine ⟨le_trans harr (le_max_right _ _), _,
      firstDispatch_append_self log { id := job.id, clock := dispatchClock t job } h2, ?_⟩
    exact (max_dispatchClock t job).symm
  · rw [startedJob_of_set t job (not_lt.mpr h1)]
    exact ⟨h1, e, firstDispatch_append_of_some log _ job.id e h2, h3⟩

theorem startInv_step (s s' : EngineState σ) (hi : StartInv s) (_hrun : s.finished = false)
    (h : step P s = some s') : StartInv s' := by
  obtain ⟨hn, harr, hq, hc⟩ := hi
  have hn_a : (((admitted s).result.completed_jobs ++ (admitted s).queue).map Job.id).Nodup := by
    simp only [List.map_append, admitted_result] at hn ⊢
    rw [admitted_queue_map Job.id (fun _ => rfl)]
    exact hn
  have harr_a : ∀ j ∈ (admitted s).queue, 0 ≤ j.arrival_time := by
    intro j hj
    obtain ⟨j0, hj0, rfl | rfl⟩ := mem_admitted_queue hj
    · exact harr _ hj0
    · exact harr j0 hj0
  have hq_a : ∀ j ∈ (admitted s).queue,
      (j.start_time < 0 ∧ firstDispatch s.log j.id = none) ∨
        (0 ≤ j.start_time ∧ j.StartedAtFirstDispatch s.log) := by
    intro j hj
    obtain ⟨j0, hj0, rfl | rfl⟩ := mem_admitted_queue hj
    · exact hq _ hj0
    · exact hq j0 hj0
  refine ⟨nodup_ids_step P s s' h hn, ?_⟩
  rcases step_cases_named P h with ⟨_, rfl⟩ |
    ⟨s1, idx, job, hrq1, hp1, hq1, _, hr1, hl1, _, hjob, rfl⟩
  · exact ⟨by simpa using harr_a, by simpa using hq_a, by simpa using hc⟩
  · have hjq : job ∈ (admitted s).queue := hq1 ▸ mem_queue_of_getElem? hjob
    have hne : ∀ x ∈ s.result.completed_jobs ++ (s1.ready_queue.eraseIdx idx ++ s1.pending),
        x.id ≠ job.id := by
      refine id_ne_of_nodup _ _ _ idx job ?_ hjob
      rw [hrq1, hp1]
      simpa [EngineState.queue] using hn_a
    obtain ⟨b1, e, b2, b3⟩ := started_at_first_dispatch s.log s1.current_time job
      (harr_a job hjq) (hq_a job hjq)
    have hother : ∀ x : Job, x.id ≠ job.id →
        firstDispatch (s.log ++ [{ id := job.id, clock := dispatchClock s1.current_time job }])
          x.id = firstDispatch s.log x.id :=
      fun x hx => firstDispatch_append_of_ne s.log x.id _ (fun e => hx e.symm)
    refine ⟨?_, ?_, ?_⟩
    · intro j hj
      rcases mem_dispatch_queue P hj with hj | ⟨_, rfl⟩
      · exact harr_a j (hq1 ▸ hj)
      · rw [preemptedJob_arrival_time]
        exact harr_a job hjq
    · intro j hj
      rw [dispatch_log, hl1]
      rcases mem_dispatch_queue_others P hj with hj | ⟨_, rfl⟩
      · have hid := hne j (List.mem_append_right _ hj)
        have hjold : j ∈ (admitted s).queue := by
          rw [← hq1]
          unfold EngineState.queue
          rcases List.mem_append.mp hj with hj | hj
          · exact List.mem_append_left _ (List.mem_of_mem_eraseIdx hj)
          · exact List.mem_append_right _ hj
        unfold Job.StartedAtFirstDispatch
        rw [hother j hid]
        exact hq_a j hjold
      · right
        unfold Job.StartedAtFirstDispatch
        rw [preemptedJob_start_time, preemptedJob_id, preemptedJob_arrival_time]
        exact ⟨b1, e, b2, b3⟩
    · rw [dispatch_log, hl1]
      by_cases hcm : completes P s1 job
      · rw [dispatch_completed_of_completes P _ idx job hcm, hr1]
        intro j hj
        rcases List.mem_append.mp hj with hj | hj
        · have hid := hne j (List.mem_append_left _ hj)
          unfold Job.StartedAtFirstDispatch
          rw [hother j hid]
          exact hc j hj
        · simp only [List.mem_singleton] at hj
          subst hj
          unfold Job.StartedAtFirstDispatch
          rw [completedJob_start_time, completedJob_id, completedJob_arrival_time]
          exact ⟨e, b2, b3⟩
      · rw [dispatch_completed_of_not_completes P _ idx job hcm, hr1]
        intro j hj
        have hid := hne j (List.mem_append_left _ hj)
        unfold Job.StartedAtFirstDispatch
        rw [hother j hid]
        exact hc j hj

theorem startInv_initialState (pol : σ) (jobs : List Job) (hfresh : ∀ j ∈ jobs, j.Fresh)
    (harr : ∀ j ∈ jobs, 0 ≤ j.arrival_time) (hdistinct : (jobs.map Job.id).Nodup) :
    StartInv (initialState pol jobs) := by
  have hmem : ∀ j ∈ (initialState pol jobs).queue, j ∈ jobs := by
    intro j hj
    have : j ∈ sortJobs jobs := by simpa [initialState, EngineState.queue] using hj
    exact (sortJobs_perm jobs).subset this
  refine ⟨?_, fun j hj => harr j (hmem j hj), ?_, by simp [initialState]⟩
  · have := ((sortJobs_perm jobs).map Job.id).nodup_iff.mpr hdistinct
    simpa [initialState, EngineState.queue] using this
  · intro j hj
    exact Or.inl ⟨(hfresh j (hmem j hj)).2.1, by simp [initialState, firstDispatch]⟩

theorem stampInv_initialState (pol : σ) (jobs : List Job) (hfresh : ∀ j ∈ jobs, j.Fresh) :
    StampInv (initialState pol jobs) := by
  refine ⟨?_, by simp [initialState]⟩
  intro j hj
  have : j ∈ sortJobs jobs := by simpa [initialState, EngineState.queue] using hj
  exact Or.inl (hfresh j ((sortJobs_perm jobs).subset this)).2.1

end Stamp

end chronos

namespace chronos

/-- Claim C15: for fresh jobs with non-negative arrival times and every policy
(quantum-based ones included), the `start_time` of each completed job returned by
`SchedulerEngine::run` is set exactly once.  A dispatch of a job whose `start_time`
is unset stamps `max(clock, arrival_time)`, a dispatch of a job whose `start_time`
is set leaves it as it is; every completed job has `start_time ≥ arrival_time`;
and, the ids being pairwise distinct, the `start_time` of every completed job is
`max(clock, arrival_time)` at the first dispatch of the job in the dispatch log,
whatever the number of its later dispatches (the log holds the clock at which the
slice starts, and `max` of it and the arrival time is `max` of the clock before
the idle gap and the arrival time).  The run returns whenever the policy selects
from the ready queue. -/
theorem C15_start_time_set_once {σ : Type} (P : ISchedulingPolicy σ) (pol : σ)
    (jobs : List Job) (hfresh : ∀ j ∈ jobs, j.Fresh)
    (harr : ∀ j ∈ jobs, 0 ≤ j.arrival_time) :
    (∀ fuel r, run fuel P pol jobs = some r →
      ∀ j ∈ r.completed_jobs, j.arrival_time ≤ j.start_time) ∧
    ((jobs.map Job.id).Nodup → ∀ fuel s, runState fuel P pol jobs = some s →
      ∃ r, run fuel P pol jobs = some r ∧ r.completed_jobs = s.result.completed_jobs ∧
        ∀ j ∈ r.completed_jobs, ∃ e, firstDispatch s.log j.id = some e ∧
          j.start_time = max e.clock j.arrival_time) ∧
    (∀ (s : EngineState σ) (job : Job), job.start_time < 0 →
      (preemptedJob P s job).start_time = max s.current_time job.arrival_time ∧
      (completedJob P s job).start_time = max s.current_time job.arrival_time ∧
      max (dispatchClock s.current_time job) job.arrival_time =
        max s.current_time job.arrival_time) ∧
    (∀ (s : EngineState σ) (job : Job), 0 ≤ job.start_time →
      (preemptedJob P s job).start_time = job.start_time ∧
      (completedJob P s job).start_time = job.start_time) ∧
    (P.Selects → ∃ fuel r, run fuel P pol jobs = some r) := by
  refine ⟨?_, ?_, ?_, ?_, fun hsel => ⟨_, run_returns P hsel pol jobs⟩⟩
  · intro fuel r hr j hj
    by_cases hne : jobs = []
    · subst hne
      rw [run_nil] at hr
      cases hr
      simp at hj
    · obtain ⟨s, hs, rfl⟩ := run_eq_some P hne hr
      rw [clampMakespan_completed_jobs] at hj
      have hinv := runLoop_invariant P StampInv (stampInv_step P)
        fuel (initialState pol jobs) s (stampInv_initialState pol jobs hfresh) hs
      exact hinv.2 j hj
  · intro hdistinct fuel s hs
    obtain ⟨r, hr, hrc, _⟩ := run_of_runState P hs
    refine ⟨r, hr, hrc, ?_⟩
    have hinv := runLoop_invariant P StartInv (startInv_step P)
      fuel (initialState pol jobs) s (startInv_initialState pol jobs hfresh harr hdistinct) hs
    intro j hj
    rw [hrc] at hj
    exact hinv.2.2.2 j hj
  · intro s job hs
    rw [preemptedJob_start_time, completedJob_start_time,
      startedJob_start_time_of_unset _ job hs]
    exact ⟨rfl, rfl, max_dispatchClock _ job⟩
  · intro s job hs
    rw [preemptedJob_start_time, completedJob_start_time,
      startedJob_of_set _ job (not_lt.mpr hs)]
    exact ⟨rfl, rfl⟩

/-- The theorem of C15 on the Round Robin scenario, where job A is dispatched three
times and job B twice. -/
theorem C15_start_time_set_once_witness :
    (∀ j ∈ [Job.create 1 0 5 0, Job.create 2 0 3 0], j.Fresh) ∧
    (∀ j ∈ [Job.create 1 0 5 0, Job.create 2 0 3 0], 0 ≤ j.arrival_time) ∧
    ((∀ fuel r, run fuel (roundRobinPolicy 2) [] [Job.create 1 0 5 0, Job.create 2 0 3 0]
        = some r → ∀ j ∈ r.completed_jobs, j.arrival_time ≤ j.start_time) ∧
    (([Job.create 1 0 5 0, Job.create 2 0 3 0].map Job.id).Nodup → ∀ fuel s,
      runState fuel (roundRobinPolicy 2) [] [Job.create 1 0 5 0, Job.create 2 0 3 0] = some s →
      ∃ r, run fuel (roundRobinPolicy 2) [] [Job.create 1 0 5 0, Job.create 2 0 3 0] = some r ∧
        r.completed_jobs = s.result.completed_jobs ∧
        ∀ j ∈ r.completed_jobs, ∃ e, firstDispatch s.log j.id = some e ∧
          j.start_time = max e.clock j.arrival_time) ∧
    (∀ (s : EngineState (List Int)) (job : Job), job.start_time < 0 →
      (preemptedJob (roundRobinPolicy 2) s job).start_time =
        max s.current_time job.arrival_time ∧
      (completedJob (roundRobinPolicy 2) s job).start_time =
        max s.current_time job.arrival_time ∧
      max (dispatchClock s.current_time job) job.arrival_time =
        max s.current_time job.arrival_time) ∧
    (∀ (s : EngineState (List Int)) (job : Job), 0 ≤ job.start_time →
      (preemptedJob (roundRobinPolicy 2) s job).start_time = job.start_time ∧
      (completedJob (roundRobinPolicy 2) s job).start_time = job.start_time) ∧
    ((roundRobinPolicy 2).Selects → ∃ fuel r,
      run fuel (roundRobinPolicy 2) [] [Job.create 1 0 5 0, Job.create 2 0 3 0] = some r)) :=
  ⟨by decide!, by decide!,
    C15_start_time_set_once (roundRobinPolicy 2) [] [Job.create 1 0 5 0, Job.create 2 0 3 0]
      (by decide!) (by decide!)⟩

end chronos

/-! ## The worker thread -/

namespace chronos

/-- Claim C17 (evaluation of the code at the failing input): one iteration of
`WorkerPool::workerThread` on the ready queue `A(id=1, remaining=5)`,
`B(id=2, remaining=4)` under Round Robin with quantum 2, which selects A: after the
iteration the ready queue holds job B twice, with the remaining time `5 - 2 = 3`
computed for A, and job A is gone.  When the selected job is the last one of the
queue (shortest remaining time first selects B) the reference dangles. -/
theorem C17_worker_requeues_the_wrong_job :
    ((roundRobinPolicy 2).getNextJob [] [Job.create 1 0 5 0, Job.create 2 0 4 0]).1 = some 0 ∧
    (workerIteration (roundRobinPolicy 2)
        { ready_queue_ := [Job.create 1 0 5 0, Job.create 2 0 4 0], current_time_ := 0,
          policy_ := [] }).map
      (fun w => w.ready_queue_.map (fun j => (j.id, j.remaining_time, j.state))) =
      some [(2, 3, JobState.READY), (2, 3, JobState.READY)] ∧
    ((statelessPolicy shorterRemaining 2).getNextJob ()
        [Job.create 1 0 5 0, Job.create 2 0 4 0]).1 = some 1 ∧
    (workerIteration (statelessPolicy shorterRemaining 2)
        { ready_queue_ := [Job.create 1 0 5 0, Job.create 2 0 4 0], current_time_ := 0,
          policy_ := () }).map
      (fun w => w.ready_queue_.map (fun j => (j.id, j.remaining_time, j.state))) = none := by
  refine ⟨by decide!, by decide!, by decide!, by decide!⟩

end chronos

/-! ## The engine over exact arithmetic is the engine above -/

namespace chronos

theorem exactArithmetic_admitJobs (current_time : ℚ) (pending ready_queue : List Job) :
    exactArithmetic.admitJobs current_time pending ready_queue =
      admitJobs current_time pending ready_queue := by
  induction pending generalizing ready_queue with
  | nil => rfl
  | cons job rest ih =>
    unfold Arithmetic.admitJobs admitJobs
    rw [ih]
    rfl

theorem exactArithmetic_admitted {σ : Type} (s : EngineState σ) :
    exactArithmetic.admitted s = admitted s := by
  unfold Arithmetic.admitted admitted
  rw [exactArithmetic_admitJobs]

theorem exactArithmetic_dispatch {σ : Type} (P : ISchedulingPolicy σ) (s : EngineState σ)
    (idx : Nat) (job : Job) : exactArithmetic.dispatch P s idx job = dispatch P s idx job :=
  rfl

theorem exactArithmetic_step {σ : Type} (P : ISchedulingPolicy σ) (s : EngineState σ) :
    exactArithmetic.step P s = step P s := by
  unfold Arithmetic.step step
  rw [exactArithmetic_admitted]
  rfl

theorem exactArithmetic_runLoop {σ : Type} (P : ISchedulingPolicy σ) (fuel : Nat)
    (s : EngineState σ) : exactArithmetic.runLoop P fuel s = runLoop P fuel s := by
  induction fuel generalizing s with
  | zero => rfl
  | succ n ih =>
    unfold Arithmetic.runLoop runLoop
    rw [exactArithmetic_step]
    have hrec : exactArithmetic.runLoop P n = runLoop P n := funext ih
    rw [hrec]

/-- With exact arithmetic the engine over an arithmetic is the engine of the
theorems above: the two differ in the arithmetic only. -/
theorem exactArithmetic_run {σ : Type} (fuel : Nat) (P : ISchedulingPolicy σ) (pol : σ)
    (jobs : List Job) : exactArithmetic.run fuel P pol jobs = run fuel P pol jobs := by
  unfold Arithmetic.run run Arithmetic.runState runState
  rw [exactArithmetic_runLoop]
  rfl

/-- The getter over exact arithmetic. -/
theorem exactArithmetic_cpuUtilization (r : ScheduleResult) :
    exactArithmetic.cpuUtilization r = r.cpuUtilization := rfl

end chronos

/-! ## The engine in binary32 -/

namespace chronos

section Binary32

variable {σ : Type} (P : ISchedulingPolicy σ)

/-- A slice of `1` taken off a remaining time of `2 ^ 25` leaves `2 ^ 25`: the
difference `33554431` lies half way between the neighbouring binary32 numbers
`33554430` and `33554432` and is rounded to the even one. -/
theorem binary32_leftover_absorbed :
    binary32.sliceOf 1 33554432 = 1 ∧ binary32.leftover 33554432 1 = 33554432 ∧
    ¬ ((33554432 : ℚ) ≤ binary32.epsilon) := by decide!

/-- A dispatch that does not complete the job, in any arithmetic: the pending list
stays, the counter of dispatches goes up by one and the job stays in its slot of
the ready queue with what the slice left. -/
theorem arithmetic_dispatch_preempts (A : Arithmetic) (s : EngineState σ) (idx : Nat)
    (job : Job)
    (h : ¬ A.leftover job.remaining_time
      (A.sliceOf (P.getTimeSlice s.policy) job.remaining_time) ≤ A.epsilon) :
    (A.dispatch P s idx job).pending = s.pending ∧
    (A.dispatch P s idx job).result.dispatch_count = s.result.dispatch_count + 1 ∧
    ∃ j : Job, j.remaining_time = A.leftover job.remaining_time
        (A.sliceOf (P.getTimeSlice s.policy) job.remaining_time) ∧
      (A.dispatch P s idx job).ready_queue = s.ready_queue.set idx j := by
  refine ⟨?_, ?_, ?_⟩
  · unfold Arithmetic.dispatch
    simp only [startedJob_remaining_time, if_neg h]
  · unfold Arithmetic.dispatch
    simp only [startedJob_remaining_time, if_neg h]
  · unfold Arithmetic.dispatch
    simp only [startedJob_remaining_time, if_neg h]
    exact ⟨_, rfl, rfl⟩

/-- The admission loop on a state that holds one job. -/
theorem binary32_admitted_of_holdsOne (r : ℚ) (s : EngineState σ) (h : HoldsOne r s) :
    ∃ j : Job, j.remaining_time = r ∧ (binary32.admitted s).pending = [] ∧
      (binary32.admitted s).ready_queue = [j] := by
  obtain ⟨j, hj, ⟨hp, hr⟩ | ⟨hp, hr, ha⟩⟩ := h
  · refine ⟨j, hj, ?_, ?_⟩ <;>
      simp [Arithmetic.admitted, hp, hr, Arithmetic.admitJobs]
  · refine ⟨{ j with state := JobState.READY }, hj, ?_, ?_⟩ <;>
      simp [Arithmetic.admitted, hp, hr, Arithmetic.admitJobs, ha]

/-- With a quantum of `1`, an iteration on a state that holds one job with
`2 ^ 25` left dispatches the job and leaves it with `2 ^ 25`. -/
theorem binary32_step_of_holdsOne (hsel : P.Selects) (hslice : ∀ st, P.getTimeSlice st = 1)
    (s : EngineState σ) (h : HoldsOne 33554432 s) :
    ∃ s', binary32.step P s = some s' ∧ HoldsOne 33554432 s' ∧
      s'.result.dispatch_count = s.result.dispatch_count + 1 := by
  obtain ⟨j, hj, hp, hr⟩ := binary32_admitted_of_holdsOne 33554432 s h
  obtain ⟨h1, h2, h3⟩ := binary32_leftover_absorbed
  have hidx : ((P.getNextJob (binary32.admitted s).policy [j]).1.getD 0) = 0 := by
    cases hc : (P.getNextJob (binary32.admitted s).policy [j]).1 with
    | none => rfl
    | some i =>
      have := hsel _ _ i hc
      simp only [List.length_singleton, Nat.lt_one_iff] at this
      simp [this]
  have hres : (binary32.admitted s).result = s.result := rfl
  generalize hs1 : ({ binary32.admitted s with
    policy := (P.getNextJob (binary32.admitted s).policy [j]).2 } : EngineState σ) = s1
  have e1 : s1.pending = [] := by rw [← hs1]; exact hp
  have e2 : s1.ready_queue = [j] := by rw [← hs1]; exact hr
  have e3 : s1.result = s.result := by rw [← hs1]; rfl
  have hne : ¬ binary32.leftover j.remaining_time
      (binary32.sliceOf (P.getTimeSlice s1.policy) j.remaining_time) ≤ binary32.epsilon := by
    rw [hj, hslice, h1, h2]
    exact h3
  obtain ⟨d1, d2, j', d3, d4⟩ := arithmetic_dispatch_preempts P binary32 s1 0 j hne
  refine ⟨binary32.dispatch P s1 0 j, ?_, ⟨j', ?_, Or.inl ⟨d1.trans e1, ?_⟩⟩, ?_⟩
  · unfold Arithmetic.step
    simp only [hr, List.isEmpty_cons, Bool.false_eq_true, if_false]
    unfold Arithmetic.selectAndDispatch
    simp only [hr, hidx, List.getElem?_cons_zero]
    rw [← hs1]
    simp only [hr]
  · rw [d3, hj, hslice, h1, h2]
  · rw [d4, e2]
    rfl
  · rw [d2, e3]

/-- The main loop in binary32 does not stop on a state that holds one job with
`2 ^ 25` left, under a quantum of `1`. -/
theorem binary32_runLoop_of_holdsOne (hsel : P.Selects)
    (hslice : ∀ st, P.getTimeSlice st = 1) (fuel : Nat) (s : EngineState σ)
    (h : HoldsOne 33554432 s) : binary32.runLoop P fuel s = none := by
  have hnf : s.finished = false := by
    obtain ⟨j, _, ⟨hp, hr⟩ | ⟨hp, hr, _⟩⟩ := h <;> simp [EngineState.finished, hp, hr]
  induction fuel generalizing s with
  | zero => simp [Arithmetic.runLoop, hnf]
  | succ n ih =>
    obtain ⟨s', hs', hinv, _⟩ := binary32_step_of_holdsOne P hsel hslice s h
    have hnf' : s'.finished = false := by
      obtain ⟨j, _, ⟨hp, hr⟩ | ⟨hp, hr, _⟩⟩ := hinv <;> simp [EngineState.finished, hp, hr]
    unfold Arithmetic.runLoop
    simp only [hnf, Bool.false_eq_true, if_false, hs', Option.some_bind]
    exact ih s' hinv hnf'

/-- After any number of iterations the loop in binary32 is still running, has made
one dispatch per iteration and holds the job with `2 ^ 25` left. -/
theorem binary32_stateAfter_of_holdsOne (hsel : P.Selects)
    (hslice : ∀ st, P.getTimeSlice st = 1) (n : Nat) (s : EngineState σ)
    (h : HoldsOne 33554432 s) :
    ∃ s', binary32.stateAfter P n s = some s' ∧ HoldsOne 33554432 s' ∧
      s'.result.dispatch_count = s.result.dispatch_count + n := by
  induction n generalizing s with
  | zero => exact ⟨s, rfl, h, rfl⟩
  | succ n ih =>
    have hnf : s.finished = false := by
      obtain ⟨j, _, ⟨hp, hr⟩ | ⟨hp, hr, _⟩⟩ := h <;> simp [EngineState.finished, hp, hr]
    obtain ⟨s1, hs1, hinv, hc⟩ := binary32_step_of_holdsOne P hsel hslice s h
    obtain ⟨s', hs', hinv', hc'⟩ := ih s1 hinv
    refine ⟨s', ?_, hinv', by rw [hc', hc]; omega⟩
    unfold Arithmetic.stateAfter
    simp only [hnf, Bool.false_eq_true, if_false, hs1, Option.some_bind]
    exact hs'

end Binary32

end chronos

namespace chronos

/-- The state at the first test of the loop condition on the single job
`A(id=1, arrival=0, burst=2^25)`. -/
theorem holdsOne_initialState {σ : Type} (pol : σ) :
    HoldsOne 33554432 (initialState pol [Job.create 1 0 33554432 0]) := by
  refine ⟨Job.create 1 0 33554432 0, rfl, Or.inr ⟨rfl, rfl, ?_⟩⟩
  show (0 : ℚ) ≤ binary32.add 0 binary32.epsilon
  decide!

theorem holdsOne_running {σ : Type} (r : ℚ) (s : EngineState σ) (h : HoldsOne r s) :
    s.finished = false ∧ s.queue.map Job.remaining_time = [r] := by
  obtain ⟨j, hj, ⟨hp, hr⟩ | ⟨hp, hr, _⟩⟩ := h <;>
    simp [EngineState.finished, EngineState.queue, hp, hr, hj]

/-- Claim C2 (the code departs from it): in binary32, the arithmetic of the C++
code, on the single job `A(id=1, arrival=16777216, burst=1)` under FCFS the sum
`current_time += execution` is rounded back to `16777216` (`2^24 + 1` is not a
binary32 number) while `cpu_active_time += execution` books the slice:
`SchedulerEngine::run` returns `idle_time = 0`, `cpu_active_time = 1` and
`makespan = 0`, so that `idle_time + cpu_active_time` is `1` away from the
makespan, not within `EPSILON`.  On `A(id=1, arrival=0.1f, burst=2)` the makespan
is not clamped and differs from `idle_time + cpu_active_time = 2`. -/
theorem C2_binary32_books_do_not_balance :
    fcfsPolicy.Selects ∧
    (Job.create 1 16777216 1 0).Fresh ∧ (0 : ℚ) < (Job.create 1 16777216 1 0).burst_time ∧
    (binary32.run 1 fcfsPolicy () [Job.create 1 16777216 1 0]).map
      (fun r => (r.idle_time, r.cpu_active_time, r.makespan)) = some (0, 1, 0) ∧
    ¬ (|(0 : ℚ) + 1 - 0| ≤ binary32.epsilon) ∧
    (binary32.run 1 fcfsPolicy () [Job.create 1 (F32.round (1 / 10)) 2 0]).map
      (fun r => (r.idle_time, r.cpu_active_time, r.makespan)) =
        some (0, 2, 16777215 / 8388608) ∧
    (0 : ℚ) + 2 ≠ 16777215 / 8388608 := by
  refine ⟨statelessPolicy_selects _ _, by decide!, by decide!, by decide!, by decide!,
    by decide!, by decide!⟩

/-- Claim C4 (the code departs from it): in binary32, on
`A(id=1, arrival=16777216, burst=1)`, `B(id=2, arrival=16777216, burst=2)` under
FCFS the clock absorbs the slice of A, `SchedulerEngine::run` returns
`cpu_active_time = 3` and `makespan = 2`, and `cpuUtilization()` answers `1.5`; on
`A(id=1, arrival=0.1f, burst=2)` it answers `8388609 / 8388608 > 1`.  The collector
clamps where the getter of `ScheduleResult` does not: on the same books
`getCpuUtilization()` answers `1`. -/
theorem C4_binary32_utilization_exceeds_one :
    fcfsPolicy.Selects ∧
    (∀ j ∈ [Job.create 1 16777216 1 0, Job.create 2 16777216 2 0],
      j.Fresh ∧ 0 ≤ j.arrival_time ∧ 0 < j.burst_time) ∧
    (binary32.run 2 fcfsPolicy () [Job.create 1 16777216 1 0, Job.create 2 16777216 2 0]).map
      (fun r => (r.cpu_active_time, r.makespan, binary32.cpuUtilization r)) =
        some (3, 2, 3 / 2) ∧
    (binary32.run 1 fcfsPolicy () [Job.create 1 (F32.round (1 / 10)) 2 0]).map
      (fun r => (r.cpu_active_time, r.makespan, binary32.cpuUtilization r)) =
        some (2, 16777215 / 8388608, 8388609 / 8388608) ∧
    ¬ ((3 / 2 : ℚ) ≤ 1) ∧ ¬ ((8388609 / 8388608 : ℚ) ≤ 1) ∧
    (MetricsCollector.afterCalls
      [MetricsCall.recordCpuActivity 3, MetricsCall.setMakespan 2]).getCpuUtilization = 1 := by
  refine ⟨statelessPolicy_selects _ _, by decide!, by decide!, by decide!, by decide!,
    by decide!, by decide!⟩

/-- Claim C19 (the code departs from it): in binary32, under any policy with
quantum `1` that selects from the ready queue, `SchedulerEngine::run` does not
return on the single job `A(id=1, arrival=0, burst=2^25)`: the slice `1` is not
below `EPSILON`, so the guard of line 89 does not fire, and
`remaining - execution = 33554431` is rounded back to `33554432`, so that every
dispatch leaves the job as it was.  Whatever the number of iterations granted, the
run has not returned; after `n` iterations the loop is still running, has made `n`
dispatches and the job has all of its burst time left. -/
theorem C19_binary32_run_never_returns {σ : Type} (P : ISchedulingPolicy σ)
    (hsel : P.Selects) (hslice : ∀ st, P.getTimeSlice st = 1) (pol : σ) :
    (∀ fuel, binary32.run fuel P pol [Job.create 1 0 33554432 0] = none) ∧
    (∀ n, ∃ s, binary32.stateAfter P n (initialState pol [Job.create 1 0 33554432 0]) = some s ∧
      s.finished = false ∧ s.result.dispatch_count = n ∧
      s.queue.map Job.remaining_time = [33554432]) := by
  constructor
  · intro fuel
    unfold Arithmetic.run Arithmetic.runState
    rw [binary32_runLoop_of_holdsOne P hsel hslice fuel _ (holdsOne_initialState pol)]
    rfl
  · intro n
    obtain ⟨s, hs, hinv, hc⟩ := binary32_stateAfter_of_holdsOne P hsel hslice n _
      (holdsOne_initialState pol)
    obtain ⟨h1, h2⟩ := holdsOne_running _ s hinv
    refine ⟨s, hs, h1, ?_, h2⟩
    rw [hc]
    simp [initialState]

/-- The theorem of C19 under Round Robin with quantum `1`. -/
theorem C19_binary32_run_never_returns_witness :
    (roundRobinPolicy 1).Selects ∧ (∀ st, (roundRobinPolicy 1).getTimeSlice st = 1) ∧
    ((∀ fuel, binary32.run fuel (roundRobinPolicy 1) [] [Job.create 1 0 33554432 0] = none) ∧
    (∀ n, ∃ s, binary32.stateAfter (roundRobinPolicy 1) n
        (initialState [] [Job.create 1 0 33554432 0]) = some s ∧
      s.finished = false ∧ s.result.dispatch_count = n ∧
      s.queue.map Job.remaining_time = [33554432])) :=
  ⟨roundRobinPolicy_selects 1, fun _ => rfl,
    C19_binary32_run_never_returns (roundRobinPolicy 1) (roundRobinPolicy_selects 1)
      (fun _ => rfl) []⟩

/-- In binary32 the repeated subtraction of the quantum drifts: under Round Robin
with quantum `1.3f` the job of burst `36.4f` takes `29` dispatches, one more than
the least `k ≥ 1` with `burst_time - k * q ≤ EPSILON`, which is `28` (and which
the engine over exact arithmetic takes on the same input). -/
theorem binary32_dispatch_count_drifts :
    (binary32.run 29 (roundRobinPolicy (F32.round (13 / 10))) []
      [Job.create 1 0 (F32.round (364 / 10)) 0]).map (fun r => r.dispatch_count) = some 29 ∧
    dispatchesNeeded (F32.round (13 / 10)) (F32.round (364 / 10)) = 28 ∧
    (run 28 (roundRobinPolicy (F32.round (13 / 10))) []
      [Job.create 1 0 (F32.round (364 / 10)) 0]).map (fun r => r.dispatch_count) = some 28 := by
  refine ⟨by decide!, ?_, by decide!⟩
  unfold dispatchesNeeded
  have h : ⌈(F32.round (364 / 10) - EPSILON) / F32.round (13 / 10)⌉₊ = 28 := by
    rw [Nat.ceil_eq_iff (by norm_num)]
    have h1 : F32.round (364 / 10) = 9542042 / 262144 := by decide!
    have h2 : F32.round (13 / 10) = 10905190 / 8388608 := by decide!
    rw [h1, h2]
    norm_num [EPSILON]
  rw [h]
  rfl

/-- In binary32 the times of a completed job drift: on the single job
`A(id=1, arrival=16777216, burst=1)` under FCFS the clock absorbs the slice, so
that `finish_time = start_time = 16777216` and `waiting_time = -1`; on
`A(id=1, arrival=1024, burst=5e-5f)` the waiting time is `-5e-5f`, below
`-2 * EPSILON`. -/
theorem binary32_waiting_time_drifts :
    (binary32.run 1 fcfsPolicy () [Job.create 1 16777216 1 0]).map
      (fun r => r.completed_jobs.map
        (fun j => (j.id, j.start_time, j.finish_time, j.waiting_time))) =
      some [(1, 16777216, 16777216, -1)] ∧
    (binary32.run 1 fcfsPolicy () [Job.create 1 1024 (F32.round (5 / 100000)) 0]).map
      (fun r => r.completed_jobs.map
        (fun j => (j.id, j.start_time, j.finish_time, j.waiting_time))) =
      some [(1, 1024, 1024, -F32.round (5 / 100000))] ∧
    -F32.round (5 / 100000) < -(2 * binary32.epsilon) := by
  refine ⟨by decide!, by decide!, by decide!⟩

end chronos

/-! ## The number of dispatches, counted on the slices of each job -/

namespace chronos

/-- Over exact arithmetic the slices of a job with positive remaining time under a
quantum of at least `EPSILON` number `dispatchesNeeded`. -/
theorem completesAfter_dispatchesNeeded (q : ℚ) (hq : EPSILON ≤ q) :
    ∀ (n : Nat) (r : ℚ), 0 < r → dispatchesNeeded q r = n → completesAfter q n r = true := by
  have hq0 : 0 < q := lt_of_lt_of_le EPSILON_pos hq
  intro n
  induction n with
  | zero =>
    intro r _ hn
    unfold dispatchesNeeded at hn
    have := le_max_left 1 ⌈(r - EPSILON) / q⌉₊
    omega
  | succ n ih =>
    intro r hr hn
    obtain ⟨hiff, hleft⟩ := leftover_quantum q r hq
    unfold completesAfter
    by_cases hle : r - q ≤ EPSILON
    · rw [if_pos (hiff.mpr hle)]
      have := dispatchesNeeded_eq_one q r hq0 hle
      have hn0 : n = 0 := by omega
      simp [hn0]
    · have hgt : EPSILON < r - q := not_le.mp hle
      rw [if_neg (fun h => hle (hiff.mp h)), hleft hgt]
      refine ih (r - q) (by linarith [EPSILON_pos]) ?_
      have := dispatchesNeeded_succ q r hq0 hgt
      omega

end chronos

/-! ## Every dispatch is of a job that has arrived, up to the tolerance -/

namespace chronos

section Arrived

variable {σ : Type} (P : ISchedulingPolicy σ)

theorem key_mem_of_mem_admitted_queue {s : EngineState σ} {job : Job}
    (h : job ∈ (admitted s).queue) :
    job.key ∈ (s.result.completed_jobs ++ s.queue).map Job.key := by
  obtain ⟨j0, hj0, rfl | rfl⟩ := mem_admitted_queue h
  · exact List.mem_map.mpr ⟨_, List.mem_append_right _ hj0, rfl⟩
  · exact List.mem_map.mpr ⟨j0, List.mem_append_right _ hj0, rfl⟩

/-- An iteration on jobs without negative remaining time keeps the invariant. -/
theorem arrivedInv_step (s s' : EngineState σ) (hi : ArrivedInv s) (_hrun : s.finished = false)
    (h : step P s = some s') : ArrivedInv s' := by
  obtain ⟨hw, hl, hlen, hlog⟩ := hi
  have hkeys := keys_step P s s' h
  have hla := noLookAhead_admitted s hl
  refine ⟨nonnegWork_step P s s' hw h, noLookAhead_step P s s' hw hl h, ?_, ?_⟩
  · rcases step_cases_named P h with ⟨_, rfl⟩ | ⟨s1, idx, job, _, _, _, _, hr1, hl1, _, _, rfl⟩
    · simpa using hlen
    · rw [dispatch_log, dispatch_dispatch_count, hr1, hl1, List.length_append, hlen]
      rfl
  · intro e he
    have hold : ∀ e ∈ s.log, ∃ k ∈ (s'.result.completed_jobs ++ s'.queue).map Job.key,
        k.1 = e.id ∧ k.2.1 ≤ e.clock + EPSILON := by
      intro e he
      obtain ⟨k, hk, h1, h2⟩ := hlog e he
      exact ⟨k, hkeys.symm.subset hk, h1, h2⟩
    rcases step_cases_named P h with ⟨_, rfl⟩ |
      ⟨s1, idx, job, hrq1, _, _, ht1, _, hl1, _, hjob, rfl⟩
    · rw [idleStep_log, admitted_log] at he
      exact hold e he
    · rw [dispatch_log, hl1] at he
      rcases List.mem_append.mp he with he | he
      · exact hold e he
      · simp only [List.mem_singleton] at he
        subst he
        have hmem : job ∈ (admitted s).ready_queue :=
          hrq1 ▸ List.mem_iff_getElem?.mpr ⟨idx, hjob⟩
        have harr := hla job hmem
        simp only [admitted_current_time] at harr
        have hge := dispatchClock_ge s1.current_time job
        rw [ht1] at hge
        refine ⟨job.key, hkeys.symm.subset
          (key_mem_of_mem_admitted_queue (List.mem_append_left _ hmem)), rfl, ?_⟩
        show job.arrival_time ≤ dispatchClock s1.current_time job + EPSILON
        rw [ht1]
        linarith

theorem arrivedInv_initialState (pol : σ) (jobs : List Job)
    (h : ∀ j ∈ jobs, 0 ≤ j.remaining_time) : ArrivedInv (initialState pol jobs) := by
  refine ⟨nonnegWork_initialState pol jobs h, ?_, rfl, ?_⟩
  · intro j hj
    simp [initialState] at hj
  · intro e he
    simp [initialState] at he

end Arrived

end chronos

/-! ## Two worker threads -/

namespace chronos

/-- The two sections of one thread, one after the other, are the iteration of a
worker thread taken alone. -/
theorem runSchedule_one_thread :
    ((WorkerPool.construct 1 []
        [{ Job.create 1 0 5 0 with state := JobState.READY },
          { Job.create 2 0 4 0 with state := JobState.READY }]).runSchedule
        (roundRobinPolicy 2) [WorkerEvent.select 0, WorkerEvent.finish 0]).map
      (fun w => (w.ready_queue_, w.current_time_, w.policy_, w.executing_jobs_)) =
    (workerIteration (roundRobinPolicy 2)
        { ready_queue_ := [{ Job.create 1 0 5 0 with state := JobState.READY },
            { Job.create 2 0 4 0 with state := JobState.READY }],
          current_time_ := 0, policy_ := [] }).map
      (fun w => (w.ready_queue_, w.current_time_, w.policy_, [none])) := by decide!

/-- Claim C18 (the code departs from it): on a pool of two cores with the ready
queue `A(id=1)`, `B(id=2)`, `C(id=3)` (all arrived at `0`) and a policy that
selects the earliest job, quantum `2`, the interleaving "thread 0 runs its locked
section, then thread 1 runs its locked section" ends with both entries of
`executing_jobs_` holding the pointer to slot `0` of the ready queue: thread 0
stored `&job` for A in slot `0` and erased A, which moved B into slot `0`; thread
1 selected B, stored the same address and erased B, which moved C into slot `0`.
Both cores record job C (id `3`), which is still in the ready queue and which
neither thread selected.  With the ready queue `A`, `B` the same interleaving
leaves the same pointer in both entries (the slot lies past the end of the queue
then), and after the section of thread 0 alone its entry designates B, a job in
the ready queue. -/
theorem C18_two_cores_record_the_same_job :
    (statelessPolicy arrivalLess 2).Selects ∧
    ((WorkerPool.construct 2 ()
        [{ Job.create 1 0 5 0 with state := JobState.READY },
          { Job.create 2 0 4 0 with state := JobState.READY },
          { Job.create 3 0 3 0 with state := JobState.READY }]).runSchedule
        (statelessPolicy arrivalLess 2) [WorkerEvent.select 0, WorkerEvent.select 1]).map
      (fun w => (w.executing_jobs_, w.ready_queue_.map Job.id,
        (w.executing 0).map Job.id, (w.executing 1).map Job.id)) =
      some ([some 0, some 0], [3], some 3, some 3) ∧
    ((WorkerPool.construct 2 ()
        [{ Job.create 1 0 5 0 with state := JobState.READY },
          { Job.create 2 0 4 0 with state := JobState.READY }]).runSchedule
        (statelessPolicy arrivalLess 2) [WorkerEvent.select 0, WorkerEvent.select 1]).map
      (fun w => (w.executing_jobs_, w.ready_queue_.map Job.id)) =
      some ([some 0, some 0], []) ∧
    ((WorkerPool.construct 2 ()
        [{ Job.create 1 0 5 0 with state := JobState.READY },
          { Job.create 2 0 4 0 with state := JobState.READY }]).runSchedule
        (statelessPolicy arrivalLess 2) [WorkerEvent.select 0]).map
      (fun w => (w.executing_jobs_, w.ready_queue_.map Job.id,
        (w.executing 0).map Job.id)) =
      some ([some 0, none], [2], some 2) := by
  refine ⟨statelessPolicy_selects _ _, by decide!, by decide!, by decide!⟩

end chronos
